import Mathlib



/-! # 1-billion-row-challenge, `c_parallel.c`

A shallow embedding of the chunk planner, the worker aggregator, the merge
reducer and the report builder of `c_parallel.c`, and theorems about them.

Conventions of the embedding.

* The mapped file is a `List Nat` of bytes (every element below 256 where that
  matters).  `read data i` is `data[i]`; a byte past the end of the file reads
  as `0`, the zero fill that `mmap` gives the tail of the last page.
* `size_t` arithmetic that can wrap (`data_size - 1`, `end_idx - start_idx + 1`)
  is taken modulo `2 ^ 64`.
* `char` is signed (x86-64): `(uint32_t)c` and `(int64_t)c` sign-extend.
* Undefined behaviour (a write past `station_name[99]`, a write past element
  9999 of a statistics array) makes a function return `none`.
* A `double` value is a rational; a conversion of an integer to `double` and a
  division of two `double` values round to 53 significant bits (`to_double`).
-/

namespace RowChallenge

/-! ## Constants and structures -/

/-- The C macro `NUM_BITS`. -/
def NUM_BITS : Nat := 16

/-- The C macro `MASK`, `(1 << NUM_BITS) - 1`. -/
def MASK : Nat := 2 ^ NUM_BITS - 1

/-- The C macro `FNV_PRIME`. -/
def FNV_PRIME : Nat := 16777619

/-- The C macro `FNV_OFFSET_BASIS`. -/
def FNV_OFFSET_BASIS : Nat := 2166136261

/-- Number of values of a `size_t`. -/
def SIZE_MOD : Nat := 2 ^ 64

/-- Number of elements of each statistics array (`calloc(10000, ...)`). -/
def NUM_STATIONS : Nat := 10000

/-- The C struct `Chunk`: an inclusive range of byte offsets. -/
structure Chunk where
  start_idx : Nat
  end_idx : Nat
deriving DecidableEq, Repr

/-- Bytes of an ASCII string, used to write buffers down. -/
def bytes (s : String) : List Nat := s.toList.map Char.toNat

/-- The byte `data[i]` of the mapped file; `0` past its end. -/
def read (data : List Nat) (i : Nat) : Nat := data.getD i 0

/-! ## Chunk planner -/

/-- The call `memchr(&data[off], c, n)`, returned as an index into `data`. -/
def memchr (data : List Nat) (c : Nat) : Nat → Nat → Option Nat
  | 0, _ => none
  | n + 1, off => if read data off = c then some off else memchr data c n (off + 1)

/-- The value `data_size - 1` as a `size_t`. -/
def last_idx (data_size : Nat) : Nat := (data_size + SIZE_MOD - 1) % SIZE_MOD

/-- The `for` loop of `generate_chunk_indices`; the first argument counts the
iterations left (`num_threads - cpu_idx`). -/
def chunk_loop (data : List Nat) (data_size chunk_size : Nat) :
    Nat → Nat → Nat → List Chunk → List Chunk
  | 0, _, _, chunk_list => chunk_list
  | k + 1, cpu_idx, read_off, chunk_list =>
    match memchr data 10 150 read_off with
    | none =>
      chunk_list.modify (fun c => { c with end_idx := last_idx data_size }) cpu_idx
    | some newline_idx =>
      let chunk_list := chunk_list.modify (fun c => { c with end_idx := newline_idx }) (cpu_idx - 1)
      let chunk_list := chunk_list.set cpu_idx ⟨newline_idx + 1, last_idx data_size⟩
      chunk_loop data data_size chunk_size k (cpu_idx + 1) (read_off + chunk_size) chunk_list

/-- The C function `generate_chunk_indices`. -/
def generate_chunk_indices (num_threads data_size : Nat) (data : List Nat) (chunk_size : Nat) :
    List Chunk :=
  let chunk_list := (List.replicate num_threads (⟨0, 0⟩ : Chunk)).set 0 ⟨0, last_idx data_size⟩
  chunk_loop data data_size chunk_size (num_threads - 1) 1 chunk_size chunk_list

/-- The length `end_idx - start_idx + 1` that `main` hands to a worker. -/
def chunk_len (c : Chunk) : Nat := (c.end_idx + SIZE_MOD - c.start_idx + 1) % SIZE_MOD

/-! ## Station table -/

/-- The C struct `StationTemperatures`: four arrays indexed by station index. -/
structure StationTemperatures where
  temp_sum : Nat → Int
  count : Nat → Nat
  min : Nat → Int
  max : Nat → Int

/-- The C struct `MapStruct`.  `name` holds the bytes copied into `char name[100]`;
the bytes after them are `0`. -/
structure MapStruct where
  name : List Nat
  idx : Nat

/-- The C struct `Result`: the statistics arrays and the slot array `idx_map`. -/
structure Result where
  temp : StationTemperatures
  idx_map : Nat → MapStruct

/-- A table under construction: the `Result`, the running `station_idx`, and the
ghost counter `lost` of probes that ran off the end of the slot array (the `for i`
loop ending without a `break`). -/
structure Table where
  result : Result
  station_idx : Nat
  lost : Nat

/-- What `calloc` returns: every slot empty, every statistic zero. -/
def empty_result : Result :=
  { temp := { temp_sum := fun _ => 0, count := fun _ => 0, min := fun _ => 0, max := fun _ => 0 },
    idx_map := fun _ => ⟨[], 0⟩ }

/-- A fresh table with `station_idx = 0`. -/
def empty_table : Table := ⟨empty_result, 0, 0⟩

/-- The C string held in a `char` array: the bytes before the first `0`. -/
def cstr (s : List Nat) : List Nat := s.takeWhile (fun c => c ≠ 0)

/-- The test `name[0] == 0`. -/
def slot_empty (m : MapStruct) : Bool := m.name.headD 0 = 0

/-- The conversion `(uint32_t)c` of a signed `char`. -/
def char_to_u32 (c : Nat) : Nat := if c < 128 then c else c + (2 ^ 32 - 256)

/-- The conversion `(int64_t)c` of a signed `char`. -/
def char_to_int (c : Nat) : Int := if c < 128 then (c : Int) else (c : Int) - 256

/-- One round of the hash: `hash ^= (uint32_t)c; hash *= FNV_PRIME;`. -/
def fnv_step (hash c : Nat) : Nat := (hash ^^^ char_to_u32 c) * FNV_PRIME % 2 ^ 32

/-- The `while (*s)` loop of `fnv_hash`. -/
def fnv_loop : List Nat → Nat → Nat
  | [], hash => hash
  | c :: s, hash => if c = 0 then hash else fnv_loop s (fnv_step hash c)

/-- The C function `fnv_hash`. -/
def fnv_hash (s : List Nat) : Nat := fnv_loop s FNV_OFFSET_BASIS &&& MASK

/-- The probe `for (i = name_hash; i < MASK + 1; i++)` shared by `process_chunk` and
`sum_results`: the first slot from `i` on that is empty or holds `name`, `none` when
the loop reaches `MASK + 1`.  The first argument counts the slots left. -/
def probe (idx_map : Nat → MapStruct) (name : List Nat) : Nat → Nat → Option Nat
  | 0, _ => none
  | k + 1, i =>
    if slot_empty (idx_map i) then some i
    else if cstr (idx_map i).name = cstr name then some i
    else probe idx_map name k (i + 1)

/-- The body of the probe loop of `process_chunk` (lines 142-165). -/
def insert_reading (t : Table) (name_hash : Nat) (station_name : List Nat)
    (temperature : Int) : Option Table :=
  match probe t.result.idx_map station_name (MASK + 1 - name_hash) name_hash with
  | none => some { t with lost := t.lost + 1 }
  | some i =>
    if slot_empty (t.result.idx_map i) then
      if NUM_STATIONS ≤ t.station_idx then none
      else
        some { t with
          result :=
            { idx_map := Function.update t.result.idx_map i ⟨station_name, t.station_idx⟩
              temp :=
                { temp_sum := Function.update t.result.temp.temp_sum t.station_idx temperature
                  count := Function.update t.result.temp.count t.station_idx 1
                  min := Function.update t.result.temp.min t.station_idx temperature
                  max := Function.update t.result.temp.max t.station_idx temperature } }
          station_idx := t.station_idx + 1 }
    else
      let idx := (t.result.idx_map i).idx
      let temp := t.result.temp
      some { t with
        result :=
          { idx_map := t.result.idx_map
            temp :=
              { temp_sum := Function.update temp.temp_sum idx (temp.temp_sum idx + temperature)
                count := Function.update temp.count idx (temp.count idx + 1)
                min := Function.update temp.min idx
                  (if temp.min idx > temperature then temperature else temp.min idx)
                max := Function.update temp.max idx
                  (if temp.max idx < temperature then temperature else temp.max idx) } } }

/-! ## Worker aggregator -/

/-- The loop `while (curr_byte != ';')` of `process_chunk`, returning `semicolon_idx`,
the bytes of `station_name` and `name_hash`.  The first argument counts the tests of
`curr_byte` that can still be made before `station_name[100]` is written. -/
def name_loop (data : List Nat) (content : Nat) :
    Nat → Nat → List Nat → Nat → Option (Nat × List Nat × Nat)
  | 0, _, _, _ => none
  | fuel + 1, semicolon_idx, station_name, name_hash =>
    let curr_byte := read data (content + semicolon_idx)
    if curr_byte = 59 then some (semicolon_idx, station_name, name_hash)
    else
      name_loop data content fuel (semicolon_idx + 1) (station_name ++ [curr_byte])
        (fnv_step name_hash curr_byte)

/-- Lines 123-140 of `process_chunk`: the temperature in tenths and the new value of
`content`, from the position `semi` of the semicolon. -/
def parse_temperature (data : List Nat) (semi : Nat) : Int × Nat :=
  let negate : Int := if read data (semi + 1) = 45 then -1 else 1
  let content := if read data (semi + 1) = 45 then semi + 2 else semi + 1
  if read data (content + 1) = 46 then
    (negate * (char_to_int (read data content) * 10 + char_to_int (read data (content + 2)) - 528),
      content + 4)
  else
    (negate * (char_to_int (read data content) * 100 + char_to_int (read data (content + 1)) * 10
        + char_to_int (read data (content + 3)) - 5328),
      content + 5)

/-- The state of the `while` loop of `process_chunk`: the table and `content`. -/
structure Worker where
  table : Table
  content : Nat

/-- One iteration of the `while` loop of `process_chunk`. -/
def process_record (data : List Nat) (w : Worker) : Option Worker :=
  match name_loop data w.content 99 1 [read data w.content] FNV_OFFSET_BASIS with
  | none => none
  | some (semicolon_idx, station_name, name_hash) =>
    let name_hash := name_hash &&& MASK
    let (temperature, content) := parse_temperature data (w.content + semicolon_idx)
    match insert_reading w.table name_hash station_name temperature with
    | none => none
    | some t => some ⟨t, content⟩

/-- The loop `while (data_end - content > 0)`.  An iteration moves `content` forward,
so `data_size` iterations are enough and the first argument never runs out. -/
def process_loop (data : List Nat) (data_end : Nat) : Nat → Worker → Option Worker
  | 0, w => some w
  | fuel + 1, w =>
    if data_end ≤ w.content then some w
    else
      match process_record data w with
      | none => none
      | some w => process_loop data data_end fuel w

/-- The C function `process_chunk` on `data + start` and `data_size`, with the final
loop state. -/
def process_chunk_state (data : List Nat) (start data_size : Nat) : Option Worker :=
  process_loop data (start + data_size) data_size ⟨empty_table, start⟩

/-- The C function `process_chunk`: the `Result` it returns. -/
def process_chunk (data : List Nat) (start data_size : Nat) : Option Result :=
  (process_chunk_state data start data_size).map (fun w => w.table.result)

/-! ## Merge reducer -/

/-- The body of the loop over `res_idx` of `sum_results` (lines 184-213). -/
def merge_slot (result : Result) (t : Table) (res_idx : Nat) : Option Table :=
  let station := result.idx_map res_idx
  if slot_empty station then some t
  else
    let idx := station.idx
    let name_hash := fnv_hash station.name
    match probe t.result.idx_map station.name (MASK + 1 - name_hash) name_hash with
    | none => some { t with lost := t.lost + 1 }
    | some i =>
      if slot_empty (t.result.idx_map i) then
        if NUM_STATIONS ≤ t.station_idx then none
        else
          some { t with
            result :=
              { idx_map := Function.update t.result.idx_map i ⟨station.name, t.station_idx⟩
                temp :=
                  { temp_sum :=
                      Function.update t.result.temp.temp_sum t.station_idx (result.temp.temp_sum idx)
                    count := Function.update t.result.temp.count t.station_idx (result.temp.count idx)
                    min := Function.update t.result.temp.min t.station_idx (result.temp.min idx)
                    max := Function.update t.result.temp.max t.station_idx (result.temp.max idx) } }
            station_idx := t.station_idx + 1 }
      else
        let st_idx := (t.result.idx_map i).idx
        let temp := t.result.temp
        some { t with
          result :=
            { idx_map := t.result.idx_map
              temp :=
                { temp_sum :=
                    Function.update temp.temp_sum st_idx (temp.temp_sum st_idx + result.temp.temp_sum idx)
                  count := Function.update temp.count st_idx (temp.count st_idx + result.temp.count idx)
                  min := Function.update temp.min st_idx
                    (if temp.min st_idx > result.temp.min idx then result.temp.min idx
                      else temp.min st_idx)
                  max := Function.update temp.max st_idx
                    (if temp.max st_idx < result.temp.max idx then result.temp.max idx
                      else temp.max st_idx) } } }

/-- The loop `for (res_idx = 0; res_idx < MASK + 1; res_idx++)` over one worker's table. -/
def merge_result (t : Table) (result : Result) : Option Table :=
  (List.range (MASK + 1)).foldlM (merge_slot result) t

/-- The C function `sum_results` on the joined workers' results, with the final
`station_idx` and ghost counter. -/
def sum_results_state (results : List Result) : Option Table :=
  results.foldlM merge_result empty_table

/-- The C function `sum_results`: the merged slot array and statistics. -/
def sum_results (results : List Result) : Option Result :=
  (sum_results_state results).map (fun t => t.result)

/-- The ranges cut at the newline offsets `bs`, from `start` to `last`: the result of
`generate_chunk_indices` when every lookahead finds a newline. -/
def mk_chunks (last : Nat) : Nat → List Nat → List Chunk
  | start, [] => [⟨start, last⟩]
  | start, b :: bs => ⟨start, b⟩ :: mk_chunks last (b + 1) bs

/-- The lengths of the lines of a buffer, newline included; a last line without
newline counts too.  `cur` is the length of the line being read. -/
def line_lengths : List Nat → Nat → List Nat
  | [], cur => if cur = 0 then [] else [cur]
  | b :: rest, cur =>
    if b = 10 then (cur + 1) :: line_lengths rest 0 else line_lengths rest (cur + 1)

/-- The bytes of the range `c` of `data`, as `main` hands them to a worker. -/
def chunk_bytes (data : List Nat) (c : Chunk) : List Nat :=
  (data.drop c.start_idx).take (chunk_len c)

/-! ## Rounding -/

/-- The libm function `trunc`: the integer part, rounded toward zero. -/
def trunc (x : ℚ) : ℚ := ((x.num.tdiv (x.den : Int) : Int) : ℚ)

/-- The libm function `fabs`. -/
def fabs (x : ℚ) : ℚ := if x < 0 then -x else x

/-- The C function `round_java`. -/
def round_java (x : ℚ) : ℚ :=
  let rounded := trunc x
  let rounded :=
    if x < 0 ∧ rounded - x = 1 / 2 then rounded
    else if fabs (x - rounded) ≥ 1 / 2 then
      rounded + ((if x > 0 then 1 else 0) - (if x < 0 then 1 else 0))
    else rounded
  if rounded = 0 then 0 else rounded / 10

/-- Rounding to the nearest integer, a tie going to the even one. -/
def round_even (x : ℚ) : Int :=
  if x - ⌊x⌋ < 1 / 2 then ⌊x⌋
  else if 1 / 2 < x - ⌊x⌋ then ⌊x⌋ + 1
  else if ⌊x⌋ % 2 = 0 then ⌊x⌋ else ⌊x⌋ + 1

/-- The `double` nearest to `x` (IEEE 754 binary64, round to nearest, ties to even):
`x` rounded to 53 significant bits.  The exponent is not bounded; the integers of 64
bits and their quotients, which are all that `print_results` converts and divides,
lie in the normal range. -/
def to_double (x : ℚ) : ℚ :=
  if x = 0 then 0
  else (round_even (x * 2 ^ (52 - Int.log 2 |x|)) : ℚ) * 2 ^ (Int.log 2 |x| - 52)

/-- The rounding rule in the words of the specification: truncate `x` toward zero;
move one unit away from zero when the discarded fraction is more than 1/2 in
magnitude, or is exactly 1/2 with `x` positive; otherwise keep the truncation. -/
def spec_round (x : ℚ) : Int :=
  let t : Int := if 0 ≤ x then ⌊x⌋ else ⌈x⌉
  let frac : ℚ := |x - t|
  if frac > 1 / 2 ∨ (frac = 1 / 2 ∧ 0 < x) then (if 0 < x then t + 1 else t - 1) else t

/-- The text of a temperature's sign. -/
def sign_text (neg : Bool) : List Nat := if neg then [45] else []

/-- The factor of a temperature's sign. -/
def sign_factor (neg : Bool) : Int := if neg then -1 else 1

/-! ## Report builder -/

/-- The comparison of two strings without `0` bytes, byte by byte: negative, zero or
positive as the first is below, equal to or above the second. -/
def strcmp_loop : List Nat → List Nat → Int
  | [], [] => 0
  | [], _ :: _ => -1
  | _ :: _, [] => 1
  | a :: s, b :: t => if a < b then -1 else if b < a then 1 else strcmp_loop s t

/-- The libc function `strcmp` on two `char` arrays (bytes read as `unsigned char`). -/
def strcmp (a b : List Nat) : Int := strcmp_loop (cstr a) (cstr b)

/-- The C function `compare`.  Its two arguments point into the slot array, so the
tests of `str_a` and `str_b` against the null pointer never succeed and the result
is that of `strcmp`. -/
def compare (a b : MapStruct) : Int := strcmp a.name b.name

/-- The libc function `qsort`, as a sort by the comparison function `cmp`. -/
def qsort {α : Type} (l : List α) (cmp : α → α → Int) : List α :=
  l.mergeSort (fun a b => decide (cmp a b ≤ 0))

/-- One `Name=min/mean/max` item of the report; the numbers are those that `%.1f`
prints: `round_java` returns the `double` nearest to a whole number of tenths, which
prints as that number of tenths. -/
structure Entry where
  name : List Nat
  min : ℚ
  mean : ℚ
  max : ℚ
deriving DecidableEq

/-- The item that `print_results` prints for the slot `m` (lines 266-271).  The sum,
the count, the minimum and the maximum are converted to `double`, and the mean is
the quotient of two `double` values, rounded to a `double`. -/
def print_entry (sum_data : StationTemperatures) (m : MapStruct) : Entry :=
  let station_idx := m.idx
  let mean : ℚ :=
    to_double (to_double (sum_data.temp_sum station_idx) / to_double (sum_data.count station_idx))
  { name := cstr m.name
    min := round_java (to_double (sum_data.min station_idx))
    mean := round_java mean
    max := round_java (to_double (sum_data.max station_idx)) }

/-- The C function `print_results`, as the list of the items it prints. -/
def print_results (sum_idx_map : Nat → MapStruct) (sum_data : StationTemperatures) :
    List Entry :=
  let sorted := qsort ((List.range (MASK + 1)).map sum_idx_map) compare
  (sorted.filter (fun m => !slot_empty m)).map (print_entry sum_data)

/-! ## Abstract view of a table -/

/-- The statistics of one station: sum, count, minimum and maximum, in tenths. -/
structure Stats where
  sum : Int
  count : Nat
  min : Int
  max : Int
deriving DecidableEq, Repr

/-- The statistics that the slot `m` points to in the arrays of `r`. -/
def slot_stats (r : Result) (m : MapStruct) : Stats :=
  ⟨r.temp.temp_sum m.idx, r.temp.count m.idx, r.temp.min m.idx, r.temp.max m.idx⟩

/-- The entries of a table: the name and the statistics of every occupied slot, in
slot order. -/
def entries (r : Result) : List (List Nat × Stats) :=
  (((List.range (MASK + 1)).map r.idx_map).filter (fun m => !slot_empty m)).map
    (fun m => (cstr m.name, slot_stats r m))

/-- Folding the statistics `b` into `a`, as the update branches of `process_chunk`
and `sum_results` do. -/
def combine (a b : Stats) : Stats :=
  ⟨a.sum + b.sum, a.count + b.count, if a.min > b.min then b.min else a.min,
    if a.max < b.max then b.max else a.max⟩

/-- Insert-or-update on an association list: the abstract counterpart of one probe. -/
def amap_add : List (List Nat × Stats) → List Nat → Stats → List (List Nat × Stats)
  | [], n, s => [(n, s)]
  | (k, v) :: m, n, s => if k = n then (k, combine v s) :: m else (k, v) :: amap_add m n s

/-- The create branch of a probe: slot `i` takes `name` and the next station index,
whose statistics become `s`. -/
def table_create (t : Table) (i : Nat) (name : List Nat) (s : Stats) : Table :=
  { t with
    result :=
      { idx_map := Function.update t.result.idx_map i ⟨name, t.station_idx⟩
        temp :=
          { temp_sum := Function.update t.result.temp.temp_sum t.station_idx s.sum
            count := Function.update t.result.temp.count t.station_idx s.count
            min := Function.update t.result.temp.min t.station_idx s.min
            max := Function.update t.result.temp.max t.station_idx s.max } }
    station_idx := t.station_idx + 1 }

/-- The update branch of a probe: `s` is folded into the statistics of slot `i`. -/
def table_update (t : Table) (i : Nat) (s : Stats) : Table :=
  let idx := (t.result.idx_map i).idx
  let temp := t.result.temp
  { t with
    result :=
      { idx_map := t.result.idx_map
        temp :=
          { temp_sum := Function.update temp.temp_sum idx (temp.temp_sum idx + s.sum)
            count := Function.update temp.count idx (temp.count idx + s.count)
            min := Function.update temp.min idx
              (if temp.min idx > s.min then s.min else temp.min idx)
            max := Function.update temp.max idx
              (if temp.max idx < s.max then s.max else temp.max idx) } } }

/-- Insert-or-update with the statistics `s` under `name`: the common shape of the
probe loops of `process_chunk` (with `s` one reading) and `sum_results` (with `s` a
worker's entry). -/
def table_add (t : Table) (name_hash : Nat) (name : List Nat) (s : Stats) : Option Table :=
  match probe t.result.idx_map name (MASK + 1 - name_hash) name_hash with
  | none => some { t with lost := t.lost + 1 }
  | some i =>
    if slot_empty (t.result.idx_map i) then
      if NUM_STATIONS ≤ t.station_idx then none else some (table_create t i name s)
    else some (table_update t i s)

/-- The slot index from which `process_chunk` probes for a name: the hash of the
bytes after the first one, as `name_loop` computes it. -/
def worker_hash (name : List Nat) : Nat := fnv_loop name.tail FNV_OFFSET_BASIS &&& MASK

/-- A name as the input format allows it: not empty, no `0` byte. -/
def clean (name : List Nat) : Prop := name ≠ [] ∧ (0 : Nat) ∉ name

/-- The table `t`, whose probes start at `h name`, holds exactly the association
list `m`. -/
structure Rep (h : List Nat → Nat) (t : Table) (m : List (List Nat × Stats)) : Prop where
  nodup : (m.map Prod.fst).Nodup
  length : m.length = t.station_idx
  mem_iff : ∀ n s, (n, s) ∈ m ↔
    ∃ i, i ≤ MASK ∧ slot_empty (t.result.idx_map i) = false ∧ (t.result.idx_map i).name = n ∧
      slot_stats t.result (t.result.idx_map i) = s
  clean : ∀ i, i ≤ MASK → slot_empty (t.result.idx_map i) = false →
    clean (t.result.idx_map i).name
  chain : ∀ i, i ≤ MASK → slot_empty (t.result.idx_map i) = false →
    h (t.result.idx_map i).name ≤ i ∧
      ∀ j, h (t.result.idx_map i).name ≤ j → j < i →
        slot_empty (t.result.idx_map j) = false ∧
          (t.result.idx_map j).name ≠ (t.result.idx_map i).name
  idx_lt : ∀ i, i ≤ MASK → slot_empty (t.result.idx_map i) = false →
    (t.result.idx_map i).idx < t.station_idx
  idx_inj : ∀ i j, i ≤ MASK → j ≤ MASK → slot_empty (t.result.idx_map i) = false →
    slot_empty (t.result.idx_map j) = false →
    (t.result.idx_map i).idx = (t.result.idx_map j).idx → i = j

/-! ## Well-formed input -/

/-- One record of the input: a station name and a temperature `[-]D.D` (`tens` is
`none`) or `[-]DD.D`. -/
structure Reading where
  name : List Nat
  neg : Bool
  tens : Option Nat
  units : Nat
  tenth : Nat
deriving DecidableEq

/-- The temperature of a record, in tenths of a degree. -/
def Reading.value (r : Reading) : Int :=
  sign_factor r.neg * (100 * (r.tens.getD 0 : Nat) + 10 * (r.units : Nat) + (r.tenth : Nat))

/-- The digits of the integer part that come before the units digit. -/
def tens_text (tens : Option Nat) : List Nat :=
  match tens with
  | some a => [48 + a]
  | none => []

/-- The text of a record, without its newline: `name;temperature`. -/
def Reading.text (r : Reading) : List Nat :=
  r.name ++ 59 :: (sign_text r.neg ++ (tens_text r.tens ++ [48 + r.units, 46, 48 + r.tenth]))

/-- The line of a record: its text and a newline. -/
def Reading.line (r : Reading) : List Nat := r.text ++ [10]

/-- A well-formed record: a name of 1 to 99 bytes without `;`, newline or `0`, and
decimal digits. -/
def Reading.wf (r : Reading) : Prop :=
  1 ≤ r.name.length ∧ r.name.length ≤ 99 ∧
  (∀ b ∈ r.name, b ≠ 59 ∧ b ≠ 10 ∧ b ≠ 0 ∧ b < 256) ∧
  r.tens.getD 0 < 10 ∧ r.units < 10 ∧ r.tenth < 10

instance (r : Reading) : Decidable r.wf := by
  unfold Reading.wf
  infer_instance

/-- The buffer made of the lines of the records `rs`. -/
def encode (rs : List Reading) : List Nat := (rs.map Reading.line).flatten

/-- The statistics of a single reading. -/
def Reading.stats (r : Reading) : Stats := ⟨r.value, 1, r.value, r.value⟩

/-- The temperatures, in tenths, of the records of `rs` named `n`, in input order. -/
def values (rs : List Reading) (n : List Nat) : List Int :=
  (rs.filter (fun r => r.name = n)).map Reading.value

/-- The statistics `s` are the sum, the number, the minimum and the maximum of the
values `vs`. -/
def IsStatsOf (vs : List Int) (s : Stats) : Prop :=
  s.sum = vs.sum ∧ s.count = vs.length ∧
  (s.min ∈ vs ∧ ∀ v ∈ vs, s.min ≤ v) ∧ (s.max ∈ vs ∧ ∀ v ∈ vs, v ≤ s.max)

/-- The records `rs` lie in `data` from offset `p` on, each followed by one byte (its
newline, or the end of the buffer after the last one). -/
def Laid (data : List Nat) : Nat → List Reading → Prop
  | _, [] => True
  | p, r :: rs =>
    (∃ pre rest, data = pre ++ r.text ++ rest ∧ pre.length = p) ∧
      Laid data (p + r.text.length + 1) rs

/-- The offsets at which the records `rs`, laid from `p` on, start. -/
def starts : Nat → List Reading → List Nat
  | _, [] => []
  | p, r :: rs => p :: starts (p + r.text.length + 1) rs

/-- The offset just after the records `rs` laid from `p` on. -/
def after : Nat → List Reading → Nat
  | p, [] => p
  | p, r :: rs => after (p + r.text.length + 1) rs

/-- The probes that `process_chunk` makes for the records `rs`, on the table `t`. -/
def add_readings (t : Table) (rs : List Reading) : Option Table :=
  rs.foldlM (fun t r => table_add t (worker_hash r.name) r.name r.stats) t

/-- A sequence of probes, one for each `(name, statistics)` item, on a table whose
probes start at `h name`. -/
def add_items (h : List Nat → Nat) (t : Table) (items : List (List Nat × Stats)) :
    Option Table :=
  items.foldlM (fun t it => table_add t (h it.1) it.1 it.2) t

/-- The association list that a sequence of probes builds when none is lost. -/
def amap_add_all (m : List (List Nat × Stats)) (items : List (List Nat × Stats)) :
    List (List Nat × Stats) :=
  items.foldl (fun m it => amap_add m it.1 it.2) m

/-- The association list `m` holds, under every name `n`, the statistics of the
values `V n`, and holds no name whose list of values is empty. -/
def AggOf (m : List (List Nat × Stats)) (V : List Nat → List Int) : Prop :=
  (m.map Prod.fst).Nodup ∧ ∀ n s, (n, s) ∈ m ↔ IsStatsOf (V n) s

/-- The result `r` is a table built by a worker, and its entries hold the statistics
of the values `W`. -/
def WorkerTable (r : Result) (W : List Nat → List Int) : Prop :=
  ∃ t m, t.result = r ∧ Rep worker_hash t m ∧ AggOf m W

/-- The consecutive ranges `(start, length)` that the groups of records `groups`
occupy in a buffer, the first of them starting at `p`. -/
def group_ranges : Nat → List (List Reading) → List (Nat × Nat)
  | _, [] => []
  | p, g :: gs => (p, (encode g).length) :: group_ranges (p + (encode g).length) gs

/-- The workers that `main` starts: `process_chunk` on each range of the planner, for
`num_threads` workers, with their final loop states.  On an empty file `mmap` is
called with a length of 0 and fails, `data == MAP_FAILED`, and `main` exits before it
plans a range: the result is `none`. -/
def main_workers (num_threads : Nat) (data : List Nat) : Option (List Worker) :=
  let chunk_size := data.length / num_threads
  if data.length = 0 then none
  else
    let chunk_list := generate_chunk_indices num_threads data.length data chunk_size
    chunk_list.mapM (fun c => process_chunk_state data c.start_idx (chunk_len c))

/-- The pipeline of `main` up to the merged table: planner, workers, `sum_results`. -/
def main_table (num_threads : Nat) (data : List Nat) : Option Table :=
  (main_workers num_threads data).bind
    (fun ws => sum_results_state (ws.map (fun w => w.table.result)))

/-- The report of `main`, which runs 10 workers: the items that `print_results`
prints for the merged table. -/
def main_report (data : List Nat) : Option (List Entry) :=
  (main_table 10 data).map (fun t => print_results t.result.idx_map t.result.temp)

/-- A worker run on a range of records: `process_chunk` on the buffer made of the
bytes `i.1`, the lines of the records `i.2.1` and the bytes `i.2.2`, for the range
that the records occupy. -/
def run_worker (i : List Nat × List Reading × List Nat) : Option Worker :=
  process_chunk_state (i.1 ++ encode i.2.1 ++ i.2.2) i.1.length (encode i.2.1).length

/-! ## Example inputs -/

/-- The records of the buffer `Hamburg;12.0\nBulawayo;8.9\nHamburg;10.0\n`. -/
def hamburg_records : List Reading :=
  [⟨bytes "Hamburg", false, some 1, 2, 0⟩, ⟨bytes "Bulawayo", false, none, 8, 9⟩,
    ⟨bytes "Hamburg", false, some 1, 0, 0⟩]

/-- The record `Xus;1.0`; `fnv_hash` sends its name to the last slot, 65535. -/
def xus_record : Reading := ⟨bytes "Xus", false, none, 1, 0⟩

/-- The record `Gasg;2.0`; `fnv_hash` sends its name to the last slot, 65535. -/
def gasg_record : Reading := ⟨bytes "Gasg", false, none, 2, 0⟩

/-- The records of the buffer `Ax;1.0\nBx;2.0\nAx;-3.5\n`; the two names differ in
their first byte only, so a worker starts its probes for both on the same slot. -/
def collide_records : List Reading :=
  [⟨bytes "Ax", false, none, 1, 0⟩, ⟨bytes "Bx", false, none, 2, 0⟩,
    ⟨bytes "Ax", true, none, 3, 5⟩]

/-- The records of `hamburg_records` in two consecutive groups. -/
def hamburg_groups : List (List Reading) :=
  [[⟨bytes "Hamburg", false, some 1, 2, 0⟩],
    [⟨bytes "Bulawayo", false, none, 8, 9⟩, ⟨bytes "Hamburg", false, some 1, 0, 0⟩]]

/-- The two ranges of `hamburg_groups`, each with the bytes before and after it. -/
def hamburg_inputs : List (List Nat × List Reading × List Nat) :=
  [([], [⟨bytes "Hamburg", false, some 1, 2, 0⟩], bytes "Bulawayo;8.9\nHamburg;10.0\n"),
    (bytes "Hamburg;12.0\n",
      [⟨bytes "Bulawayo", false, none, 8, 9⟩, ⟨bytes "Hamburg", false, some 1, 0, 0⟩], [])]

/-! ## Table invariants -/

/-- No two occupied slots of the slot array hold equal names. -/
def unique_keys (idx_map : Nat → MapStruct) : Prop :=
  ∀ i j, i ≤ MASK → j ≤ MASK → slot_empty (idx_map i) = false →
    slot_empty (idx_map j) = false → cstr (idx_map i).name = cstr (idx_map j).name → i = j

/-- The occupied slots of the slot array, in ascending order. -/
def occupied (idx_map : Nat → MapStruct) : List Nat :=
  (List.range (MASK + 1)).filter (fun i => !slot_empty (idx_map i))

/-- The `idx` fields of the occupied slots of `t` are pairwise distinct and are
exactly the numbers below `station_idx`, which is the number of occupied slots; so
all of them are below 10000 exactly when `station_idx` is at most 10000. -/
def dense_indices (t : Table) : Prop :=
  (occupied t.result.idx_map).length = t.station_idx ∧
  (∀ i j, i ≤ MASK → j ≤ MASK → slot_empty (t.result.idx_map i) = false →
    slot_empty (t.result.idx_map j) = false →
    (t.result.idx_map i).idx = (t.result.idx_map j).idx → i = j) ∧
  (∀ a, a < t.station_idx ↔
    ∃ i, i ≤ MASK ∧ slot_empty (t.result.idx_map i) = false ∧ (t.result.idx_map i).idx = a) ∧
  ((∀ i, i ≤ MASK → slot_empty (t.result.idx_map i) = false →
      (t.result.idx_map i).idx < NUM_STATIONS) ↔ t.station_idx ≤ NUM_STATIONS)

/-- The merge of the first `k` slots of the worker table `result` into `t`: the first
`k` iterations of the loop over `res_idx` of `sum_results`. -/
def merge_slots (t : Table) (result : Result) (k : Nat) : Option Table :=
  (List.range k).foldlM (merge_slot result) t

/-- The records of `rs`, laid from offset `p` on, whose first byte lies before the
offset `e`. -/
def records_before (e : Nat) : Nat → List Reading → List Reading
  | _, [] => []
  | p, r :: rs =>
    if p < e then r :: records_before e (p + r.text.length + 1) rs
    else records_before e (p + r.text.length + 1) rs

/-- The text that ends a file: the text of the record `fin` without a newline, or
nothing when the last line of the file has its newline. -/
def last_text (fin : Option Reading) : List Nat :=
  match fin with
  | some r => r.text
  | none => []

/-- The buffer of a file in the input format: the lines of the records `rs` and then,
when `fin` is a record, its text without a newline. -/
def encode_file (rs : List Reading) (fin : Option Reading) : List Nat :=
  encode rs ++ last_text fin

/-- The records of such a file. -/
def file_records (rs : List Reading) (fin : Option Reading) : List Reading :=
  rs ++ fin.toList

/-! ## Theorems -/

theorem read_lt_of_ne_zero {data : List Nat} {i : Nat} (h : read data i ≠ 0) :
    i < data.length := by
  by_contra hlt
  apply h
  unfold read
  simp [List.getElem?_eq_none (Nat.le_of_not_lt hlt)]

theorem memchr_some {data : List Nat} {c : Nat} :
    ∀ (n off q : Nat), memchr data c n off = some q →
      off ≤ q ∧ q < off + n ∧ read data q = c
  | 0, off, q, h => by simp [memchr] at h
  | n + 1, off, q, h => by
    unfold memchr at h
    split at h
    · cases h
      exact ⟨le_refl _, by omega, by assumption⟩
    · obtain ⟨h1, h2, h3⟩ := memchr_some n (off + 1) q h
      exact ⟨by omega, by omega, h3⟩

theorem memchr_first {data : List Nat} {c : Nat} :
    ∀ (n off q : Nat), memchr data c n off = some q →
      ∀ j, off ≤ j → j < q → read data j ≠ c
  | 0, off, q, h => by simp [memchr] at h
  | n + 1, off, q, h => by
    unfold memchr at h
    split at h
    · cases h
      intro j h1 h2
      omega
    · intro j h1 h2
      rcases Nat.eq_or_lt_of_le h1 with h3 | h3
      · subst h3
        assumption
      · exact memchr_first n (off + 1) q h j h3 h2

theorem memchr_find {data : List Nat} {c : Nat} :
    ∀ (n off q : Nat), off ≤ q → q < off + n → read data q = c →
      ∃ q', memchr data c n off = some q'
  | 0, off, q, h1, h2, _ => by omega
  | n + 1, off, q, h1, h2, h3 => by
    unfold memchr
    split
    · exact ⟨off, rfl⟩
    · rename_i hne
      have : off ≠ q := by
        rintro rfl
        exact hne h3
      exact memchr_find n (off + 1) q (by omega) (by omega) h3

theorem modify_at_length {α : Type} (f : α → α) (x : α) (rest : List α) :
    ∀ pre : List α, (pre ++ x :: rest).modify f pre.length = pre ++ f x :: rest
  | [] => by simp [List.modify]
  | a :: pre => by
    simpa [List.modify] using modify_at_length f x rest pre

theorem set_after_length {α : Type} (x y z : α) (rest : List α) :
    ∀ pre : List α, (pre ++ x :: y :: rest).set (pre.length + 1) z = pre ++ x :: z :: rest
  | [] => by simp
  | a :: pre => by
    simp [set_after_length x y z rest pre]

/-- Closed form of the planner's loop when every lookahead finds a newline. -/
theorem chunk_loop_found (data : List Nat) (S c : Nat) :
    ∀ (k cpu_idx read_off : Nat) (pre : List Chunk) (s : Nat),
      cpu_idx = pre.length + 1 →
      (∀ j, j < k → ∃ q, memchr data 10 150 (read_off + j * c) = some q) →
      ∃ bs : List Nat, bs.length = k ∧
        (∀ j, j < k → memchr data 10 150 (read_off + j * c) = bs[j]?) ∧
        chunk_loop data S c k cpu_idx read_off
            (pre ++ ⟨s, last_idx S⟩ :: List.replicate k ⟨0, 0⟩)
          = pre ++ mk_chunks (last_idx S) s bs
  | 0, cpu_idx, read_off, pre, s, _, _ => ⟨[], rfl, by intro j hj; omega, by simp [chunk_loop, mk_chunks]⟩
  | k + 1, cpu_idx, read_off, pre, s, hc, hfound => by
    obtain ⟨q, hq⟩ := hfound 0 (by omega)
    simp only [Nat.zero_mul, Nat.add_zero] at hq
    obtain ⟨bs, hlen, hbs, heq⟩ := chunk_loop_found data S c k (cpu_idx + 1) (read_off + c)
      (pre ++ [⟨s, q⟩]) (q + 1) (by simp [hc]) (by
        intro j hj
        obtain ⟨q', hq'⟩ := hfound (j + 1) (by omega)
        exact ⟨q', by rw [← hq']; congr 1; ring⟩)
    refine ⟨q :: bs, by simp [hlen], ?_, ?_⟩
    · intro j hj
      cases j with
      | zero => simpa using hq
      | succ j =>
        have := hbs j (by omega)
        simp only [List.getElem?_cons_succ]
        rw [← this]
        congr 1
        ring
    · unfold chunk_loop
      simp only [hq]
      have h1 : cpu_idx - 1 = pre.length := by omega
      rw [h1, List.replicate_succ, modify_at_length, hc, set_after_length]
      simp only [mk_chunks]
      rw [← hc]
      simpa using heq

theorem mk_chunks_length (last : Nat) :
    ∀ (bs : List Nat) (s : Nat), (mk_chunks last s bs).length = bs.length + 1
  | [], s => rfl
  | b :: bs, s => by simp [mk_chunks, mk_chunks_length last bs]

theorem mk_chunks_head (last : Nat) (bs : List Nat) (s : Nat) :
    ∃ e rest, mk_chunks last s bs = ⟨s, e⟩ :: rest := by
  cases bs <;> simp [mk_chunks]

theorem mk_chunks_getLast (last : Nat) :
    ∀ (bs : List Nat) (s : Nat),
      (mk_chunks last s bs).getLast?.map Chunk.end_idx = some last
  | [], s => rfl
  | b :: bs, s => by
    obtain ⟨e, rest, h⟩ := mk_chunks_head last bs (b + 1)
    have ih := mk_chunks_getLast last bs (b + 1)
    rw [mk_chunks, h, List.getLast?_cons_cons, ← h]
    exact ih

theorem mk_chunks_succ (last : Nat) :
    ∀ (bs : List Nat) (s k : Nat) (c d : Chunk),
      (mk_chunks last s bs)[k]? = some c → (mk_chunks last s bs)[k + 1]? = some d →
      d.start_idx = c.end_idx + 1 ∧ c.end_idx ∈ bs
  | [], s, k, c, d, _, h2 => by simp [mk_chunks] at h2
  | b :: bs, s, 0, c, d, h1, h2 => by
    obtain ⟨e, rest, h⟩ := mk_chunks_head last bs (b + 1)
    simp only [mk_chunks, List.getElem?_cons_zero, Option.some.injEq] at h1
    simp only [mk_chunks, h, List.getElem?_cons_succ, List.getElem?_cons_zero,
      Option.some.injEq] at h2
    subst h1 h2
    simp
  | b :: bs, s, k + 1, c, d, h1, h2 => by
    simp only [mk_chunks, List.getElem?_cons_succ] at h1 h2
    obtain ⟨h3, h4⟩ := mk_chunks_succ last bs (b + 1) k c d h1 h2
    exact ⟨h3, List.mem_cons_of_mem _ h4⟩

theorem chunk_len_eq {s e : Nat} (h1 : s ≤ e + 1) (h2 : e + 1 < SIZE_MOD) :
    chunk_len ⟨s, e⟩ = e + 1 - s := by
  have hM : 0 < SIZE_MOD := by decide
  unfold chunk_len
  simp only
  generalize SIZE_MOD = M at *
  have h3 : e + M - s + 1 = (e + 1 - s) + M := by omega
  rw [h3, Nat.add_mod_right, Nat.mod_eq_of_lt]
  omega

theorem mk_chunks_ordered (last : Nat) :
    ∀ (bs : List Nat) (s : Nat), s ≤ last + 1 → (∀ b ∈ bs, s ≤ b + 1 ∧ b ≤ last) →
      bs.Pairwise (fun a b => a ≤ b) →
      ∀ c ∈ mk_chunks last s bs, c.start_idx ≤ c.end_idx + 1 ∧ c.end_idx ≤ last
  | [], s, hs, _, _, c, hc => by
    simp only [mk_chunks, List.mem_singleton] at hc
    subst hc
    exact ⟨hs, le_refl _⟩
  | b :: bs, s, hs, hb, hp, c, hc => by
    simp only [mk_chunks, List.mem_cons] at hc
    rcases hc with rfl | hc
    · exact hb b (List.mem_cons_self _ _)
    · rw [List.pairwise_cons] at hp
      refine mk_chunks_ordered last bs (b + 1) ?_ ?_ hp.2 c hc
      · have := (hb b (List.mem_cons_self _ _)).2
        omega
      · intro b' hb'
        exact ⟨Nat.succ_le_succ (hp.1 b' hb'), (hb b' (List.mem_cons_of_mem _ hb')).2⟩

theorem mk_chunks_flatten (data : List Nat) (last : Nat) (hlast : last + 1 < SIZE_MOD)
    (hlen : data.length = last + 1) :
    ∀ (bs : List Nat) (s : Nat), s ≤ last + 1 → (∀ b ∈ bs, s ≤ b + 1 ∧ b ≤ last) →
      bs.Pairwise (fun a b => a ≤ b) →
      ((mk_chunks last s bs).map (chunk_bytes data)).flatten = data.drop s
  | [], s, hs, _, _ => by
    simp only [mk_chunks, List.map_cons, List.map_nil, List.flatten_cons, List.flatten_nil,
      List.append_nil, chunk_bytes]
    rw [chunk_len_eq hs hlast]
    apply List.take_of_length_le
    simp only [List.length_drop]
    omega
  | b :: bs, s, hs, hb, hp => by
    rw [List.pairwise_cons] at hp
    have hb0 := hb b (List.mem_cons_self _ _)
    have ih := mk_chunks_flatten data last hlast hlen bs (b + 1) (by omega)
      (fun b' hb' => ⟨Nat.succ_le_succ (hp.1 b' hb'), (hb b' (List.mem_cons_of_mem _ hb')).2⟩)
      hp.2
    simp only [mk_chunks, List.map_cons, List.flatten_cons, ih, chunk_bytes]
    rw [chunk_len_eq hb0.1 (by omega)]
    have h1 : data.drop (b + 1) = (data.drop s).drop (b + 1 - s) := by
      rw [List.drop_drop]
      congr 1
      omega
    rw [h1, List.take_append_drop]

theorem stride_lt {S N k : Nat} (hS : 1 ≤ S) (hk : k < N) : k * (S / N) < S := by
  have h1 : S / N * N ≤ S := Nat.div_mul_le_self S N
  rcases Nat.eq_zero_or_pos (S / N) with h0 | hpos
  · rw [h0]
    omega
  · have h2 : (k + 1) * (S / N) ≤ N * (S / N) := Nat.mul_le_mul_right _ hk
    have h3 : (k + 1) * (S / N) = k * (S / N) + S / N := by ring
    have h4 : N * (S / N) = S / N * N := Nat.mul_comm _ _
    omega

/-- What the planner returns when every lookahead window that starts inside the
buffer holds a newline. -/
theorem planner_found (data : List Nat) (N : Nat) (hN : 1 ≤ N) (hS : 1 ≤ data.length)
    (hwin : ∀ p, p < data.length → ∃ q, p ≤ q ∧ q < p + 150 ∧ read data q = 10) :
    ∃ bs : List Nat, bs.length = N - 1 ∧
      generate_chunk_indices N data.length data (data.length / N)
        = mk_chunks (last_idx data.length) 0 bs ∧
      (∀ b ∈ bs, read data b = 10 ∧ b < data.length) ∧
      bs.Pairwise (fun a b => a ≤ b) := by
  have hrep : List.replicate N (⟨0, 0⟩ : Chunk) = ⟨0, 0⟩ :: List.replicate (N - 1) ⟨0, 0⟩ := by
    obtain ⟨n, rfl⟩ : ∃ n, N = n + 1 := ⟨N - 1, by omega⟩
    simp [List.replicate_succ]
  have hoff : ∀ j, j < N - 1 →
      data.length / N + j * (data.length / N) = (j + 1) * (data.length / N) := by
    intro j _
    ring
  obtain ⟨bs, hlen, hbs, heq⟩ := chunk_loop_found data data.length (data.length / N) (N - 1) 1
    (data.length / N) [] 0 rfl (by
      intro j hj
      rw [hoff j hj]
      obtain ⟨q, h1, h2, h3⟩ := hwin _ (stride_lt hS (show j + 1 < N by omega))
      exact memchr_find 150 _ q h1 h2 h3)
  have hmem : ∀ j (hj : j < bs.length),
      memchr data 10 150 ((j + 1) * (data.length / N)) = some bs[j] := by
    intro j hj
    rw [← hoff j (by omega), hbs j (by omega), List.getElem?_eq_getElem hj]
  refine ⟨bs, hlen, ?_, ?_, ?_⟩
  · unfold generate_chunk_indices
    simp only [hrep, List.set_cons_zero]
    simpa using heq
  · intro b hb
    obtain ⟨j, hj, rfl⟩ := List.mem_iff_getElem.mp hb
    have h := (memchr_some _ _ _ (hmem j hj)).2.2
    exact ⟨h, read_lt_of_ne_zero (by rw [h]; decide)⟩
  · rw [List.pairwise_iff_getElem]
    intro i j hi hj hij
    by_contra hlt
    have hi' := memchr_first _ _ _ (hmem i hi) bs[j] ?_ (by omega)
    · exact hi' (memchr_some _ _ _ (hmem j hj)).2.2
    · have h1 := (memchr_some _ _ _ (hmem j hj)).1
      have h2 : (i + 1) * (data.length / N) ≤ (j + 1) * (data.length / N) :=
        Nat.mul_le_mul_right _ (by omega)
      omega

theorem window_of_lines :
    ∀ (data : List Nat) (cur : Nat), (∀ l ∈ line_lengths data cur, l ≤ 150) →
      data.getLast? = some 10 →
      ∀ p, p < data.length →
        ∃ q, p ≤ q ∧ q < p + 150 ∧ (p = 0 → q + cur < 150) ∧ read data q = 10
  | [], cur, _, hlast, p, hp => by simp at hp
  | b :: rest, cur, hl, hlast, p, hp => by
    by_cases hb : b = 10
    · subst hb
      simp only [line_lengths, if_true, List.mem_cons, forall_eq_or_imp] at hl
      cases p with
      | zero => exact ⟨0, le_refl _, by omega, fun _ => by omega, by simp [read]⟩
      | succ p =>
        have hrest : rest ≠ [] := by
          rintro rfl
          simp at hp
        have hlast' : rest.getLast? = some 10 := by
          obtain ⟨a, r, rfl⟩ := List.exists_cons_of_ne_nil hrest
          simpa [List.getLast?_cons_cons] using hlast
        obtain ⟨q, h1, h2, _, h4⟩ := window_of_lines rest 0 hl.2 hlast' p
          (by simpa using hp)
        exact ⟨q + 1, by omega, by omega, fun h => by omega, by simpa [read] using h4⟩
    · simp only [line_lengths, hb, if_false] at hl
      have hrest : rest ≠ [] := by
        rintro rfl
        simp at hlast
        exact hb hlast
      have hlast' : rest.getLast? = some 10 := by
        obtain ⟨a, r, rfl⟩ := List.exists_cons_of_ne_nil hrest
        simpa [List.getLast?_cons_cons] using hlast
      have hpos : 0 < rest.length := List.length_pos.mpr hrest
      cases p with
      | zero =>
        obtain ⟨q, _, _, h3, h4⟩ := window_of_lines rest (cur + 1) hl hlast' 0 hpos
        have := h3 rfl
        exact ⟨q + 1, by omega, by omega, fun _ => by omega, by simpa [read] using h4⟩
      | succ p =>
        obtain ⟨q, h1, h2, _, h4⟩ := window_of_lines rest (cur + 1) hl hlast' p
          (by simpa using hp)
        exact ⟨q + 1, by omega, by omega, fun h => by omega, by simpa [read] using h4⟩

theorem last_idx_eq {S : Nat} (h1 : 1 ≤ S) (h2 : S < SIZE_MOD) : last_idx S = S - 1 := by
  unfold last_idx
  generalize SIZE_MOD = M at *
  have h3 : S + M - 1 = (S - 1) + M := by omega
  rw [h3, Nat.add_mod_right, Nat.mod_eq_of_lt]
  omega

/-- C4 (no split record).  For a buffer of `S >= 1` bytes (a `size_t`) that ends in a
newline and whose lines are at most 150 bytes long, newline included, and `N >= 1`
workers with `chunk_size = S / N`: `generate_chunk_indices` returns `N` inclusive
ranges, the first starts at 0, the last ends at `S - 1`, each range starts one byte
after the end of the one before it, the byte before the start of every range but the
first is a newline, a range is at worst empty (`start_idx = end_idx + 1`), and the
bytes of the ranges, concatenated, are the buffer. -/
theorem no_split_record (data : List Nat) (N : Nat) (hS : 1 ≤ data.length)
    (hsize : data.length < SIZE_MOD) (hlast : data.getLast? = some 10)
    (hlines : ∀ l ∈ line_lengths data 0, l ≤ 150) (hN : 1 ≤ N) :
    (generate_chunk_indices N data.length data (data.length / N)).length = N ∧
    (∀ c, (generate_chunk_indices N data.length data (data.length / N))[0]? = some c →
      c.start_idx = 0) ∧
    (∀ c, (generate_chunk_indices N data.length data (data.length / N))[N - 1]? = some c →
      c.end_idx = data.length - 1) ∧
    (∀ k c d, (generate_chunk_indices N data.length data (data.length / N))[k]? = some c →
      (generate_chunk_indices N data.length data (data.length / N))[k + 1]? = some d →
      d.start_idx = c.end_idx + 1) ∧
    (∀ k c, 1 ≤ k →
      (generate_chunk_indices N data.length data (data.length / N))[k]? = some c →
      read data (c.start_idx - 1) = 10) ∧
    (∀ c ∈ generate_chunk_indices N data.length data (data.length / N),
      c.start_idx ≤ c.end_idx + 1) ∧
    ((generate_chunk_indices N data.length data (data.length / N)).map
      (chunk_bytes data)).flatten = data := by
  have hwin : ∀ p, p < data.length → ∃ q, p ≤ q ∧ q < p + 150 ∧ read data q = 10 := by
    intro p hp
    obtain ⟨q, h1, h2, _, h4⟩ := window_of_lines data 0 hlines hlast p hp
    exact ⟨q, h1, h2, h4⟩
  obtain ⟨bs, hlen, heq, hnl, hsorted⟩ := planner_found data N hN hS hwin
  rw [heq, last_idx_eq hS hsize]
  have hb : ∀ b ∈ bs, 0 ≤ b + 1 ∧ b ≤ data.length - 1 := by
    intro b hb
    have := (hnl b hb).2
    omega
  have hlength : (mk_chunks (data.length - 1) 0 bs).length = N := by
    rw [mk_chunks_length, hlen]
    omega
  refine ⟨hlength, ?_, ?_, ?_, ?_, ?_, ?_⟩
  · intro c hc
    obtain ⟨e, rest, h⟩ := mk_chunks_head (data.length - 1) bs 0
    rw [h] at hc
    simp only [List.getElem?_cons_zero, Option.some.injEq] at hc
    rw [← hc]
  · intro c hc
    have h := mk_chunks_getLast (data.length - 1) bs 0
    rw [List.getLast?_eq_getElem?, hlength, hc] at h
    simpa using h
  · intro k c d hc hd
    exact (mk_chunks_succ _ bs 0 k c d hc hd).1
  · intro k c hk hc
    obtain ⟨k', rfl⟩ : ∃ k', k = k' + 1 := ⟨k - 1, by omega⟩
    have hk' : k' < (mk_chunks (data.length - 1) 0 bs).length := by
      have := (List.getElem?_eq_some.mp hc).1
      omega
    obtain ⟨h1, h2⟩ := mk_chunks_succ _ bs 0 k' _ c (List.getElem?_eq_getElem hk') hc
    rw [h1, Nat.add_sub_cancel]
    exact (hnl _ h2).1
  · intro c hc
    exact (mk_chunks_ordered _ bs 0 (by omega) hb hsorted c hc).1
  · have h := mk_chunks_flatten data (data.length - 1) (by omega) (by omega) bs 0 (by omega)
      hb hsorted
    simpa using h

theorem read_append_right (pre l : List Nat) (k : Nat) :
    read (pre ++ l) (pre.length + k) = read l k := by
  unfold read
  simp [List.getD_eq_getElem?_getD, List.getElem?_append_right]

theorem char_to_int_digit {d : Nat} (h : d < 10) : char_to_int (48 + d) = 48 + (d : Int) := by
  unfold char_to_int
  rw [if_pos (by omega)]
  push_cast
  ring

theorem parse_temperature_pos1 (data : List Nat) (semi : Nat)
    (h1 : read data (semi + 1) ≠ 45) (h2 : read data (semi + 2) = 46) :
    parse_temperature data semi
      = (char_to_int (read data (semi + 1)) * 10 + char_to_int (read data (semi + 3)) - 528,
          semi + 5) := by
  simp [parse_temperature, h1, h2, Nat.add_assoc]

theorem parse_temperature_pos2 (data : List Nat) (semi : Nat)
    (h1 : read data (semi + 1) ≠ 45) (h2 : read data (semi + 2) ≠ 46) :
    parse_temperature data semi
      = (char_to_int (read data (semi + 1)) * 100 + char_to_int (read data (semi + 2)) * 10
          + char_to_int (read data (semi + 4)) - 5328, semi + 6) := by
  simp [parse_temperature, h1, h2, Nat.add_assoc]

theorem parse_temperature_neg1 (data : List Nat) (semi : Nat)
    (h1 : read data (semi + 1) = 45) (h2 : read data (semi + 3) = 46) :
    parse_temperature data semi
      = (-1 * (char_to_int (read data (semi + 2)) * 10 + char_to_int (read data (semi + 4))
          - 528), semi + 6) := by
  simp [parse_temperature, h1, h2, Nat.add_assoc]

theorem parse_temperature_neg2 (data : List Nat) (semi : Nat)
    (h1 : read data (semi + 1) = 45) (h2 : read data (semi + 3) ≠ 46) :
    parse_temperature data semi
      = (-1 * (char_to_int (read data (semi + 2)) * 100 + char_to_int (read data (semi + 3)) * 10
          + char_to_int (read data (semi + 5)) - 5328), semi + 7) := by
  simp [parse_temperature, h1, h2, Nat.add_assoc]

theorem read_cons_succ (x : Nat) (l : List Nat) (k : Nat) :
    read (x :: l) (k + 1) = read l k := by
  simp [read]

theorem read_cons_zero (x : Nat) (l : List Nat) : read (x :: l) 0 = x := by
  simp [read]

/-- C8 (temperature parsing).  Lines 123-140 of `process_chunk`, started on the
semicolon that ends a name, parse the text `[-]a.b` to `sgn * (10 a + b)` and the
text `[-]ab.c` to `sgn * (100 a + 10 b + c)`, for all decimal digits `a`, `b`, `c`,
in integer arithmetic, and leave `content` on the byte after the newline that
follows the text. -/
theorem temperature_parsing (pre post : List Nat) (neg : Bool) (a b c : Nat)
    (ha : a < 10) (hb : b < 10) (hc : c < 10) :
    parse_temperature (pre ++ 59 :: (sign_text neg ++ [48 + a, 46, 48 + b, 10] ++ post))
        pre.length
      = (sign_factor neg * (10 * a + b),
          (pre ++ 59 :: (sign_text neg ++ [48 + a, 46, 48 + b, 10])).length) ∧
    parse_temperature (pre ++ 59 :: (sign_text neg ++ [48 + a, 48 + b, 46, 48 + c, 10] ++ post))
        pre.length
      = (sign_factor neg * (100 * a + 10 * b + c),
          (pre ++ 59 :: (sign_text neg ++ [48 + a, 48 + b, 46, 48 + c, 10])).length) := by
  have h46 : ∀ d, d < 10 → 48 + d ≠ 46 := by
    intro d hd
    omega
  have h45 : ∀ d, d < 10 → 48 + d ≠ 45 := by
    intro d hd
    omega
  have r : ∀ (l : List Nat) (k : Nat), read (pre ++ 59 :: l) (pre.length + (k + 1)) = read l k := by
    intro l k
    rw [read_append_right, read_cons_succ]
  cases neg
  · constructor
    · rw [parse_temperature_pos1]
      · simp [r, sign_text, sign_factor, read_cons_succ, read_cons_zero, char_to_int_digit ha,
          char_to_int_digit hb]
        ring
      · simpa [r, sign_text, read_cons_zero] using h45 a ha
      · simp [r, sign_text, read_cons_succ, read_cons_zero]
    · rw [parse_temperature_pos2]
      · simp [r, sign_text, sign_factor, read_cons_succ, read_cons_zero, char_to_int_digit ha,
          char_to_int_digit hb, char_to_int_digit hc]
        ring
      · simpa [r, sign_text, read_cons_zero] using h45 a ha
      · simpa [r, sign_text, read_cons_succ, read_cons_zero] using h46 b hb
  · constructor
    · rw [parse_temperature_neg1]
      · simp [r, sign_text, sign_factor, read_cons_succ, read_cons_zero, char_to_int_digit ha,
          char_to_int_digit hb]
        ring
      · simp [r, sign_text, read_cons_zero]
      · simp [r, sign_text, read_cons_succ, read_cons_zero]
    · rw [parse_temperature_neg2]
      · simp [r, sign_text, sign_factor, read_cons_succ, read_cons_zero, char_to_int_digit ha,
          char_to_int_digit hb, char_to_int_digit hc]
        ring
      · simp [r, sign_text, read_cons_zero]
      · simpa [r, sign_text, read_cons_succ, read_cons_zero] using h46 b hb

theorem trunc_eq (x : ℚ) : trunc x = if 0 ≤ x then ((⌊x⌋ : Int) : ℚ) else ((⌈x⌉ : Int) : ℚ) := by
  unfold trunc
  split
  · rename_i h
    rw [Int.tdiv_eq_ediv (Rat.num_nonneg.mpr h) (Int.natCast_nonneg _), Rat.floor_def]
  · rename_i h
    have hx : x < 0 := lt_of_not_le h
    have h1 : 0 ≤ (-x).num := Rat.num_nonneg.mpr (by linarith)
    have h2 : x.num.tdiv (x.den : Int) = -((-x).num.tdiv ((-x).den : Int)) := by
      rw [Rat.neg_num, Rat.neg_den, Int.neg_tdiv, neg_neg]
    rw [h2, Int.tdiv_eq_ediv h1 (Int.natCast_nonneg _), ← Rat.floor_def, Int.floor_neg, neg_neg]

theorem round_java_eq (x : ℚ) :
    round_java x = ((spec_round x : Int) : ℚ) / 10 ∧ spec_round x = ⌊x + 1 / 2⌋ := by
  by_cases hx : 0 ≤ x
  · have ht : trunc x = ((⌊x⌋ : Int) : ℚ) := by rw [trunc_eq, if_pos hx]
    have h1 := Int.floor_le x
    have h2 := Int.lt_floor_add_one x
    have habs : |x - (⌊x⌋ : ℚ)| = x - ⌊x⌋ := abs_of_nonneg (by linarith)
    have hnot : ¬ (x < 0) := not_lt.mpr hx
    by_cases hhalf : x - (⌊x⌋ : ℚ) ≥ 1 / 2
    · have hpos : 0 < x := by
        have : (0 : ℚ) ≤ ⌊x⌋ := by exact_mod_cast Int.floor_nonneg.mpr hx
        linarith
      have hs : spec_round x = ⌊x⌋ + 1 := by
        simp only [spec_round, if_pos hx, habs, if_pos hpos]
        rw [if_pos]
        rcases lt_or_eq_of_le hhalf with h | h
        · exact Or.inl h
        · exact Or.inr ⟨h.symm, hpos⟩
      have hf : ⌊x + 1 / 2⌋ = ⌊x⌋ + 1 := by
        rw [Int.floor_eq_iff]
        push_cast
        constructor <;> linarith
      refine ⟨?_, by rw [hs, hf]⟩
      have hne : ((⌊x⌋ : ℚ) + 1) ≠ 0 := by
        have : (0 : ℚ) ≤ ⌊x⌋ := by exact_mod_cast Int.floor_nonneg.mpr hx
        linarith
      simp only [round_java, ht, hs, fabs, hnot, false_and, if_false, sub_neg, not_lt.mpr h1,
        hhalf, if_true, hpos, sub_zero]
      push_cast
      rw [if_neg hne]
    · have hlt : x - (⌊x⌋ : ℚ) < 1 / 2 := lt_of_not_le hhalf
      have hs : spec_round x = ⌊x⌋ := by
        simp only [spec_round, if_pos hx, habs]
        rw [if_neg]
        rintro (h | ⟨h, _⟩) <;> linarith
      have hf : ⌊x + 1 / 2⌋ = ⌊x⌋ := by
        rw [Int.floor_eq_iff]
        constructor <;> linarith
      refine ⟨?_, by rw [hs, hf]⟩
      simp only [round_java, ht, hs, fabs, hnot, false_and, if_false, sub_neg, not_lt.mpr h1,
        hhalf]
      split
      · rename_i h0
        rw [h0]
        simp
      · rfl
  · have hneg : x < 0 := lt_of_not_le hx
    have ht : trunc x = ((⌈x⌉ : Int) : ℚ) := by rw [trunc_eq, if_neg hx]
    have h1 := Int.le_ceil x
    have h2 := Int.ceil_lt_add_one x
    have habs : |x - (⌈x⌉ : ℚ)| = ⌈x⌉ - x := by
      rw [abs_of_nonpos (by linarith)]
      ring
    have hnpos : ¬ (0 < x) := not_lt.mpr (le_of_lt hneg)
    have hfabs : fabs (x - (⌈x⌉ : ℚ)) = ⌈x⌉ - x := by
      unfold fabs
      split
      · ring
      · have : x - (⌈x⌉ : ℚ) = 0 := by linarith
        linarith
    by_cases heq : (⌈x⌉ : ℚ) - x = 1 / 2
    · have hs : spec_round x = ⌈x⌉ := by
        simp only [spec_round, if_neg hx, habs, heq, hnpos, and_false, or_false]
        rw [if_neg (lt_irrefl _)]
      have hf : ⌊x + 1 / 2⌋ = ⌈x⌉ := by
        rw [Int.floor_eq_iff]
        constructor <;> linarith
      refine ⟨?_, by rw [hs, hf]⟩
      simp only [round_java, ht, hs, hneg, heq, and_self, if_true]
      split
      · rename_i h0
        rw [h0]
        simp
      · rfl
    · by_cases hhalf : (⌈x⌉ : ℚ) - x ≥ 1 / 2
      · have hgt : (⌈x⌉ : ℚ) - x > 1 / 2 := lt_of_le_of_ne hhalf (Ne.symm heq)
        have hs : spec_round x = ⌈x⌉ - 1 := by
          simp only [spec_round, if_neg hx, habs, hnpos, if_false]
          rw [if_pos (Or.inl hgt)]
        have hf : ⌊x + 1 / 2⌋ = ⌈x⌉ - 1 := by
          rw [Int.floor_eq_iff]
          push_cast
          constructor <;> linarith
        refine ⟨?_, by rw [hs, hf]⟩
        have hne : ((⌈x⌉ : ℚ) + (0 - 1)) ≠ 0 := by
          have : (⌈x⌉ : ℚ) ≤ 0 := by exact_mod_cast Int.ceil_le.mpr (by exact_mod_cast le_of_lt hneg)
          linarith
        simp only [round_java, ht, hs, hneg, heq, and_false, if_false, hfabs, hhalf, if_true,
          hnpos]
        rw [if_neg hne]
        push_cast
        ring
      · have hlt : (⌈x⌉ : ℚ) - x < 1 / 2 := lt_of_not_le hhalf
        have hs : spec_round x = ⌈x⌉ := by
          simp only [spec_round, if_neg hx, habs, hnpos, and_false, or_false]
          rw [if_neg (not_lt.mpr (le_of_lt hlt))]
        have hf : ⌊x + 1 / 2⌋ = ⌈x⌉ := by
          rw [Int.floor_eq_iff]
          constructor <;> linarith
        refine ⟨?_, by rw [hs, hf]⟩
        simp only [round_java, ht, hs, hneg, heq, and_false, if_false, hfabs, hhalf]
        split
        · rename_i h0
          rw [h0]
          simp
        · rfl

theorem strcmp_loop_le_iff :
    ∀ a b : List Nat, strcmp_loop a b ≤ 0 ↔ a = b ∨ List.Lex (fun x y => x < y) a b
  | [], [] => by simp [strcmp_loop]
  | [], b :: t => by
    simp only [strcmp_loop]
    exact ⟨fun _ => Or.inr List.Lex.nil, fun _ => by decide⟩
  | a :: s, [] => by
    simp only [strcmp_loop]
    constructor
    · intro h
      exact absurd h (by decide)
    · rintro (h | h)
      · cases h
      · cases h
  | a :: s, b :: t => by
    unfold strcmp_loop
    by_cases h1 : a < b
    · rw [if_pos h1]
      exact ⟨fun _ => Or.inr (List.Lex.rel h1), fun _ => by decide⟩
    · rw [if_neg h1]
      by_cases h2 : b < a
      · rw [if_pos h2]
        constructor
        · intro h
          exact absurd h (by decide)
        · rintro (h | h)
          · cases h
            exact absurd h2 (lt_irrefl _)
          · cases h with
            | cons h => exact absurd h2 (lt_irrefl _)
            | rel h => exact absurd h h1
      · rw [if_neg h2]
        have hab : a = b := by omega
        subst hab
        rw [strcmp_loop_le_iff s t]
        constructor
        · rintro (h | h)
          · exact Or.inl (by rw [h])
          · exact Or.inr (List.Lex.cons h)
        · rintro (h | h)
          · cases h
            exact Or.inl rfl
          · cases h with
            | cons h => exact Or.inr h
            | rel h => exact absurd h (lt_irrefl _)

theorem strcmp_loop_total (a b : List Nat) : strcmp_loop a b ≤ 0 ∨ strcmp_loop b a ≤ 0 := by
  rw [strcmp_loop_le_iff, strcmp_loop_le_iff]
  rcases trichotomous_of (List.Lex (fun x y : Nat => x < y)) a b with h | h | h
  · exact Or.inl (Or.inr h)
  · exact Or.inl (Or.inl h)
  · exact Or.inr (Or.inr h)

theorem strcmp_loop_trans (a b c : List Nat) (h1 : strcmp_loop a b ≤ 0)
    (h2 : strcmp_loop b c ≤ 0) : strcmp_loop a c ≤ 0 := by
  rw [strcmp_loop_le_iff] at *
  rcases h1 with rfl | h1
  · exact h2
  · rcases h2 with rfl | h2
    · exact Or.inr h1
    · exact Or.inr (trans_of (List.Lex (fun x y : Nat => x < y)) h1 h2)

theorem qsort_perm {α : Type} (l : List α) (cmp : α → α → Int) : (qsort l cmp).Perm l :=
  List.mergeSort_perm l _

theorem qsort_compare_sorted (l : List MapStruct) :
    (qsort l compare).Pairwise (fun a b => compare a b ≤ 0) := by
  have h : (List.mergeSort l (fun a b : MapStruct => decide (compare a b ≤ 0))).Pairwise
      (fun a b => decide (compare a b ≤ 0) = true) :=
    List.sorted_mergeSort
    (fun a b c hab hbc => by
      simp only [decide_eq_true_eq] at *
      exact strcmp_loop_trans _ _ _ hab hbc)
    (fun a b => by
      simp only [Bool.or_eq_true, decide_eq_true_eq]
      exact strcmp_loop_total _ _) l
  simpa using h

/-- The names printed for a sorted permutation of the slots. -/
theorem sorted_names_spec (slots sorted : List MapStruct) (hperm : sorted.Perm slots)
    (hsorted : sorted.Pairwise (fun a b => compare a b ≤ 0))
    (huniq : ((slots.filter (fun m => !slot_empty m)).map (fun m => cstr m.name)).Nodup) :
    ((sorted.filter (fun m => !slot_empty m)).map (fun m => cstr m.name)).Pairwise
        (List.Lex (fun x y => x < y)) ∧
    ((sorted.filter (fun m => !slot_empty m)).map (fun m => cstr m.name)).Perm
        ((slots.filter (fun m => !slot_empty m)).map (fun m => cstr m.name)) := by
  have hp : ((sorted.filter (fun m => !slot_empty m)).map (fun m => cstr m.name)).Perm
      ((slots.filter (fun m => !slot_empty m)).map (fun m => cstr m.name)) :=
    (hperm.filter _).map _
  refine ⟨?_, hp⟩
  have hnd : ((sorted.filter (fun m => !slot_empty m)).map (fun m => cstr m.name)).Nodup :=
    hp.nodup_iff.mpr huniq
  have hle : ((sorted.filter (fun m => !slot_empty m)).map (fun m => cstr m.name)).Pairwise
      (fun a b => strcmp_loop a b ≤ 0) :=
    (hsorted.filter _).map _ (fun a b h => h)
  refine (hle.and hnd).imp ?_
  intro a b h
  rcases (strcmp_loop_le_iff a b).mp h.1 with h1 | h1
  · exact absurd h1 h.2
  · exact h1

theorem insert_reading_eq (t : Table) (name_hash : Nat) (name : List Nat) (v : Int) :
    insert_reading t name_hash name v = table_add t name_hash name ⟨v, 1, v, v⟩ := by
  unfold insert_reading table_add
  rfl

theorem merge_slot_eq (r : Result) (t : Table) (i : Nat) :
    merge_slot r t i =
      if slot_empty (r.idx_map i) then some t
      else table_add t (fnv_hash (r.idx_map i).name) (r.idx_map i).name
        (slot_stats r (r.idx_map i)) := by
  unfold merge_slot table_add
  rfl

theorem cstr_clean {n : List Nat} (h : clean n) : cstr n = n := by
  unfold cstr
  rw [List.takeWhile_eq_self_iff]
  intro x hx
  simp only [ne_eq, decide_not, Bool.not_eq_eq_eq_not, Bool.not_true, decide_eq_false_iff_not]
  rintro rfl
  exact h.2 hx

theorem slot_empty_clean {n : List Nat} (k : Nat) (h : clean n) :
    slot_empty ⟨n, k⟩ = false := by
  obtain ⟨h1, h2⟩ := h
  cases n with
  | nil => exact absurd rfl h1
  | cons a l =>
    simp only [slot_empty, List.headD_cons, decide_eq_false_iff_not]
    rintro rfl
    exact h2 (List.mem_cons_self _ _)

theorem probe_some (im : Nat → MapStruct) (n : List Nat) :
    ∀ k i j, probe im n k i = some j →
      i ≤ j ∧ j < i + k ∧ (slot_empty (im j) = true ∨ cstr (im j).name = cstr n) ∧
        ∀ l, i ≤ l → l < j → slot_empty (im l) = false ∧ cstr (im l).name ≠ cstr n
  | 0, i, j, h => by simp [probe] at h
  | k + 1, i, j, h => by
    unfold probe at h
    split at h
    · cases h
      rename_i he
      exact ⟨le_refl _, by omega, Or.inl he, fun l h1 h2 => by omega⟩
    · rename_i he
      split at h
      · cases h
        rename_i hc
        exact ⟨le_refl _, by omega, Or.inr hc, fun l h1 h2 => by omega⟩
      · rename_i hc
        obtain ⟨h1, h2, h3, h4⟩ := probe_some im n k (i + 1) j h
        refine ⟨by omega, by omega, h3, ?_⟩
        intro l hl1 hl2
        rcases Nat.eq_or_lt_of_le hl1 with rfl | hlt
        · exact ⟨by simpa using he, hc⟩
        · exact h4 l hlt hl2

theorem probe_none (im : Nat → MapStruct) (n : List Nat) :
    ∀ k i, probe im n k i = none →
      ∀ l, i ≤ l → l < i + k → slot_empty (im l) = false ∧ cstr (im l).name ≠ cstr n
  | 0, i, _, l, h1, h2 => by omega
  | k + 1, i, h, l, hl1, hl2 => by
    unfold probe at h
    split at h
    · cases h
    · rename_i he
      split at h
      · cases h
      · rename_i hc
        rcases Nat.eq_or_lt_of_le hl1 with rfl | hlt
        · exact ⟨by simpa using he, hc⟩
        · exact probe_none im n k (i + 1) h l hlt (by omega)

theorem amap_add_not_mem :
    ∀ (m : List (List Nat × Stats)) (n : List Nat) (s : Stats), n ∉ m.map Prod.fst →
      amap_add m n s = m ++ [(n, s)]
  | [], n, s, _ => rfl
  | (k, v) :: m, n, s, h => by
    simp only [List.map_cons, List.mem_cons, not_or] at h
    simp only [amap_add, if_neg (Ne.symm h.1), List.cons_append, amap_add_not_mem m n s h.2]

theorem amap_add_keys_mem :
    ∀ (m : List (List Nat × Stats)) (n : List Nat) (s : Stats), n ∈ m.map Prod.fst →
      (amap_add m n s).map Prod.fst = m.map Prod.fst
  | [], n, s, h => by simp at h
  | (k, v) :: m, n, s, h => by
    by_cases hk : k = n
    · simp [amap_add, hk]
    · have h' : n ∈ m.map Prod.fst := by
        simp only [List.map_cons, List.mem_cons] at h
        rcases h with h | h
        · exact absurd h.symm hk
        · exact h
      simp [amap_add, hk, amap_add_keys_mem m n s h']

theorem amap_add_length_mem (m : List (List Nat × Stats)) (n : List Nat) (s : Stats)
    (h : n ∈ m.map Prod.fst) : (amap_add m n s).length = m.length := by
  have := congrArg List.length (amap_add_keys_mem m n s h)
  simpa using this

theorem amap_add_mem_iff :
    ∀ (m : List (List Nat × Stats)) (n : List Nat) (v s : Stats),
      (m.map Prod.fst).Nodup → (n, v) ∈ m →
      ∀ k' v', (k', v') ∈ amap_add m n s ↔
        (k' ≠ n ∧ (k', v') ∈ m) ∨ (k' = n ∧ v' = combine v s)
  | [], n, v, s, _, h => by simp at h
  | (k, v0) :: m, n, v, s, hnd, h => by
    intro k' v'
    simp only [List.map_cons, List.nodup_cons] at hnd
    by_cases hk : k = n
    · subst hk
      have hv : v0 = v := by
        simp only [List.mem_cons, Prod.mk.injEq, true_and] at h
        rcases h with h | h
        · exact h.symm
        · exact absurd (List.mem_map_of_mem Prod.fst h) hnd.1
      subst hv
      simp only [amap_add, if_true, List.mem_cons, Prod.mk.injEq]
      constructor
      · rintro (⟨h1, h2⟩ | h1)
        · exact Or.inr ⟨h1, h2⟩
        · refine Or.inl ⟨?_, Or.inr h1⟩
          rintro rfl
          exact hnd.1 (List.mem_map_of_mem Prod.fst h1)
      · rintro (⟨h1, h2 | h2⟩ | ⟨h1, h2⟩)
        · exact absurd h2.1 h1
        · exact Or.inr h2
        · exact Or.inl ⟨h1, h2⟩
    · have h' : (n, v) ∈ m := by
        simp only [List.mem_cons, Prod.mk.injEq] at h
        rcases h with h | h
        · exact absurd h.1.symm hk
        · exact h
      have ih := amap_add_mem_iff m n v s hnd.2 h' k' v'
      simp only [amap_add, if_neg hk, List.mem_cons, Prod.mk.injEq, ih]
      constructor
      · rintro (⟨h1, h2⟩ | h1 | h1)
        · refine Or.inl ⟨?_, Or.inl ⟨h1, h2⟩⟩
          rw [h1]
          exact hk
        · exact Or.inl ⟨h1.1, Or.inr h1.2⟩
        · exact Or.inr h1
      · rintro (⟨h1, h2 | h2⟩ | h1)
        · exact Or.inl h2
        · exact Or.inr (Or.inl ⟨h1, h2⟩)
        · exact Or.inr (Or.inr h1)

theorem slot_stats_update (t : Table) (j : Nat) (s : Stats) (mm : MapStruct) :
    slot_stats (table_update t j s).result mm =
      if mm.idx = (t.result.idx_map j).idx then combine (slot_stats t.result mm) s
      else slot_stats t.result mm := by
  by_cases h : mm.idx = (t.result.idx_map j).idx
  · simp [slot_stats, table_update, combine, h]
  · simp [slot_stats, table_update, Function.update_noteq h, h]

theorem slot_stats_create (t : Table) (j : Nat) (n : List Nat) (s : Stats) (mm : MapStruct) :
    slot_stats (table_create t j n s).result mm =
      if mm.idx = t.station_idx then s else slot_stats t.result mm := by
  by_cases h : mm.idx = t.station_idx
  · simp [slot_stats, table_create, h]
  · simp [slot_stats, table_create, Function.update_noteq h, h]

theorem rep_names_unique {h : List Nat → Nat} {t : Table} {m : List (List Nat × Stats)}
    (hrep : Rep h t m) (i j : Nat) (hi : i ≤ MASK) (hj : j ≤ MASK)
    (oi : slot_empty (t.result.idx_map i) = false)
    (oj : slot_empty (t.result.idx_map j) = false)
    (heq : (t.result.idx_map i).name = (t.result.idx_map j).name) : i = j := by
  rcases Nat.lt_trichotomy i j with hlt | heq' | hgt
  · have hc := hrep.chain j hj oj
    have hci := hrep.chain i hi oi
    exact absurd heq (hc.2 i (by rw [← heq]; exact hci.1) hlt).2
  · exact heq'
  · have hc := hrep.chain i hi oi
    have hcj := hrep.chain j hj oj
    exact absurd heq.symm (hc.2 j (by rw [heq]; exact hcj.1) hgt).2

theorem rep_lost (h : List Nat → Nat) (t : Table) (m : List (List Nat × Stats)) (k : Nat)
    (hrep : Rep h t m) : Rep h { t with lost := k } m :=
  ⟨hrep.nodup, hrep.length, hrep.mem_iff, hrep.clean, hrep.chain, hrep.idx_lt, hrep.idx_inj⟩

theorem rep_update (h : List Nat → Nat) (t : Table) (m : List (List Nat × Stats)) (j : Nat)
    (s : Stats) (hrep : Rep h t m) (hj : j ≤ MASK)
    (oj : slot_empty (t.result.idx_map j) = false) :
    Rep h (table_update t j s) (amap_add m (t.result.idx_map j).name s) := by
  have hmem : ((t.result.idx_map j).name, slot_stats t.result (t.result.idx_map j)) ∈ m :=
    (hrep.mem_iff _ _).mpr ⟨j, hj, oj, rfl, rfl⟩
  have hkey : (t.result.idx_map j).name ∈ m.map Prod.fst := List.mem_map_of_mem Prod.fst hmem
  have him : (table_update t j s).result.idx_map = t.result.idx_map := rfl
  have hst : (table_update t j s).station_idx = t.station_idx := rfl
  refine ⟨?_, ?_, ?_, ?_, ?_, ?_, ?_⟩
  · rw [amap_add_keys_mem _ _ _ hkey]
    exact hrep.nodup
  · rw [amap_add_length_mem _ _ _ hkey, hst]
    exact hrep.length
  · intro n' s'
    rw [amap_add_mem_iff m _ _ s hrep.nodup hmem, him]
    constructor
    · rintro (⟨h1, h2⟩ | ⟨h1, h2⟩)
      · obtain ⟨i, hi, oi, hn, hs⟩ := (hrep.mem_iff _ _).mp h2
        refine ⟨i, hi, oi, hn, ?_⟩
        rw [slot_stats_update, if_neg, hs]
        intro hidx
        have := hrep.idx_inj i j hi hj oi oj hidx
        subst this
        exact h1 hn.symm
      · refine ⟨j, hj, oj, h1.symm, ?_⟩
        rw [slot_stats_update, if_pos rfl, h2]
    · rintro ⟨i, hi, oi, hn, hs⟩
      rw [slot_stats_update] at hs
      by_cases hij : i = j
      · subst hij
        rw [if_pos rfl] at hs
        exact Or.inr ⟨hn.symm, hs.symm⟩
      · have hidx : (t.result.idx_map i).idx ≠ (t.result.idx_map j).idx :=
          fun hidx => hij (hrep.idx_inj i j hi hj oi oj hidx)
        rw [if_neg hidx] at hs
        refine Or.inl ⟨?_, (hrep.mem_iff _ _).mpr ⟨i, hi, oi, hn, hs⟩⟩
        intro hnn
        exact hij (rep_names_unique hrep i j hi hj oi oj (by rw [hn, hnn]))
  · exact hrep.clean
  · exact hrep.chain
  · exact hrep.idx_lt
  · exact hrep.idx_inj

theorem rep_create (h : List Nat → Nat) (t : Table) (m : List (List Nat × Stats)) (j : Nat)
    (n : List Nat) (s : Stats) (hrep : Rep h t m) (hn : clean n) (hj : j ≤ MASK)
    (ej : slot_empty (t.result.idx_map j) = true) (hhj : h n ≤ j)
    (hbefore : ∀ l, h n ≤ l → l < j →
      slot_empty (t.result.idx_map l) = false ∧ (t.result.idx_map l).name ≠ n)
    (hnew : n ∉ m.map Prod.fst) :
    Rep h (table_create t j n s) (m ++ [(n, s)]) := by
  have himj : (table_create t j n s).result.idx_map j = ⟨n, t.station_idx⟩ := by
    simp [table_create]
  have him : ∀ i, i ≠ j → (table_create t j n s).result.idx_map i = t.result.idx_map i := by
    intro i hi
    simp [table_create, Function.update_noteq hi]
  have hst : (table_create t j n s).station_idx = t.station_idx + 1 := rfl
  have hocc : ∀ i, i ≠ j → slot_empty ((table_create t j n s).result.idx_map i) = false →
      slot_empty (t.result.idx_map i) = false := by
    intro i hi ho
    rwa [him i hi] at ho
  have hold : ∀ i, slot_empty (t.result.idx_map i) = false → i ≠ j := by
    rintro i ho rfl
    rw [ej] at ho
    cases ho
  refine ⟨?_, ?_, ?_, ?_, ?_, ?_, ?_⟩
  · rw [List.map_append, List.nodup_append]
    refine ⟨hrep.nodup, by simp, ?_⟩
    intro a ha hb
    simp only [List.map_cons, List.map_nil, List.mem_singleton] at hb
    subst hb
    exact hnew ha
  · rw [List.length_append, hst, hrep.length]
    rfl
  · intro n' s'
    rw [List.mem_append, List.mem_singleton]
    constructor
    · rintro (h1 | h1)
      · obtain ⟨i, hi, oi, hnm, hs⟩ := (hrep.mem_iff _ _).mp h1
        have hij := hold i oi
        refine ⟨i, hi, by rwa [him i hij], by rw [him i hij, hnm], ?_⟩
        rw [him i hij, slot_stats_create, if_neg (Nat.ne_of_lt (hrep.idx_lt i hi oi)), hs]
      · cases h1
        refine ⟨j, hj, by rw [himj]; exact slot_empty_clean _ hn, by rw [himj], ?_⟩
        rw [himj, slot_stats_create, if_pos rfl]
    · rintro ⟨i, hi, oi, hnm, hs⟩
      by_cases hij : i = j
      · subst hij
        rw [himj] at hnm hs
        rw [slot_stats_create, if_pos rfl] at hs
        exact Or.inr (by rw [← hnm, ← hs])
      · rw [him i hij] at hnm hs oi
        rw [slot_stats_create, if_neg (Nat.ne_of_lt (hrep.idx_lt i hi oi))] at hs
        exact Or.inl ((hrep.mem_iff _ _).mpr ⟨i, hi, oi, hnm, hs⟩)
  · intro i hi oi
    by_cases hij : i = j
    · subst hij
      rw [himj]
      exact hn
    · rw [him i hij]
      exact hrep.clean i hi (hocc i hij oi)
  · intro i hi oi
    by_cases hij : i = j
    · subst hij
      rw [himj]
      refine ⟨hhj, ?_⟩
      intro l hl1 hl2
      have hli : l ≠ i := Nat.ne_of_lt hl2
      rw [him l hli]
      exact hbefore l hl1 hl2
    · have oi' := hocc i hij oi
      rw [him i hij]
      obtain ⟨h1, h2⟩ := hrep.chain i hi oi'
      refine ⟨h1, ?_⟩
      intro l hl1 hl2
      obtain ⟨h3, h4⟩ := h2 l hl1 hl2
      have hlj := hold l h3
      rw [him l hlj]
      exact ⟨h3, h4⟩
  · intro i hi oi
    rw [hst]
    by_cases hij : i = j
    · subst hij
      rw [himj]
      exact Nat.lt_succ_self _
    · rw [him i hij]
      exact Nat.lt_succ_of_lt (hrep.idx_lt i hi (hocc i hij oi))
  · intro i i' hi hi' oi oi' hidx
    by_cases hij : i = j
    · by_cases hij' : i' = j
      · rw [hij, hij']
      · subst hij
        rw [himj, him i' hij'] at hidx
        have := hrep.idx_lt i' hi' (hocc i' hij' oi')
        simp only at hidx
        omega
    · by_cases hij' : i' = j
      · subst hij'
        rw [himj, him i hij] at hidx
        have := hrep.idx_lt i hi (hocc i hij oi)
        simp only at hidx
        omega
      · rw [him i hij, him i' hij'] at hidx
        exact hrep.idx_inj i i' hi hi' (hocc i hij oi) (hocc i' hij' oi') hidx

/-- One probe on a table that represents `m`: it never faults while the statistics
arrays have room, and it either runs off the end of the slot array (the ghost
counter grows, the table is unchanged) or performs `amap_add`. -/
theorem table_add_spec (h : List Nat → Nat) (t : Table) (m : List (List Nat × Stats))
    (n : List Nat) (s : Stats) (hrep : Rep h t m) (hn : clean n) (hh : h n ≤ MASK)
    (hcap : n ∈ m.map Prod.fst ∨ m.length < NUM_STATIONS) :
    ∃ t', table_add t (h n) n s = some t' ∧
      ((t'.lost = t.lost + 1 ∧ Rep h t' m) ∨
        (t'.lost = t.lost ∧ Rep h t' (amap_add m n s))) := by
  unfold table_add
  cases hp : probe t.result.idx_map n (MASK + 1 - h n) (h n) with
  | none => exact ⟨_, rfl, Or.inl ⟨rfl, rep_lost h t m _ hrep⟩⟩
  | some j =>
    obtain ⟨h1, h2, h3, h4⟩ := probe_some _ _ _ _ _ hp
    have hj : j ≤ MASK := by omega
    simp only
    by_cases he : slot_empty (t.result.idx_map j) = true
    · have hnew : n ∉ m.map Prod.fst := by
        intro hmem
        obtain ⟨⟨n', v⟩, hv, hfst⟩ := List.mem_map.mp hmem
        simp only at hfst
        subst hfst
        obtain ⟨i, hi, oi, hnm, _⟩ := (hrep.mem_iff _ _).mp hv
        obtain ⟨c1, c2⟩ := hrep.chain i hi oi
        rw [hnm] at c1 c2
        rcases Nat.lt_trichotomy i j with hlt | heq | hgt
        · exact (h4 i c1 hlt).2 (by rw [hnm])
        · subst heq
          rw [he] at oi
          cases oi
        · have := (c2 j h1 hgt).1
          rw [he] at this
          cases this
      have hlen : ¬ NUM_STATIONS ≤ t.station_idx := by
        rcases hcap with hc | hc
        · exact absurd hc hnew
        · rw [← hrep.length]
          omega
      rw [if_pos he, if_neg hlen]
      refine ⟨_, rfl, Or.inr ⟨rfl, ?_⟩⟩
      rw [amap_add_not_mem m n s hnew]
      refine rep_create h t m j n s hrep hn hj he h1 ?_ hnew
      intro l hl1 hl2
      obtain ⟨o, hne⟩ := h4 l hl1 hl2
      exact ⟨o, fun heq => hne (by rw [heq])⟩
    · have oj : slot_empty (t.result.idx_map j) = false := by simpa using he
      rw [if_neg he]
      have hname : (t.result.idx_map j).name = n := by
        rcases h3 with h3 | h3
        · exact absurd h3 he
        · rwa [cstr_clean (hrep.clean j hj oj), cstr_clean hn] at h3
      refine ⟨_, rfl, Or.inr ⟨rfl, ?_⟩⟩
      have := rep_update h t m j s hrep hj oj
      rwa [hname] at this

theorem rep_empty (h : List Nat → Nat) : Rep h empty_table [] := by
  refine ⟨by simp, rfl, ?_, ?_, ?_, ?_, ?_⟩
  · intro n s
    simp [empty_table, empty_result, slot_empty]
  all_goals
    intro i
    simp [empty_table, empty_result, slot_empty]

theorem read_append_at (pre l : List Nat) (x : Nat) (rest : List Nat) :
    read (pre ++ l ++ x :: rest) (pre.length + l.length) = x := by
  have h : pre.length + l.length = (pre ++ l).length + 0 := by simp
  rw [h, read_append_right, read_cons_zero]

theorem name_loop_spec (pre rest : List Nat) :
    ∀ (tail acc : List Nat) (fuel hash : Nat), 59 ∉ tail → 0 ∉ tail → tail.length < fuel →
      name_loop (pre ++ acc ++ tail ++ 59 :: rest) pre.length fuel acc.length acc hash
        = some (acc.length + tail.length, acc ++ tail, fnv_loop tail hash)
  | [], acc, fuel, hash, _, _, hf => by
    obtain ⟨f, rfl⟩ : ∃ f, fuel = f + 1 := ⟨fuel - 1, by simp at hf; omega⟩
    unfold name_loop
    simp only [List.append_nil]
    rw [read_append_at, if_pos rfl]
    simp [fnv_loop]
  | x :: tail, acc, fuel, hash, h59, h0, hf => by
    obtain ⟨f, rfl⟩ : ∃ f, fuel = f + 1 := ⟨fuel - 1, by simp at hf; omega⟩
    simp only [List.mem_cons, not_or] at h59 h0
    have hx : x ≠ 59 := fun h => h59.1 h.symm
    have hx0 : x ≠ 0 := fun h => h0.1 h.symm
    unfold name_loop
    have hd : pre ++ acc ++ (x :: tail) ++ 59 :: rest = pre ++ acc ++ x :: (tail ++ 59 :: rest) := by
      simp
    simp only
    rw [hd, read_append_at, if_neg hx]
    have ih := name_loop_spec pre rest tail (acc ++ [x]) f (fnv_step hash x) h59.2 h0.2
      (by simp at hf; omega)
    have hd2 : pre ++ (acc ++ [x]) ++ tail ++ 59 :: rest
        = pre ++ acc ++ x :: (tail ++ 59 :: rest) := by simp
    rw [hd2] at ih
    simp only [List.length_append, List.length_singleton] at ih
    rw [ih]
    simp [fnv_loop, hx0]
    omega

theorem parse_temperature_shift (pre l : List Nat) :
    parse_temperature (pre ++ l) pre.length
      = ((parse_temperature l 0).1, pre.length + (parse_temperature l 0).2) := by
  have r : ∀ k, read (pre ++ l) (pre.length + k) = read l k := read_append_right pre l
  unfold parse_temperature
  simp only [Nat.zero_add, r]
  by_cases h1 : read l 1 = 45
  · simp only [h1, if_true, Nat.add_assoc, r]
    by_cases h2 : read l (2 + 1) = 46
    · simp only [h2, if_true]
    · simp only [h2, if_false]
  · simp only [h1, if_false, Nat.add_assoc, r]
    by_cases h2 : read l (1 + 1) = 46
    · simp only [h2, if_true]
    · simp only [h2, if_false]

/-- Lines 123-140 on the text of a temperature, whatever follows it. -/
theorem parse_temperature_text (pre rest : List Nat) (neg : Bool) (tens : Option Nat)
    (units tenth : Nat) (ht : tens.getD 0 < 10) (hu : units < 10) (hte : tenth < 10) :
    parse_temperature
        (pre ++ 59 :: (sign_text neg ++ (tens_text tens ++ [48 + units, 46, 48 + tenth])) ++ rest)
        pre.length
      = (sign_factor neg * (100 * (tens.getD 0 : Nat) + 10 * (units : Nat) + (tenth : Nat)),
          pre.length + (1 + (sign_text neg ++ (tens_text tens
            ++ [48 + units, 46, 48 + tenth])).length) + 1) := by
  have h46 : ∀ d, d < 10 → 48 + d ≠ 46 := by
    intro d hd
    omega
  have h45 : ∀ d, d < 10 → 48 + d ≠ 45 := by
    intro d hd
    omega
  rw [List.append_assoc, parse_temperature_shift]
  cases neg
  · cases tens with
    | none =>
      rw [parse_temperature_pos1]
      · simp [sign_text, tens_text, sign_factor, read_cons_succ, read_cons_zero,
          char_to_int_digit hu, char_to_int_digit hte]
        ring
      · simpa [sign_text, tens_text, read_cons_succ, read_cons_zero] using h45 units hu
      · simp [sign_text, tens_text, read_cons_succ, read_cons_zero]
    | some a =>
      have ha : a < 10 := by simpa using ht
      rw [parse_temperature_pos2]
      · simp [sign_text, tens_text, sign_factor, read_cons_succ, read_cons_zero,
          char_to_int_digit ha, char_to_int_digit hu, char_to_int_digit hte]
        ring
      · simpa [sign_text, tens_text, read_cons_succ, read_cons_zero] using h45 a ha
      · simpa [sign_text, tens_text, read_cons_succ, read_cons_zero] using h46 units hu
  · cases tens with
    | none =>
      rw [parse_temperature_neg1]
      · simp [sign_text, tens_text, sign_factor, read_cons_succ, read_cons_zero,
          char_to_int_digit hu, char_to_int_digit hte]
        ring
      · simp [sign_text, tens_text, read_cons_succ, read_cons_zero]
      · simp [sign_text, tens_text, read_cons_succ, read_cons_zero]
    | some a =>
      have ha : a < 10 := by simpa using ht
      rw [parse_temperature_neg2]
      · simp [sign_text, tens_text, sign_factor, read_cons_succ, read_cons_zero,
          char_to_int_digit ha, char_to_int_digit hu, char_to_int_digit hte]
        ring
      · simp [sign_text, tens_text, read_cons_succ, read_cons_zero]
      · simpa [sign_text, tens_text, read_cons_succ, read_cons_zero] using h46 units hu

theorem worker_hash_le (n : List Nat) : worker_hash n ≤ MASK := Nat.and_le_right

theorem fnv_hash_le (n : List Nat) : fnv_hash n ≤ MASK := Nat.and_le_right

theorem wf_clean {r : Reading} (h : r.wf) : clean r.name := by
  obtain ⟨h1, _, h3, _⟩ := h
  refine ⟨?_, fun h0 => (h3 0 h0).2.2.1 rfl⟩
  intro hnil
  rw [hnil] at h1
  simp at h1

/-- One iteration of the worker loop on the text of a well-formed record: the probe
for its name with its value, and `content` moved past the byte after the text. -/
theorem process_record_spec (pre rest : List Nat) (r : Reading) (hwf : r.wf) (w : Worker)
    (hc : w.content = pre.length) :
    process_record (pre ++ r.text ++ rest) w
      = (table_add w.table (worker_hash r.name) r.name r.stats).map
          (fun t => ⟨t, pre.length + r.text.length + 1⟩) := by
  obtain ⟨h1, h2, h3, h4, h5, h6⟩ := hwf
  obtain ⟨name, neg, tens, units, tenth⟩ := r
  simp only at h1 h2 h3 h4 h5 h6
  cases name with
  | nil => simp at h1
  | cons a tail =>
    have h59 : 59 ∉ tail := fun h => (h3 59 (List.mem_cons_of_mem _ h)).1 rfl
    have h0 : 0 ∉ tail := fun h => (h3 0 (List.mem_cons_of_mem _ h)).2.2.1 rfl
    have hlen : tail.length < 99 := by
      simp at h2
      omega
    have hdata : pre ++ Reading.text ⟨a :: tail, neg, tens, units, tenth⟩ ++ rest
        = pre ++ [a] ++ tail ++ 59 :: ((sign_text neg
            ++ (tens_text tens ++ [48 + units, 46, 48 + tenth])) ++ rest) := by
      simp [Reading.text]
    have hread : read (pre ++ Reading.text ⟨a :: tail, neg, tens, units, tenth⟩ ++ rest)
        w.content = a := by
      rw [hc, List.append_assoc, show pre.length = pre.length + 0 from rfl, read_append_right]
      simp [Reading.text, read]
    have hname := name_loop_spec pre ((sign_text neg
      ++ (tens_text tens ++ [48 + units, 46, 48 + tenth])) ++ rest) tail [a] 99
      FNV_OFFSET_BASIS h59 h0 hlen
    have hdata2 : pre ++ Reading.text ⟨a :: tail, neg, tens, units, tenth⟩ ++ rest
        = (pre ++ a :: tail) ++ 59 :: (sign_text neg
            ++ (tens_text tens ++ [48 + units, 46, 48 + tenth])) ++ rest := by
      simp [Reading.text]
    have htemp := parse_temperature_text (pre ++ a :: tail) rest neg tens units tenth h4 h5 h6
    unfold process_record
    rw [hread, hc]
    rw [hdata] at *
    rw [List.length_singleton] at hname
    rw [hname]
    simp only
    have hpos : pre.length + (1 + tail.length) = (pre ++ a :: tail).length := by simp; omega
    rw [hpos, ← hdata, hdata2, htemp, insert_reading_eq]
    simp only [worker_hash, List.tail_cons, List.singleton_append, Reading.stats, Reading.value,
      Reading.text]
    cases table_add w.table (fnv_loop tail FNV_OFFSET_BASIS &&& MASK) (a :: tail)
        ⟨sign_factor neg * (100 * (tens.getD 0 : Nat) + 10 * (units : Nat) + (tenth : Nat)), 1,
          sign_factor neg * (100 * (tens.getD 0 : Nat) + 10 * (units : Nat) + (tenth : Nat)),
          sign_factor neg * (100 * (tens.getD 0 : Nat) + 10 * (units : Nat) + (tenth : Nat))⟩ with
    | none => rfl
    | some t =>
      simp only [Option.map_some']
      congr 2
      simp
      omega

theorem add_readings_eq (t : Table) (rs : List Reading) :
    add_readings t rs = add_items worker_hash t (rs.map (fun r => (r.name, r.stats))) := by
  unfold add_readings add_items
  rw [List.foldlM_map]

theorem add_readings_cons (t : Table) (r : Reading) (rs : List Reading) :
    add_readings t (r :: rs)
      = (table_add t (worker_hash r.name) r.name r.stats).bind (fun t => add_readings t rs) := by
  unfold add_readings
  rw [List.foldlM_cons]
  rfl

/-- The worker loop on a run of well-formed records laid from `content` on, when
`data_end` lies after the start of the last record and not after the byte that
follows it: the loop makes one probe for each record, in order. -/
theorem process_loop_spec (data : List Nat) (data_end : Nat) :
    ∀ (rs : List Reading) (fuel : Nat) (w : Worker), (∀ r ∈ rs, r.wf) →
      Laid data w.content rs → (∀ s ∈ starts w.content rs, s < data_end) →
      data_end ≤ after w.content rs → rs.length ≤ fuel →
      process_loop data data_end fuel w
        = (add_readings w.table rs).map (fun t => ⟨t, after w.content rs⟩)
  | [], fuel, w, _, _, _, hend, _ => by
    simp only [after] at hend
    cases fuel with
    | zero => rfl
    | succ f =>
      unfold process_loop
      rw [if_pos hend]
      rfl
  | r :: rs, fuel, w, hwf, hlaid, hstarts, hend, hfuel => by
    obtain ⟨f, rfl⟩ : ∃ f, fuel = f + 1 := ⟨fuel - 1, by simp at hfuel; omega⟩
    obtain ⟨⟨pre, rest, hdata, hpre⟩, hlaid'⟩ := hlaid
    have hlt : w.content < data_end := hstarts _ (by simp [starts])
    unfold process_loop
    rw [if_neg (by omega), hdata, process_record_spec pre rest r (hwf r (List.mem_cons_self _ _)) w
      hpre.symm, add_readings_cons]
    cases table_add w.table (worker_hash r.name) r.name r.stats with
    | none => rfl
    | some t =>
      simp only [Option.map_some', Option.some_bind]
      rw [← hdata]
      have ih := process_loop_spec data data_end rs f ⟨t, pre.length + r.text.length + 1⟩
        (fun r' hr' => hwf r' (List.mem_cons_of_mem _ hr'))
        (by rw [hpre]; exact hlaid')
        (by
          intro s hs
          apply hstarts
          simp only [starts, List.mem_cons]
          right
          rw [← hpre]
          exact hs)
        (by
          simp only [after] at hend
          rw [hpre]
          exact hend)
        (by simp at hfuel; omega)
      rw [ih]
      simp only [after, hpre]

theorem subset_capacity {allowed keys : List (List Nat)} {n : List Nat}
    (hcap : allowed.dedup.length ≤ NUM_STATIONS) (hnd : keys.Nodup) (hsub : keys ⊆ allowed)
    (hn : n ∈ allowed) (hnew : n ∉ keys) : keys.length < NUM_STATIONS := by
  have h1 : (n :: keys).Nodup := List.nodup_cons.mpr ⟨hnew, hnd⟩
  have h2 : n :: keys ⊆ allowed.dedup := by
    intro x hx
    rw [List.mem_dedup]
    rcases List.mem_cons.mp hx with rfl | hx
    · exact hn
    · exact hsub hx
  have h3 := (List.subperm_of_subset h1 h2).length_le
  simp only [List.length_cons] at h3
  omega

theorem amap_add_keys_subset {allowed : List (List Nat)} (m : List (List Nat × Stats))
    (n : List Nat) (s : Stats) (hm : m.map Prod.fst ⊆ allowed) (hn : n ∈ allowed) :
    (amap_add m n s).map Prod.fst ⊆ allowed := by
  by_cases h : n ∈ m.map Prod.fst
  · rw [amap_add_keys_mem m n s h]
    exact hm
  · rw [amap_add_not_mem m n s h, List.map_append]
    intro x hx
    rcases List.mem_append.mp hx with hx | hx
    · exact hm hx
    · simp only [List.map_cons, List.map_nil, List.mem_singleton] at hx
      rw [hx]
      exact hn

/-- A sequence of probes with clean names taken from `allowed`, a list with at most
10000 distinct names: the probes never fault, and the table comes to represent the
association list built from the probes that landed, which are all of them when the
ghost counter has not moved. -/
theorem add_items_spec (h : List Nat → Nat) (hh : ∀ n, h n ≤ MASK) (allowed : List (List Nat))
    (hcap : allowed.dedup.length ≤ NUM_STATIONS) :
    ∀ (items : List (List Nat × Stats)) (t : Table) (m : List (List Nat × Stats)),
      Rep h t m → (∀ it ∈ items, clean it.1 ∧ it.1 ∈ allowed) → m.map Prod.fst ⊆ allowed →
      ∃ t' landed, add_items h t items = some t' ∧ landed.Sublist items ∧
        Rep h t' (amap_add_all m landed) ∧
        t.lost ≤ t'.lost ∧ (t'.lost = t.lost → landed = items)
  | [], t, m, hrep, _, _ => ⟨t, [], rfl, List.Sublist.refl _, hrep, le_refl _, fun _ => rfl⟩
  | it :: items, t, m, hrep, hitems, hsub => by
    obtain ⟨hcl, hal⟩ := hitems it (List.mem_cons_self _ _)
    have hroom : it.1 ∈ m.map Prod.fst ∨ m.length < NUM_STATIONS := by
      by_cases hmem : it.1 ∈ m.map Prod.fst
      · exact Or.inl hmem
      · right
        have := subset_capacity hcap hrep.nodup hsub hal hmem
        simpa using this
    obtain ⟨t1, h1, hcase⟩ := table_add_spec h t m it.1 it.2 hrep hcl (hh _) hroom
    have hstep : add_items h t (it :: items) = add_items h t1 items := by
      unfold add_items
      rw [List.foldlM_cons, h1]
      rfl
    rcases hcase with ⟨hl, hrep1⟩ | ⟨hl, hrep1⟩
    · obtain ⟨t', landed, h2, hsl, hrep', hle, _⟩ := add_items_spec h hh allowed hcap items t1 m
        hrep1 (fun it' hit' => hitems it' (List.mem_cons_of_mem _ hit')) hsub
      refine ⟨t', landed, by rw [hstep, h2], List.Sublist.cons _ hsl, hrep', by omega, ?_⟩
      intro heq
      omega
    · obtain ⟨t', landed, h2, hsl, hrep', hle, hm'⟩ := add_items_spec h hh allowed hcap items t1
        (amap_add m it.1 it.2) hrep1 (fun it' hit' => hitems it' (List.mem_cons_of_mem _ hit'))
        (amap_add_keys_subset m it.1 it.2 hsub hal)
      refine ⟨t', it :: landed, by rw [hstep, h2], List.Sublist.cons₂ _ hsl, hrep', by omega, ?_⟩
      intro heq
      rw [hm' (by omega)]

theorem isStats_single (v : Int) : IsStatsOf [v] ⟨v, 1, v, v⟩ := by
  simp [IsStatsOf]

theorem isStats_ne_nil {vs : List Int} {s : Stats} (h : IsStatsOf vs s) : vs ≠ [] := by
  rintro rfl
  simp [IsStatsOf] at h

theorem isStats_append {vs ws : List Int} {a b : Stats} (ha : IsStatsOf vs a)
    (hb : IsStatsOf ws b) : IsStatsOf (vs ++ ws) (combine a b) := by
  obtain ⟨a1, a2, ⟨a3, a4⟩, ⟨a5, a6⟩⟩ := ha
  obtain ⟨b1, b2, ⟨b3, b4⟩, ⟨b5, b6⟩⟩ := hb
  refine ⟨by simp [combine, a1, b1], by simp [combine, a2, b2], ⟨?_, ?_⟩, ⟨?_, ?_⟩⟩
  · simp only [combine]
    split
    · exact List.mem_append_right _ b3
    · exact List.mem_append_left _ a3
  · intro v hv
    simp only [combine]
    rcases List.mem_append.mp hv with hv | hv
    · have := a4 v hv
      split <;> omega
    · have := b4 v hv
      split <;> omega
  · simp only [combine]
    split
    · exact List.mem_append_right _ b5
    · exact List.mem_append_left _ a5
  · intro v hv
    simp only [combine]
    rcases List.mem_append.mp hv with hv | hv
    · have := a6 v hv
      split <;> omega
    · have := b6 v hv
      split <;> omega

theorem isStats_unique {vs : List Int} {a b : Stats} (ha : IsStatsOf vs a)
    (hb : IsStatsOf vs b) : a = b := by
  obtain ⟨a1, a2, ⟨a3, a4⟩, ⟨a5, a6⟩⟩ := ha
  obtain ⟨b1, b2, ⟨b3, b4⟩, ⟨b5, b6⟩⟩ := hb
  obtain ⟨as, ac, amin, amax⟩ := a
  obtain ⟨bs, bc, bmin, bmax⟩ := b
  simp only at *
  have h1 := a4 _ b3
  have h2 := b4 _ a3
  have h3 := a6 _ b5
  have h4 := b6 _ a5
  simp only [Stats.mk.injEq]
  exact ⟨by rw [a1, b1], by rw [a2, b2], by omega, by omega⟩

theorem isStats_perm {vs ws : List Int} {a : Stats} (hp : vs.Perm ws) (ha : IsStatsOf vs a) :
    IsStatsOf ws a := by
  obtain ⟨a1, a2, ⟨a3, a4⟩, ⟨a5, a6⟩⟩ := ha
  exact ⟨by rw [a1, hp.sum_eq], by rw [a2, hp.length_eq], ⟨hp.mem_iff.mp a3,
    fun v hv => a4 v (hp.mem_iff.mpr hv)⟩, ⟨hp.mem_iff.mp a5, fun v hv => a6 v (hp.mem_iff.mpr hv)⟩⟩

theorem exists_stats : ∀ vs : List Int, vs ≠ [] → ∃ s, IsStatsOf vs s
  | [], h => absurd rfl h
  | [v], _ => ⟨_, isStats_single v⟩
  | v :: w :: vs, _ => by
    obtain ⟨s, hs⟩ := exists_stats (w :: vs) (by simp)
    exact ⟨_, isStats_append (isStats_single v) hs⟩

theorem amap_add_nodup (m : List (List Nat × Stats)) (n : List Nat) (s : Stats)
    (h : (m.map Prod.fst).Nodup) : ((amap_add m n s).map Prod.fst).Nodup := by
  by_cases hmem : n ∈ m.map Prod.fst
  · rw [amap_add_keys_mem m n s hmem]
    exact h
  · rw [amap_add_not_mem m n s hmem, List.map_append, List.nodup_append]
    refine ⟨h, by simp, ?_⟩
    intro a ha hb
    simp only [List.map_cons, List.map_nil, List.mem_singleton] at hb
    subst hb
    exact hmem ha

theorem agg_congr {m : List (List Nat × Stats)} {V V' : List Nat → List Int} (h : AggOf m V)
    (hV : ∀ n, V n = V' n) : AggOf m V' :=
  ⟨h.1, fun n s => by rw [← hV n]; exact h.2 n s⟩

theorem agg_not_mem {m : List (List Nat × Stats)} {V : List Nat → List Int} (h : AggOf m V)
    (n : List Nat) (hn : n ∉ m.map Prod.fst) : V n = [] := by
  by_contra hne
  obtain ⟨s, hs⟩ := exists_stats (V n) hne
  exact hn (List.mem_map_of_mem Prod.fst ((h.2 n s).mpr hs))

theorem agg_add {m : List (List Nat × Stats)} {V : List Nat → List Int} (h : AggOf m V)
    (n : List Nat) (s : Stats) (vs : List Int) (hs : IsStatsOf vs s) :
    AggOf (amap_add m n s) (fun k => if k = n then V k ++ vs else V k) := by
  refine ⟨amap_add_nodup m n s h.1, ?_⟩
  intro k' v'
  by_cases hmem : n ∈ m.map Prod.fst
  · obtain ⟨⟨n', v⟩, hv, hfst⟩ := List.mem_map.mp hmem
    simp only at hfst
    subst hfst
    rw [amap_add_mem_iff m n' v s h.1 hv]
    have hvn := (h.2 n' v).mp hv
    by_cases hk : k' = n'
    · subst hk
      simp only [ne_eq, not_true_eq_false, false_and, true_and, false_or, if_true]
      constructor
      · rintro rfl
        exact isStats_append hvn hs
      · intro h'
        exact isStats_unique h' (isStats_append hvn hs)
    · simp only [ne_eq, hk, not_false_eq_true, true_and, false_and, or_false, if_false]
      exact h.2 k' v'
  · rw [amap_add_not_mem m n s hmem, List.mem_append, List.mem_singleton]
    have hnil := agg_not_mem h n hmem
    by_cases hk : k' = n
    · subst hk
      simp only [if_true, hnil, List.nil_append, Prod.mk.injEq, true_and]
      constructor
      · rintro (h1 | rfl)
        · exact absurd (List.mem_map_of_mem Prod.fst h1) hmem
        · exact hs
      · intro h'
        exact Or.inr (isStats_unique h' hs)
    · simp only [hk, if_false, Prod.mk.injEq, false_and, or_false]
      exact h.2 k' v'

theorem agg_nil : AggOf [] (fun _ => []) := by
  refine ⟨by simp, ?_⟩
  intro n s
  simp only [List.not_mem_nil, false_iff]
  exact fun h => isStats_ne_nil h rfl

theorem values_cons (r : Reading) (rs : List Reading) (n : List Nat) :
    values (r :: rs) n = if r.name = n then r.value :: values rs n else values rs n := by
  unfold values
  by_cases h : r.name = n
  · simp [List.filter_cons, h]
  · simp [List.filter_cons, h]

theorem values_append (rs rs' : List Reading) (n : List Nat) :
    values (rs ++ rs') n = values rs n ++ values rs' n := by
  simp [values]

/-- The association list built from the readings `rs` holds the statistics of their
values. -/
theorem agg_readings :
    ∀ (rs : List Reading) (m : List (List Nat × Stats)) (V : List Nat → List Int), AggOf m V →
      AggOf (amap_add_all m (rs.map (fun r => (r.name, r.stats)))) (fun n => V n ++ values rs n)
  | [], m, V, h => by
    simpa [amap_add_all, values] using h
  | r :: rs, m, V, h => by
    have h1 := agg_add h r.name r.stats [r.value] (isStats_single r.value)
    have ih := agg_readings rs _ _ h1
    have hstep : amap_add_all m ((r :: rs).map (fun r => (r.name, r.stats)))
        = amap_add_all (amap_add m r.name r.stats) (rs.map (fun r => (r.name, r.stats))) := rfl
    rw [hstep]
    refine agg_congr ih ?_
    intro n
    rw [values_cons]
    by_cases hn : r.name = n
    · subst hn
      simp
    · have hn' : ¬ n = r.name := fun h => hn h.symm
      simp [hn, hn']

/-- Folding the entries `L` of a worker, which hold the statistics of the values `W`,
into a list that holds those of `V`, gives the statistics of `V n ++ W n`. -/
theorem agg_merge_aux :
    ∀ (L m : List (List Nat × Stats)) (V W : List Nat → List Int), AggOf m V →
      (L.map Prod.fst).Nodup → (∀ n s, (n, s) ∈ L → IsStatsOf (W n) s) →
      AggOf (amap_add_all m L) (fun n => V n ++ if n ∈ L.map Prod.fst then W n else [])
  | [], m, V, W, h, _, _ => by
    simpa [amap_add_all] using h
  | (n0, s0) :: L, m, V, W, h, hnd, hL => by
    simp only [List.map_cons, List.nodup_cons] at hnd
    have h1 := agg_add h n0 s0 (W n0) (hL n0 s0 (List.mem_cons_self _ _))
    have ih := agg_merge_aux L _ _ W h1 hnd.2 (fun n s hns => hL n s (List.mem_cons_of_mem _ hns))
    have hstep : amap_add_all m ((n0, s0) :: L) = amap_add_all (amap_add m n0 s0) L := rfl
    rw [hstep]
    refine agg_congr ih ?_
    intro n
    by_cases hn : n = n0
    · subst hn
      simp [hnd.1]
    · have hiff : n ∈ n0 :: List.map Prod.fst L ↔ n ∈ List.map Prod.fst L := by
        simp [hn]
      simp only [hn, if_false, List.map_cons]
      by_cases hm : n ∈ List.map Prod.fst L
      · rw [if_pos hm, if_pos (hiff.mpr hm)]
      · rw [if_neg hm, if_neg (fun h => hm (hiff.mp h))]

theorem agg_merge {L m : List (List Nat × Stats)} {V W : List Nat → List Int} (h : AggOf m V)
    (hL : AggOf L W) : AggOf (amap_add_all m L) (fun n => V n ++ W n) := by
  refine agg_congr (agg_merge_aux L m V W h hL.1 (fun n s hns => (hL.2 n s).mp hns)) ?_
  intro n
  by_cases hn : n ∈ L.map Prod.fst
  · rw [if_pos hn]
  · rw [if_neg hn, agg_not_mem hL n hn]

theorem entries_mem_iff (r : Result) (n : List Nat) (s : Stats) :
    (n, s) ∈ entries r ↔
      ∃ i, i ≤ MASK ∧ slot_empty (r.idx_map i) = false ∧ cstr (r.idx_map i).name = n ∧
        slot_stats r (r.idx_map i) = s := by
  unfold entries
  constructor
  · intro h
    obtain ⟨mm, hmm, heq⟩ := List.mem_map.mp h
    obtain ⟨hmm1, hmm2⟩ := List.mem_filter.mp hmm
    obtain ⟨i, hi, rfl⟩ := List.mem_map.mp hmm1
    rw [List.mem_range] at hi
    simp only [Prod.mk.injEq] at heq
    exact ⟨i, by omega, by simpa using hmm2, heq.1, heq.2⟩
  · rintro ⟨i, hi, ho, hn, hs⟩
    refine List.mem_map.mpr ⟨r.idx_map i, List.mem_filter.mpr ⟨List.mem_map.mpr
      ⟨i, List.mem_range.mpr (by omega), rfl⟩, by simpa using ho⟩, ?_⟩
    rw [hn, hs]

theorem rep_entries {h : List Nat → Nat} {t : Table} {m : List (List Nat × Stats)}
    (hrep : Rep h t m) (n : List Nat) (s : Stats) : (n, s) ∈ entries t.result ↔ (n, s) ∈ m := by
  rw [entries_mem_iff, hrep.mem_iff]
  constructor
  · rintro ⟨i, hi, ho, hn, hs⟩
    exact ⟨i, hi, ho, by rwa [cstr_clean (hrep.clean i hi ho)] at hn, hs⟩
  · rintro ⟨i, hi, ho, hn, hs⟩
    exact ⟨i, hi, ho, by rwa [cstr_clean (hrep.clean i hi ho)], hs⟩

theorem rep_entries_nodup {h : List Nat → Nat} {t : Table} {m : List (List Nat × Stats)}
    (hrep : Rep h t m) : ((entries t.result).map Prod.fst).Nodup := by
  unfold entries
  rw [List.filter_map, List.map_map, List.map_map]
  apply List.Nodup.map_on
  · intro i hi j hj hij
    simp only [List.mem_filter, List.mem_range, Function.comp_apply, Bool.not_eq_true'] at hi hj
    simp only [Function.comp_apply] at hij
    have hi' : i ≤ MASK := by omega
    have hj' : j ≤ MASK := by omega
    rw [cstr_clean (hrep.clean i hi' hi.2), cstr_clean (hrep.clean j hj' hj.2)] at hij
    exact rep_names_unique hrep i j hi' hj' hi.2 hj.2 hij
  · exact (List.nodup_range _).filter _

theorem rep_agg_entries {h : List Nat → Nat} {t : Table} {m : List (List Nat × Stats)}
    {V : List Nat → List Int} (hrep : Rep h t m) (hagg : AggOf m V) :
    AggOf (entries t.result) V :=
  ⟨rep_entries_nodup hrep, fun n s => by rw [rep_entries hrep]; exact hagg.2 n s⟩

theorem encode_cons (r : Reading) (rs : List Reading) :
    encode (r :: rs) = r.text ++ 10 :: encode rs := by
  simp [encode, Reading.line]

theorem encode_append (rs rs' : List Reading) : encode (rs ++ rs') = encode rs ++ encode rs' := by
  simp [encode]

theorem laid_encode :
    ∀ (rs : List Reading) (pre post : List Nat), Laid (pre ++ encode rs ++ post) pre.length rs
  | [], _, _ => trivial
  | r :: rs, pre, post => by
    refine ⟨⟨pre, 10 :: (encode rs ++ post), by simp [encode_cons], rfl⟩, ?_⟩
    have h := laid_encode rs (pre ++ r.text ++ [10]) post
    have hd : pre ++ r.text ++ [10] ++ encode rs ++ post = pre ++ encode (r :: rs) ++ post := by
      simp [encode_cons]
    rw [hd] at h
    simpa using h

theorem after_encode : ∀ (rs : List Reading) (p : Nat), after p rs = p + (encode rs).length
  | [], p => by simp [after, encode]
  | r :: rs, p => by
    rw [after, after_encode rs, encode_cons]
    simp
    omega

theorem starts_lt : ∀ (rs : List Reading) (p : Nat), ∀ s ∈ starts p rs, s < after p rs
  | [], _, s, hs => by simp [starts] at hs
  | r :: rs, p, s, hs => by
    simp only [starts, List.mem_cons] at hs
    rw [after]
    rcases hs with rfl | hs
    · rw [after_encode]
      omega
    · exact starts_lt rs _ s hs

theorem length_le_encode : ∀ rs : List Reading, rs.length ≤ (encode rs).length
  | [] => by simp
  | r :: rs => by
    have := length_le_encode rs
    rw [encode_cons]
    simp
    omega

/-- The worker on a range made of the lines of well-formed records makes one probe
for each record, in order, and stops at the end of the range. -/
theorem process_chunk_state_encode (pre post : List Nat) (rs : List Reading)
    (hwf : ∀ r ∈ rs, r.wf) :
    process_chunk_state (pre ++ encode rs ++ post) pre.length (encode rs).length
      = (add_readings empty_table rs).map
          (fun t => ⟨t, pre.length + (encode rs).length⟩) := by
  unfold process_chunk_state
  rw [process_loop_spec _ _ rs _ ⟨empty_table, pre.length⟩ hwf (laid_encode rs pre post)
    (by
      intro s hs
      have := starts_lt rs _ s hs
      rwa [after_encode] at this)
    (by rw [after_encode])
    (length_le_encode rs), after_encode]

theorem values_ne_nil_iff (rs : List Reading) (n : List Nat) :
    values rs n ≠ [] ↔ n ∈ rs.map Reading.name := by
  induction rs with
  | nil => simp [values]
  | cons r rs ih =>
    rw [values_cons]
    by_cases h : r.name = n
    · simp [h]
    · have h' : ¬ n = r.name := fun h' => h h'.symm
      simp [h, h', ih]

/-- What a run of probes for well-formed readings leaves in a fresh worker table. -/
theorem add_readings_spec (rs : List Reading) (allowed : List (List Nat))
    (hwf : ∀ r ∈ rs, r.wf) (hsub : rs.map Reading.name ⊆ allowed)
    (hcap : allowed.dedup.length ≤ NUM_STATIONS) :
    ∃ t landed, add_readings empty_table rs = some t ∧ landed.Sublist rs ∧
      Rep worker_hash t (amap_add_all [] (landed.map (fun r => (r.name, r.stats)))) ∧
      (t.lost = 0 → landed = rs) := by
  rw [add_readings_eq]
  obtain ⟨t, items, h1, h2, h3, _, h5⟩ := add_items_spec worker_hash worker_hash_le allowed hcap
    (rs.map (fun r => (r.name, r.stats))) empty_table [] (rep_empty _)
    (by
      intro it hit
      obtain ⟨r, hr, rfl⟩ := List.mem_map.mp hit
      exact ⟨wf_clean (hwf r hr), hsub (List.mem_map_of_mem _ hr)⟩)
    (by simp)
  obtain ⟨landed, hl1, hl2⟩ := List.sublist_map_iff.mp h2
  subst hl2
  refine ⟨t, landed, h1, hl1, h3, ?_⟩
  intro hlost
  have := congrArg List.length (h5 (by rw [hlost]; rfl))
  simp only [List.length_map] at this
  exact hl1.eq_of_length this

/-- C7 (worker aggregation).  On a range made of the lines of well-formed records
with at most 10000 distinct names, `process_chunk` returns a table; when no probe ran
off the end of the slot array, the table has one entry for each name that occurs in
the range and no other entry, and the entry of a name holds the sum, the number, the
minimum and the maximum of its temperatures in tenths.  Names that start their
probes on the same slot are not excepted. -/
theorem worker_aggregation (pre post : List Nat) (rs : List Reading) (hwf : ∀ r ∈ rs, r.wf)
    (hcap : (rs.map Reading.name).dedup.length ≤ NUM_STATIONS) :
    ∃ w, process_chunk_state (pre ++ encode rs ++ post) pre.length (encode rs).length = some w ∧
      process_chunk (pre ++ encode rs ++ post) pre.length (encode rs).length
        = some w.table.result ∧
      (w.table.lost = 0 →
        ((entries w.table.result).map Prod.fst).Nodup ∧
        (∀ n, n ∈ (entries w.table.result).map Prod.fst ↔ n ∈ rs.map Reading.name) ∧
        (∀ n s, (n, s) ∈ entries w.table.result → IsStatsOf (values rs n) s)) := by
  obtain ⟨t, landed, h1, _, h3, h4⟩ := add_readings_spec rs (rs.map Reading.name) hwf
    (List.Subset.refl _) hcap
  have hstate := process_chunk_state_encode pre post rs hwf
  rw [h1] at hstate
  rw [Option.map_some'] at hstate
  refine ⟨_, hstate, by rw [process_chunk, hstate]; rfl, ?_⟩
  intro hlost
  have hl := h4 hlost
  subst hl
  have hagg : AggOf (entries t.result) (values landed) :=
    rep_agg_entries h3 (agg_congr (agg_readings landed [] _ agg_nil) (fun n => by simp))
  refine ⟨hagg.1, ?_, fun n s hns => (hagg.2 n s).mp hns⟩
  intro n
  rw [← values_ne_nil_iff]
  constructor
  · intro hn
    obtain ⟨⟨n', s⟩, hs, rfl⟩ := List.mem_map.mp hn
    exact isStats_ne_nil ((hagg.2 n' s).mp hs)
  · intro hn
    obtain ⟨s, hs⟩ := exists_stats _ hn
    exact List.mem_map_of_mem Prod.fst ((hagg.2 n s).mpr hs)

theorem foldlM_skip {α β : Type} (p : α → Bool) (f : β → α → Option β) :
    ∀ (l : List α) (b : β),
      l.foldlM (fun b x => if p x then some b else f b x) b
        = (l.filter (fun x => !p x)).foldlM f b
  | [], b => rfl
  | x :: l, b => by
    rw [List.foldlM_cons]
    by_cases hp : p x = true
    · simp only [hp, if_true, List.filter_cons, Bool.not_true]
      exact foldlM_skip p f l b
    · have hp' : p x = false := by simpa using hp
      simp only [hp', List.filter_cons, Bool.not_false, if_true, List.foldlM_cons]
      cases f b x with
      | none => rfl
      | some b' => exact foldlM_skip p f l b'

/-- The names and statistics of the occupied slots of `r`, with the names as stored. -/
theorem merge_result_eq (t : Table) (r : Result) :
    merge_result t r
      = add_items fnv_hash t
          ((((List.range (MASK + 1)).map r.idx_map).filter (fun m => !slot_empty m)).map
            (fun m => (m.name, slot_stats r m))) := by
  unfold merge_result add_items
  have h1 : merge_slot r = fun t i =>
      if slot_empty (r.idx_map i) then some t
      else table_add t (fnv_hash (r.idx_map i).name) (r.idx_map i).name
        (slot_stats r (r.idx_map i)) := by
    funext t i
    exact merge_slot_eq r t i
  rw [h1, List.foldlM_map, List.filter_map, List.foldlM_map]
  exact foldlM_skip (fun i => slot_empty (r.idx_map i)) _ _ t

theorem rep_slot_items {h : List Nat → Nat} {t : Table} {m : List (List Nat × Stats)}
    (hrep : Rep h t m) :
    (((List.range (MASK + 1)).map t.result.idx_map).filter (fun m => !slot_empty m)).map
        (fun m => (m.name, slot_stats t.result m))
      = entries t.result := by
  unfold entries
  apply List.map_congr_left
  intro mm hmm
  obtain ⟨hmm1, hmm2⟩ := List.mem_filter.mp hmm
  obtain ⟨i, hi, rfl⟩ := List.mem_map.mp hmm1
  rw [List.mem_range] at hi
  rw [cstr_clean (hrep.clean i (by omega) (by simpa using hmm2))]

theorem amap_add_all_keys_subset {allowed : List (List Nat)} :
    ∀ (items m : List (List Nat × Stats)), m.map Prod.fst ⊆ allowed →
      items.map Prod.fst ⊆ allowed → (amap_add_all m items).map Prod.fst ⊆ allowed
  | [], m, hm, _ => hm
  | it :: items, m, hm, hitems => by
    have h1 : it.1 ∈ allowed := hitems (by simp)
    exact amap_add_all_keys_subset items (amap_add m it.1 it.2)
      (amap_add_keys_subset m it.1 it.2 hm h1)
      (fun x hx => hitems (by simp only [List.map_cons, List.mem_cons]; exact Or.inr hx))

/-- Folding one worker's table into the merged table. -/
theorem merge_result_spec (allowed : List (List Nat)) (hcap : allowed.dedup.length ≤ NUM_STATIONS)
    (t : Table) (M : List (List Nat × Stats)) (tw : Table) (mw : List (List Nat × Stats))
    (hrep : Rep fnv_hash t M) (hsub : M.map Prod.fst ⊆ allowed) (hw : Rep worker_hash tw mw)
    (hwsub : mw.map Prod.fst ⊆ allowed) :
    ∃ t' landed, merge_result t tw.result = some t' ∧ landed.Sublist (entries tw.result) ∧
      Rep fnv_hash t' (amap_add_all M landed) ∧
      (amap_add_all M landed).map Prod.fst ⊆ allowed ∧
      t.lost ≤ t'.lost ∧ (t'.lost = t.lost → landed = entries tw.result) := by
  rw [merge_result_eq, rep_slot_items hw]
  have hitems : ∀ it ∈ entries tw.result, clean it.1 ∧ it.1 ∈ allowed := by
    rintro ⟨n, s⟩ hit
    obtain ⟨i, hi, ho, hn, _⟩ := (entries_mem_iff _ _ _).mp hit
    have hc := hw.clean i hi ho
    rw [cstr_clean hc] at hn
    refine ⟨by rw [← hn]; exact hc, hwsub ?_⟩
    exact List.mem_map_of_mem Prod.fst ((rep_entries hw n s).mp hit)
  obtain ⟨t', landed, h1, h2, h3, h4, h5⟩ := add_items_spec fnv_hash fnv_hash_le allowed hcap
    (entries tw.result) t M hrep hitems hsub
  refine ⟨t', landed, h1, h2, h3, ?_, h4, h5⟩
  apply amap_add_all_keys_subset landed M hsub
  intro x hx
  obtain ⟨it, hit, rfl⟩ := List.mem_map.mp hx
  exact (hitems it (h2.subset hit)).2

theorem workerTable_keys {r : Result} {W : List Nat → List Int} (h : WorkerTable r W)
    (allowed : List (List Nat)) (hW : ∀ n, W n ≠ [] → n ∈ allowed) :
    ∃ t m, t.result = r ∧ Rep worker_hash t m ∧ AggOf m W ∧ m.map Prod.fst ⊆ allowed := by
  obtain ⟨t, m, h1, h2, h3⟩ := h
  refine ⟨t, m, h1, h2, h3, ?_⟩
  intro n hn
  obtain ⟨⟨n', s⟩, hs, rfl⟩ := List.mem_map.mp hn
  exact hW n' (isStats_ne_nil ((h3.2 n' s).mp hs))

/-- Folding a list of worker tables into a merged table: `sum_results` never faults
while the names are at most 10000, and when no probe is lost the merged table holds,
under each name, the statistics of the values of all the workers, in order. -/
theorem merge_all_spec (allowed : List (List Nat)) (hcap : allowed.dedup.length ≤ NUM_STATIONS) :
    ∀ (ws : List (Result × (List Nat → List Int))),
      (∀ p ∈ ws, WorkerTable p.1 p.2 ∧ ∀ n, p.2 n ≠ [] → n ∈ allowed) →
      ∀ (t : Table) (M : List (List Nat × Stats)) (V : List Nat → List Int),
        Rep fnv_hash t M → AggOf M V → M.map Prod.fst ⊆ allowed →
        ∃ t' M', (ws.map Prod.fst).foldlM merge_result t = some t' ∧ Rep fnv_hash t' M' ∧
          t.lost ≤ t'.lost ∧
          (t'.lost = t.lost →
            AggOf M' (fun n => V n ++ (ws.map (fun p => p.2 n)).flatten))
  | [], _, t, M, V, hrep, hagg, _ =>
    ⟨t, M, rfl, hrep, le_refl _, fun _ => agg_congr hagg (fun n => by simp)⟩
  | p :: ws, hws, t, M, V, hrep, hagg, hsub => by
    obtain ⟨hp, hpW⟩ := hws p (List.mem_cons_self _ _)
    obtain ⟨tw, mw, h1, h2, h3, h4⟩ := workerTable_keys hp allowed hpW
    obtain ⟨t1, landed, e1, e2, e3, e4, e5, e6⟩ := merge_result_spec allowed hcap t M tw mw hrep
      hsub h2 h4
    have hent : AggOf (entries tw.result) p.2 := rep_agg_entries h2 h3
    have hnd : (landed.map Prod.fst).Nodup := hent.1.sublist (e2.map _)
    have hagg1 := agg_merge_aux landed M V p.2 hagg hnd
      (fun n s hns => (hent.2 n s).mp (e2.subset hns))
    obtain ⟨t', M', f1, f2, f3, f4⟩ := merge_all_spec allowed hcap ws
      (fun q hq => hws q (List.mem_cons_of_mem _ hq)) t1 _ _ e3 hagg1 e4
    refine ⟨t', M', ?_, f2, by omega, ?_⟩
    · have e1' : merge_result t p.1 = some t1 := by
        rw [← h1]
        exact e1
      simp only [List.map_cons, List.foldlM_cons, e1', Option.bind_eq_bind, Option.some_bind]
      exact f1
    · intro hlost
      have hl1 : t1.lost = t.lost := by omega
      have hl := e6 hl1
      refine agg_congr (f4 (by omega)) ?_
      intro n
      have hif : (if n ∈ landed.map Prod.fst then p.2 n else []) = p.2 n := by
        by_cases hn : n ∈ landed.map Prod.fst
        · rw [if_pos hn]
        · rw [if_neg hn]
          rw [hl] at hn
          exact (agg_not_mem hent n hn).symm
      rw [hif]
      simp only [List.map_cons, List.flatten_cons, List.append_assoc]

theorem sum_results_state_spec (allowed : List (List Nat))
    (hcap : allowed.dedup.length ≤ NUM_STATIONS) (ws : List (Result × (List Nat → List Int)))
    (hws : ∀ p ∈ ws, WorkerTable p.1 p.2 ∧ ∀ n, p.2 n ≠ [] → n ∈ allowed) :
    ∃ t M, sum_results_state (ws.map Prod.fst) = some t ∧ Rep fnv_hash t M ∧
      (t.lost = 0 → AggOf M (fun n => (ws.map (fun p => p.2 n)).flatten)) := by
  obtain ⟨t, M, h1, h2, _, h4⟩ := merge_all_spec allowed hcap ws hws empty_table [] _
    (rep_empty _) agg_nil (by simp)
  refine ⟨t, M, h1, h2, ?_⟩
  intro hl
  exact agg_congr (h4 (by rw [hl]; rfl)) (fun n => by simp)

/-- The table of a worker on a range of well-formed records: it holds the statistics
of the records whose probes landed, which are all the records when the ghost counter
is zero. -/
theorem worker_table_of_range (allowed : List (List Nat))
    (hcap : allowed.dedup.length ≤ NUM_STATIONS) (pre post : List Nat) (rs : List Reading)
    (hwf : ∀ r ∈ rs, r.wf) (hsub : rs.map Reading.name ⊆ allowed) :
    ∃ w landed,
      process_chunk_state (pre ++ encode rs ++ post) pre.length (encode rs).length = some w ∧
      landed.Sublist rs ∧ WorkerTable w.table.result (values landed) ∧
      (w.table.lost = 0 → landed = rs) := by
  obtain ⟨t, landed, h1, h2, h3, h4⟩ := add_readings_spec rs allowed hwf hsub hcap
  have hstate := process_chunk_state_encode pre post rs hwf
  rw [h1, Option.map_some'] at hstate
  refine ⟨_, landed, hstate, h2, ⟨t, _, rfl, h3, ?_⟩, h4⟩
  exact agg_congr (agg_readings landed [] _ agg_nil) (fun n => by simp)

theorem values_sublist_mem {landed rs : List Reading} (h : landed.Sublist rs) (n : List Nat)
    (hn : values landed n ≠ []) : n ∈ rs.map Reading.name := by
  rw [values_ne_nil_iff] at hn
  exact (h.map _).subset hn

theorem mapM_eq_some_map {α β : Type} (f : α → Option β) (g : α → β) :
    ∀ l : List α, (∀ a ∈ l, f a = some (g a)) → l.mapM f = some (l.map g)
  | [], _ => rfl
  | a :: l, h => by
    rw [List.mapM_cons, h a (List.mem_cons_self _ _),
      mapM_eq_some_map f g l (fun b hb => h b (List.mem_cons_of_mem _ hb))]
    rfl

theorem values_flatten (gs : List (List Reading)) (n : List Nat) :
    values gs.flatten n = (gs.map (fun g => values g n)).flatten := by
  induction gs with
  | nil => rfl
  | cons g gs ih => simp [values_append, ih]

theorem agg_entries_iff {m m' : List (List Nat × Stats)} {V V' : List Nat → List Int}
    (h : AggOf m V) (h' : AggOf m' V') (hV : ∀ n, (V n).Perm (V' n)) (n : List Nat) (s : Stats) :
    (n, s) ∈ m ↔ (n, s) ∈ m' := by
  rw [h.2, h'.2]
  exact ⟨isStats_perm (hV n), isStats_perm (hV n).symm⟩

/-- C6 (merge order independence), for worker tables of well-formed ranges and folds
that lose no probe.  The tables of the workers exist, `sum_results` returns a merged
table for either order while the names are at most 10000, and when neither fold loses a probe
off the end of the slot array the two merged tables have the same entries: the same
names, each with the same sum, count, minimum and maximum. -/
theorem merge_order_independence (inputs inputs' : List (List Nat × List Reading × List Nat))
    (hperm : inputs.Perm inputs') (hwf : ∀ i ∈ inputs, ∀ r ∈ i.2.1, r.wf)
    (hcap : ((inputs.flatMap (fun i => i.2.1)).map Reading.name).dedup.length ≤ NUM_STATIONS) :
    ∃ ws ws' T T', inputs.mapM run_worker = some ws ∧ inputs'.mapM run_worker = some ws' ∧
      ws.Perm ws' ∧
      sum_results_state (ws.map (fun w => w.table.result)) = some T ∧
      sum_results_state (ws'.map (fun w => w.table.result)) = some T' ∧
      (T.lost = 0 → T'.lost = 0 →
        ∀ n s, (n, s) ∈ entries T.result ↔ (n, s) ∈ entries T'.result) := by
  classical
  have hall : ∀ i : List Nat × List Reading × List Nat, ∃ (w : Worker) (landed : List Reading),
      i ∈ inputs → run_worker i = some w ∧ landed.Sublist i.2.1 ∧
        WorkerTable w.table.result (values landed) := by
    intro i
    by_cases hi : i ∈ inputs
    · obtain ⟨w, landed, h1, h2, h3, _⟩ := worker_table_of_range _ hcap i.1 i.2.2 i.2.1
        (hwf i hi) (by
          intro n hn
          obtain ⟨r, hr, rfl⟩ := List.mem_map.mp hn
          exact List.mem_map_of_mem _ (List.mem_flatMap.mpr ⟨i, hi, hr⟩))
      exact ⟨w, landed, fun _ => ⟨h1, h2, h3⟩⟩
    · exact ⟨⟨empty_table, 0⟩, [], fun h => absurd h hi⟩
  choose wk ld hwk using hall
  have hmem' : ∀ i, i ∈ inputs' → i ∈ inputs := fun i hi => hperm.mem_iff.mpr hi
  have hpairs : ∀ l : List (List Nat × List Reading × List Nat), (∀ i ∈ l, i ∈ inputs) →
      ∀ p ∈ l.map (fun i => ((wk i).table.result, values (ld i))),
        WorkerTable p.1 p.2 ∧ ∀ n, p.2 n ≠ [] →
          n ∈ (inputs.flatMap (fun i => i.2.1)).map Reading.name := by
    intro l hl p hp
    obtain ⟨i, hi, rfl⟩ := List.mem_map.mp hp
    obtain ⟨_, h2, h3⟩ := hwk i (hl i hi)
    refine ⟨h3, ?_⟩
    intro n hn
    obtain ⟨r, hr, rfl⟩ := List.mem_map.mp (values_sublist_mem h2 n hn)
    exact List.mem_map_of_mem _ (List.mem_flatMap.mpr ⟨i, hl i hi, hr⟩)
  obtain ⟨T, M, e1, e2, e3⟩ := sum_results_state_spec _ hcap _ (hpairs inputs (fun i hi => hi))
  obtain ⟨T', M', f1, f2, f3⟩ := sum_results_state_spec _ hcap _ (hpairs inputs' hmem')
  rw [List.map_map] at e1 f1
  refine ⟨inputs.map wk, inputs'.map wk,  T, T',
    mapM_eq_some_map run_worker wk inputs (fun i hi => (hwk i hi).1),
    mapM_eq_some_map run_worker wk inputs' (fun i hi => (hwk i (hmem' i hi)).1),
    hperm.map wk, by rw [List.map_map]; exact e1, by rw [List.map_map]; exact f1, ?_⟩
  intro hl hl' n s
  rw [rep_entries e2, rep_entries f2]
  refine agg_entries_iff (e3 hl) (f3 hl') ?_ n s
  intro n'
  simp only [List.map_map]
  exact ((hperm.map _).flatten)

theorem forall2_mem_right {α β : Type} {R : α → β → Prop} {l1 : List α} {l2 : List β}
    (h : List.Forall₂ R l1 l2) : ∀ y ∈ l2, ∃ x ∈ l1, R x y := by
  induction h with
  | nil => simp
  | cons hr _ ih =>
    intro y hy
    rcases List.mem_cons.mp hy with rfl | hy
    · exact ⟨_, List.mem_cons_self _ _, hr⟩
    · obtain ⟨x, hx, hxy⟩ := ih y hy
      exact ⟨x, List.mem_cons_of_mem _ hx, hxy⟩

theorem forall2_map_eq {α β : Type} {f : β → α} {l1 : List α} {l2 : List β}
    (h : List.Forall₂ (fun a b => f b = a) l1 l2) : l2.map f = l1 := by
  induction h with
  | nil => rfl
  | cons hr _ ih => rw [List.map_cons, hr, ih]

/-- The workers on the consecutive ranges of the groups `gs` of well-formed records. -/
theorem group_workers (allowed : List (List Nat)) (hcap : allowed.dedup.length ≤ NUM_STATIONS) :
    ∀ (gs : List (List Reading)) (pre post : List Nat), (∀ g ∈ gs, ∀ r ∈ g, r.wf) →
      gs.flatten.map Reading.name ⊆ allowed →
      ∃ wl : List (Worker × List Reading),
        (group_ranges pre.length gs).mapM
            (fun p => process_chunk_state (pre ++ encode gs.flatten ++ post) p.1 p.2)
          = some (wl.map Prod.fst) ∧
        List.Forall₂ (fun g x => x.2.Sublist g ∧ WorkerTable x.1.table.result (values x.2) ∧
          (x.1.table.lost = 0 → x.2 = g)) gs wl
  | [], _, _, _, _ => ⟨[], rfl, List.Forall₂.nil⟩
  | g :: gs, pre, post, hwf, hsub => by
    have hsubg : g.map Reading.name ⊆ allowed := by
      intro n hn
      apply hsub
      simp only [List.flatten_cons, List.map_append, List.mem_append]
      exact Or.inl hn
    have hsubgs : gs.flatten.map Reading.name ⊆ allowed := by
      intro n hn
      apply hsub
      simp only [List.flatten_cons, List.map_append, List.mem_append]
      exact Or.inr hn
    obtain ⟨w, landed, h1, h2, h3, h4⟩ := worker_table_of_range allowed hcap pre
      (encode gs.flatten ++ post) g (hwf g (List.mem_cons_self _ _)) hsubg
    obtain ⟨wl, h5, h6⟩ := group_workers allowed hcap gs (pre ++ encode g) post
      (fun g' hg' => hwf g' (List.mem_cons_of_mem _ hg')) hsubgs
    have hd : pre ++ encode (g :: gs).flatten ++ post
        = pre ++ encode g ++ (encode gs.flatten ++ post) := by
      simp [encode_append]
    have hd' : pre ++ encode g ++ encode gs.flatten ++ post
        = pre ++ encode g ++ (encode gs.flatten ++ post) := by
      simp
    refine ⟨(w, landed) :: wl, ?_, List.Forall₂.cons ⟨h2, h3, h4⟩ h6⟩
    rw [hd]
    rw [hd', List.length_append] at h5
    simp only [group_ranges, List.mapM_cons, h1, h5, List.map_cons]
    rfl

theorem values_landed_eq {gs : List (List Reading)} {wl : List (Worker × List Reading)}
    (h : List.Forall₂ (fun g x => x.2.Sublist g ∧ WorkerTable x.1.table.result (values x.2) ∧
      (x.1.table.lost = 0 → x.2 = g)) gs wl)
    (hlost : ∀ w ∈ wl.map Prod.fst, w.table.lost = 0) : wl.map Prod.snd = gs := by
  induction h with
  | nil => rfl
  | cons hr _ ih =>
    rw [List.map_cons, hr.2.2 (hlost _ (by simp)), ih]
    intro w hw
    exact hlost w (by
      simp only [List.map_cons, List.mem_cons]
      exact Or.inr hw)

/-- Workers on consecutive ranges of well-formed records, merged: `sum_results`
returns a table, and when no probe of a worker or of the merge is lost the merged
table holds, under each name, the statistics of all the records. -/
theorem merged_groups_spec (gs : List (List Reading)) (pre post : List Nat)
    (hwf : ∀ g ∈ gs, ∀ r ∈ g, r.wf)
    (hcap : (gs.flatten.map Reading.name).dedup.length ≤ NUM_STATIONS) :
    ∃ ws T, (group_ranges pre.length gs).mapM
          (fun p => process_chunk_state (pre ++ encode gs.flatten ++ post) p.1 p.2) = some ws ∧
      sum_results_state (ws.map (fun w => w.table.result)) = some T ∧
      ∃ M, Rep fnv_hash T M ∧
        ((∀ w ∈ ws, w.table.lost = 0) → T.lost = 0 → AggOf M (values gs.flatten)) := by
  obtain ⟨wl, h1, h2⟩ := group_workers _ hcap gs pre post hwf (List.Subset.refl _)
  obtain ⟨T, M, e1, e2, e3⟩ := sum_results_state_spec _ hcap
    (wl.map (fun x => (x.1.table.result, values x.2))) (by
      intro p hp
      obtain ⟨x, hx, rfl⟩ := List.mem_map.mp hp
      obtain ⟨g, hg, hs, hw, _⟩ := forall2_mem_right h2 x hx
      refine ⟨hw, ?_⟩
      intro n hn
      obtain ⟨r, hr, rfl⟩ := List.mem_map.mp (values_sublist_mem hs n hn)
      exact List.mem_map_of_mem _ (List.mem_flatten.mpr ⟨g, hg, hr⟩))
  rw [List.map_map] at e1
  refine ⟨wl.map Prod.fst, T, h1, by rw [List.map_map]; exact e1, M, e2, ?_⟩
  intro hlost hT
  have hl := values_landed_eq h2 hlost
  refine agg_congr (e3 hT) ?_
  intro n
  rw [values_flatten, ← hl]
  simp only [List.map_map]
  rfl

/-- C5 (merge associativity).  For a buffer made of the lines of well-formed records
with at most 10000 distinct names, cut into consecutive ranges that each hold whole
records (the groups `gs`): the workers return tables, `sum_results` merges them into
a table, a single `process_chunk` over the whole buffer returns a table, and when no
probe ran off the end of a slot array in any of these tables the merged table and
the single table have the same entries, each name with the same sum, count, minimum
and maximum. -/
theorem merge_associativity (gs : List (List Reading)) (hwf : ∀ g ∈ gs, ∀ r ∈ g, r.wf)
    (hcap : (gs.flatten.map Reading.name).dedup.length ≤ NUM_STATIONS) :
    ∃ ws T w0,
      (group_ranges 0 gs).mapM (fun p => process_chunk_state (encode gs.flatten) p.1 p.2)
        = some ws ∧
      sum_results_state (ws.map (fun w => w.table.result)) = some T ∧
      process_chunk_state (encode gs.flatten) 0 (encode gs.flatten).length = some w0 ∧
      ((∀ w ∈ ws, w.table.lost = 0) → T.lost = 0 → w0.table.lost = 0 →
        ∀ n s, (n, s) ∈ entries T.result ↔ (n, s) ∈ entries w0.table.result) := by
  obtain ⟨ws, T, h1, h2, M, h3, h4⟩ := merged_groups_spec gs [] [] hwf hcap
  obtain ⟨w0, landed, f1, _, ⟨t0, m0, f2, f3, f4⟩, f5⟩ := worker_table_of_range _ hcap [] []
    gs.flatten (fun r hr => by
      obtain ⟨g, hg, hrg⟩ := List.mem_flatten.mp hr
      exact hwf g hg r hrg) (List.Subset.refl _)
  simp only [List.nil_append, List.append_nil, List.length_nil] at h1 f1
  refine ⟨ws, T, w0, h1, h2, f1, ?_⟩
  intro hlost hT hw0 n s
  have hl := f5 hw0
  subst hl
  rw [rep_entries h3, ← f2, rep_entries f3]
  exact agg_entries_iff (h4 hlost hT) f4 (fun _ => List.Perm.refl _) n s

theorem text_no_newline {r : Reading} (hwf : r.wf) : (10 : Nat) ∉ r.text := by
  obtain ⟨_, _, h3, h4, h5, h6⟩ := hwf
  obtain ⟨name, neg, tens, units, tenth⟩ := r
  simp only at h3 h4 h5 h6
  simp only [Reading.text, List.mem_append, List.mem_cons, not_or]
  refine ⟨fun h => (h3 10 h).2.1 rfl, by decide, ?_, ?_, ?_⟩
  · cases neg <;> simp [sign_text]
  · cases tens with
    | none => simp [tens_text]
    | some a =>
      simp only [tens_text, List.mem_singleton]
      omega
  · refine ⟨by omega, by decide, by omega, by simp⟩

theorem text_length_le {r : Reading} (hwf : r.wf) : r.text.length ≤ 105 := by
  obtain ⟨_, h2, _⟩ := hwf
  obtain ⟨name, neg, tens, units, tenth⟩ := r
  simp only at h2
  simp only [Reading.text, List.length_append, List.length_cons, List.length_nil]
  have h1 : (sign_text neg).length ≤ 1 := by cases neg <;> simp [sign_text]
  have h3 : (tens_text tens).length ≤ 1 := by cases tens <;> simp [tens_text]
  omega

theorem read_append_left {pre l : List Nat} {k : Nat} (h : k < pre.length) :
    read (pre ++ l) k = read pre k := by
  unfold read
  simp [List.getD_eq_getElem?_getD, List.getElem?_append_left h]

theorem read_mem {l : List Nat} {k : Nat} (h : k < l.length) : read l k ∈ l := by
  unfold read
  rw [List.getD_eq_getElem?_getD, List.getElem?_eq_getElem h]
  exact List.getElem_mem h

theorem read_encode_cons_text (r : Reading) (rs : List Reading) :
    read (encode (r :: rs)) r.text.length = 10 := by
  rw [encode_cons]
  have := read_append_right r.text (10 :: encode rs) 0
  simpa [read_cons_zero] using this

theorem read_encode_cons_shift (r : Reading) (rs : List Reading) (k : Nat) :
    read (encode (r :: rs)) (r.text.length + 1 + k) = read (encode rs) k := by
  rw [encode_cons, Nat.add_assoc, read_append_right, Nat.add_comm 1 k, read_cons_succ]

theorem encode_cons_length (r : Reading) (rs : List Reading) :
    (encode (r :: rs)).length = r.text.length + 1 + (encode rs).length := by
  rw [encode_cons]
  simp
  omega

/-- In a buffer of well-formed lines every lookahead window holds a newline. -/
theorem window_encode :
    ∀ (rs : List Reading), (∀ r ∈ rs, r.wf) → ∀ p, p < (encode rs).length →
      ∃ q, p ≤ q ∧ q < p + 150 ∧ read (encode rs) q = 10
  | [], _, p, hp => by simp [encode] at hp
  | r :: rs, hwf, p, hp => by
    have hlen := text_length_le (hwf r (List.mem_cons_self _ _))
    by_cases hpr : p ≤ r.text.length
    · exact ⟨r.text.length, hpr, by omega, read_encode_cons_text r rs⟩
    · rw [encode_cons_length] at hp
      obtain ⟨q, h1, h2, h3⟩ := window_encode rs
        (fun r' hr' => hwf r' (List.mem_cons_of_mem _ hr')) (p - (r.text.length + 1)) (by omega)
      refine ⟨r.text.length + 1 + q, by omega, by omega, ?_⟩
      rw [read_encode_cons_shift]
      exact h3

/-- A newline of a buffer of well-formed lines ends a record. -/
theorem newline_split :
    ∀ (rs : List Reading), (∀ r ∈ rs, r.wf) → ∀ q, q < (encode rs).length →
      read (encode rs) q = 10 →
      ∃ g rest, rs = g ++ rest ∧ (encode g).length = q + 1
  | [], _, q, hq, _ => by simp [encode] at hq
  | r :: rs, hwf, q, hq, hnl => by
    rcases Nat.lt_trichotomy q r.text.length with hlt | heq | hgt
    · exfalso
      rw [encode_cons, read_append_left hlt] at hnl
      have := read_mem hlt
      rw [hnl] at this
      exact text_no_newline (hwf r (List.mem_cons_self _ _)) this
    · refine ⟨[r], rs, rfl, ?_⟩
      rw [encode_cons_length, heq]
      simp [encode]
    · rw [encode_cons_length] at hq
      have hq' : q = r.text.length + 1 + (q - (r.text.length + 1)) := by omega
      rw [hq', read_encode_cons_shift] at hnl
      obtain ⟨g, rest, h1, h2⟩ := newline_split rs
        (fun r' hr' => hwf r' (List.mem_cons_of_mem _ hr')) (q - (r.text.length + 1))
        (by omega) hnl
      refine ⟨r :: g, rest, by rw [h1]; rfl, ?_⟩
      rw [encode_cons_length, h2]
      omega

/-- The ranges cut at newlines of a buffer of well-formed lines are the ranges of
consecutive groups of its records. -/
theorem chunks_groups (data : List Nat) (last : Nat) (hlast : last + 1 = data.length)
    (hsize : data.length < SIZE_MOD) :
    ∀ (bs : List Nat) (s : Nat) (pre : List Nat) (rest : List Reading), (∀ r ∈ rest, r.wf) →
      data = pre ++ encode rest → pre.length = s →
      (∀ b ∈ bs, read data b = 10 ∧ s ≤ b + 1 ∧ b < data.length) →
      bs.Pairwise (fun a b => a ≤ b) →
      ∃ gs : List (List Reading), gs.flatten = rest ∧
        (mk_chunks last s bs).map (fun c => (c.start_idx, chunk_len c)) = group_ranges s gs
  | [], s, pre, rest, _, hdata, hpre, _, _ => by
    refine ⟨[rest], by simp, ?_⟩
    have hlen := congrArg List.length hdata
    rw [List.length_append] at hlen
    simp only [mk_chunks, List.map_cons, List.map_nil, group_ranges]
    rw [chunk_len_eq (by omega) (by omega)]
    congr 2
    omega
  | b :: bs, s, pre, rest, hwf, hdata, hpre, hbs, hsorted => by
    obtain ⟨hb1, hb2, hb3⟩ := hbs b (List.mem_cons_self _ _)
    rw [List.pairwise_cons] at hsorted
    have hbs' : ∀ b' ∈ bs, read data b' = 10 ∧ b + 1 ≤ b' + 1 ∧ b' < data.length := by
      intro b' hb'
      obtain ⟨h1, _, h3⟩ := hbs b' (List.mem_cons_of_mem _ hb')
      exact ⟨h1, Nat.succ_le_succ (hsorted.1 b' hb'), h3⟩
    have hlen := congrArg List.length hdata
    rw [List.length_append] at hlen
    rcases Nat.eq_or_lt_of_le hb2 with heq | hlt
    · obtain ⟨gs, h1, h2⟩ := chunks_groups data last hlast hsize bs (b + 1) pre rest hwf hdata
        (by omega) hbs' hsorted.2
      refine ⟨[] :: gs, by simpa using h1, ?_⟩
      simp only [mk_chunks, List.map_cons, group_ranges, h2]
      rw [chunk_len_eq (by omega) (by omega)]
      simp only [encode, List.map_nil, List.flatten_nil, List.length_nil, Nat.add_zero, heq]
      congr 2
      omega
    · have hq : b - s < (encode rest).length := by omega
      have hnl : read (encode rest) (b - s) = 10 := by
        have : b = pre.length + (b - s) := by omega
        rw [this, hdata, read_append_right] at hb1
        exact hb1
      obtain ⟨g, rest', h1, h2⟩ := newline_split rest hwf (b - s) hq hnl
      subst h1
      obtain ⟨gs, h3, h4⟩ := chunks_groups data last hlast hsize bs (b + 1) (pre ++ encode g) rest'
        (fun r hr => hwf r (List.mem_append_right _ hr))
        (by rw [hdata, encode_append, List.append_assoc])
        (by rw [List.length_append, h2]; omega) hbs' hsorted.2
      refine ⟨g :: gs, by rw [List.flatten_cons, h3], ?_⟩
      simp only [mk_chunks, List.map_cons, group_ranges]
      rw [chunk_len_eq (by omega) (by omega), h2]
      have e1 : b + 1 - s = b - s + 1 := by omega
      have e2 : s + (b - s + 1) = b + 1 := by omega
      rw [e1, e2, h4]

theorem print_results_names (im : Nat → MapStruct) (sd : StationTemperatures) :
    (print_results im sd).map Entry.name
      = ((qsort ((List.range (MASK + 1)).map im) compare).filter
          (fun m => !slot_empty m)).map (fun m => cstr m.name) := by
  unfold print_results
  rw [List.map_map]
  rfl

theorem occupied_names_nodup (im : Nat → MapStruct)
    (huniq : ∀ i j, i ≤ MASK → j ≤ MASK → slot_empty (im i) = false →
      slot_empty (im j) = false → cstr (im i).name = cstr (im j).name → i = j) :
    ((((List.range (MASK + 1)).map im).filter (fun m => !slot_empty m)).map
      (fun m => cstr m.name)).Nodup := by
  rw [List.filter_map, List.map_map]
  apply List.Nodup.map_on
  · intro i hi j hj hij
    simp only [List.mem_filter, List.mem_range, Function.comp_apply, Bool.not_eq_true'] at hi hj
    simp only [Function.comp_apply] at hij
    exact huniq i j (by omega) (by omega) hi.2 hj.2 hij
  · exact (List.nodup_range _).filter _

theorem occupied_names_mem (im : Nat → MapStruct) (n : List Nat) :
    n ∈ (((List.range (MASK + 1)).map im).filter (fun m => !slot_empty m)).map
        (fun m => cstr m.name) ↔
      ∃ i, i ≤ MASK ∧ slot_empty (im i) = false ∧ cstr (im i).name = n := by
  constructor
  · intro h
    obtain ⟨mm, hmm, heq⟩ := List.mem_map.mp h
    obtain ⟨hmm1, hmm2⟩ := List.mem_filter.mp hmm
    obtain ⟨i, hi, rfl⟩ := List.mem_map.mp hmm1
    rw [List.mem_range] at hi
    exact ⟨i, by omega, by simpa using hmm2, heq⟩
  · rintro ⟨i, hi, ho, hn⟩
    exact List.mem_map.mpr ⟨im i, List.mem_filter.mpr ⟨List.mem_map.mpr
      ⟨i, List.mem_range.mpr (by omega), rfl⟩, by simpa using ho⟩, hn⟩

theorem countP_eq_one_of_nodup {α : Type} [DecidableEq α] :
    ∀ (l : List α) (a : α), l.Nodup → a ∈ l → l.countP (fun x => decide (x = a)) = 1
  | [], a, _, h => by simp at h
  | b :: l, a, hnd, h => by
    rw [List.nodup_cons] at hnd
    by_cases hb : b = a
    · subst hb
      rw [List.countP_cons_of_pos _ _ (by simp)]
      have : l.countP (fun x => decide (x = b)) = 0 := by
        rw [List.countP_eq_zero]
        intro x hx
        simp only [decide_eq_true_eq]
        rintro rfl
        exact hnd.1 hx
      rw [this]
    · rw [List.countP_cons_of_neg _ _ (by simpa using hb)]
      rcases List.mem_cons.mp h with h | h
      · exact absurd h.symm hb
      · exact countP_eq_one_of_nodup l a hnd.2 h

/-- C10 (sorted report).  For a merged table in which no two occupied slots hold
equal names, the names of the items that `print_results` emits, in order, are
strictly ascending in the byte-wise lexicographic order, every occupied slot's name
is emitted exactly once, and nothing else is emitted. -/
theorem sorted_report (sum_idx_map : Nat → MapStruct) (sum_data : StationTemperatures)
    (huniq : ∀ i j, i ≤ MASK → j ≤ MASK → slot_empty (sum_idx_map i) = false →
      slot_empty (sum_idx_map j) = false →
      cstr (sum_idx_map i).name = cstr (sum_idx_map j).name → i = j) :
    ((print_results sum_idx_map sum_data).map Entry.name).Pairwise
        (List.Lex (fun x y => x < y)) ∧
    (∀ i, i ≤ MASK → slot_empty (sum_idx_map i) = false →
      ((print_results sum_idx_map sum_data).map Entry.name).countP
        (fun n => decide (n = cstr (sum_idx_map i).name)) = 1) ∧
    (∀ n ∈ (print_results sum_idx_map sum_data).map Entry.name,
      ∃ i, i ≤ MASK ∧ slot_empty (sum_idx_map i) = false ∧ cstr (sum_idx_map i).name = n) := by
  have hnd := occupied_names_nodup sum_idx_map huniq
  obtain ⟨h1, h2⟩ := sorted_names_spec ((List.range (MASK + 1)).map sum_idx_map)
    (qsort ((List.range (MASK + 1)).map sum_idx_map) compare) (qsort_perm _ _)
    (qsort_compare_sorted _) hnd
  rw [print_results_names]
  refine ⟨h1, ?_, ?_⟩
  · intro i hi ho
    rw [h2.countP_eq]
    exact countP_eq_one_of_nodup _ _ hnd ((occupied_names_mem _ _).mpr ⟨i, hi, ho, rfl⟩)
  · intro n hn
    exact (occupied_names_mem _ _).mp (h2.mem_iff.mp hn)

theorem print_results_mem (im : Nat → MapStruct) (sd : StationTemperatures) (e : Entry) :
    e ∈ print_results im sd ↔
      ∃ i, i ≤ MASK ∧ slot_empty (im i) = false ∧ e = print_entry sd (im i) := by
  unfold print_results
  simp only [List.mem_map, List.mem_filter]
  constructor
  · rintro ⟨mm, ⟨h1, h2⟩, rfl⟩
    have h3 := (qsort_perm _ _).mem_iff.mp h1
    obtain ⟨i, hi, rfl⟩ := List.mem_map.mp h3
    rw [List.mem_range] at hi
    exact ⟨i, by omega, by simpa using h2, rfl⟩
  · rintro ⟨i, hi, ho, rfl⟩
    refine ⟨im i, ⟨(qsort_perm _ _).mem_iff.mpr (List.mem_map.mpr
      ⟨i, List.mem_range.mpr (by omega), rfl⟩), by simpa using ho⟩, rfl⟩

theorem round_java_int (k : Int) : round_java (k : ℚ) = (k : ℚ) / 10 := by
  obtain ⟨h1, h2⟩ := round_java_eq (k : ℚ)
  have h3 : ⌊(k : ℚ) + 1 / 2⌋ = k := by
    rw [Int.floor_eq_iff]
    constructor <;> linarith
  rw [h1, h2, h3]

theorem mapM_map_comp {α β γ : Type} (g : α → β) (f : β → Option γ) :
    ∀ l : List α, l.mapM (fun a => f (g a)) = (l.map g).mapM f
  | [] => rfl
  | a :: l => by
    rw [List.map_cons, List.mapM_cons, List.mapM_cons, mapM_map_comp g f l]

theorem encode_ne_nil {rs : List Reading} (hne : rs ≠ []) : 1 ≤ (encode rs).length := by
  have := length_le_encode rs
  have : 0 < rs.length := List.length_pos.mpr hne
  omega

/-- The workers of `main` on a buffer of well-formed lines run on the ranges of
consecutive groups of its records. -/
theorem main_workers_groups (rs : List Reading) (hne : rs ≠ []) (hwf : ∀ r ∈ rs, r.wf)
    (hsize : (encode rs).length < SIZE_MOD) (N : Nat) (hN : 1 ≤ N) :
    ∃ gs : List (List Reading), gs.flatten = rs ∧ gs.length = N ∧
      main_workers N (encode rs)
        = (group_ranges 0 gs).mapM (fun p => process_chunk_state (encode rs) p.1 p.2) := by
  have hS := encode_ne_nil hne
  obtain ⟨bs, hlen, heq, hnl, hsorted⟩ := planner_found (encode rs) N hN hS (window_encode rs hwf)
  rw [last_idx_eq hS hsize] at heq
  obtain ⟨gs, h1, h2⟩ := chunks_groups (encode rs) ((encode rs).length - 1) (by omega) hsize bs 0
    [] rs hwf rfl rfl (fun b hb => ⟨(hnl b hb).1, Nat.zero_le _, (hnl b hb).2⟩) hsorted
  refine ⟨gs, h1, ?_, ?_⟩
  · have h3 := congrArg List.length h2
    have hgl : ∀ (gs : List (List Reading)) (p : Nat), (group_ranges p gs).length = gs.length := by
      intro gs
      induction gs with
      | nil => intro p; rfl
      | cons g gs ih => intro p; simp [group_ranges, ih]
    rw [List.length_map, mk_chunks_length, hgl] at h3
    omega
  · unfold main_workers
    simp only
    rw [if_neg (by omega), heq, ← h2]
    exact mapM_map_comp (fun c : Chunk => (c.start_idx, chunk_len c))
      (fun p => process_chunk_state (encode rs) p.1 p.2) _

/-- The pipeline of `main` up to the merged table, on a non-empty buffer of
well-formed lines with at most 10000 distinct names. -/
theorem pipeline_spec (rs : List Reading) (hne : rs ≠ []) (hwf : ∀ r ∈ rs, r.wf)
    (hcap : (rs.map Reading.name).dedup.length ≤ NUM_STATIONS)
    (hsize : (encode rs).length < SIZE_MOD) (N : Nat) (hN : 1 ≤ N) :
    ∃ ws T M, main_workers N (encode rs) = some ws ∧
      sum_results_state (ws.map (fun w => w.table.result)) = some T ∧
      main_table N (encode rs) = some T ∧ Rep fnv_hash T M ∧
      ((∀ w ∈ ws, w.table.lost = 0) → T.lost = 0 → AggOf M (values rs)) := by
  obtain ⟨gs, h1, _, h2⟩ := main_workers_groups rs hne hwf hsize N hN
  subst h1
  obtain ⟨ws, T, e1, e2, M, e3, e4⟩ := merged_groups_spec gs [] []
    (fun g hg r hr => hwf r (List.mem_flatten.mpr ⟨g, hg, hr⟩)) hcap
  simp only [List.nil_append, List.append_nil, List.length_nil] at e1
  rw [← h2] at e1
  refine ⟨ws, T, M, e1, e2, ?_, e3, e4⟩
  unfold main_table
  rw [e1]
  exact e2

theorem sum_indicator {α : Type} [DecidableEq α] :
    ∀ (K : List α) (a : α), K.Nodup → a ∈ K →
      (K.map (fun n => if a = n then 1 else 0)).sum = 1
  | [], a, _, h => by simp at h
  | b :: K, a, hnd, h => by
    rw [List.nodup_cons] at hnd
    rw [List.map_cons, List.sum_cons]
    by_cases hb : a = b
    · subst hb
      rw [if_pos rfl]
      have : (K.map (fun n => if a = n then 1 else 0)).sum = 0 := by
        apply List.sum_eq_zero
        intro x hx
        obtain ⟨n, hn, rfl⟩ := List.mem_map.mp hx
        rw [if_neg]
        rintro rfl
        exact hnd.1 hn
      rw [this]
    · rw [if_neg hb, Nat.zero_add]
      rcases List.mem_cons.mp h with h | h
      · exact absurd h hb
      · exact sum_indicator K a hnd.2 h

theorem sum_values_length (K : List (List Nat)) (hK : K.Nodup) :
    ∀ rs : List Reading, (∀ r ∈ rs, r.name ∈ K) →
      (K.map (fun n => (values rs n).length)).sum = rs.length
  | [], _ => by
    apply List.sum_eq_zero
    intro x hx
    obtain ⟨n, _, rfl⟩ := List.mem_map.mp hx
    rfl
  | r :: rs, h => by
    have ih := sum_values_length K hK rs (fun r' hr' => h r' (List.mem_cons_of_mem _ hr'))
    have hind := sum_indicator K r.name hK (h r (List.mem_cons_self _ _))
    have hfun : (fun n => (values (r :: rs) n).length)
        = fun n => (if r.name = n then 1 else 0) + (values rs n).length := by
      funext n
      rw [values_cons]
      by_cases hn : r.name = n
      · simp [hn]
        omega
      · simp [hn]
    rw [hfun, List.sum_map_add, hind, ih, List.length_cons]
    omega

/-! ### Conversions to `double` -/

theorem round_even_int (k : Int) : round_even (k : ℚ) = k := by
  unfold round_even
  rw [Int.floor_intCast]
  simp

theorem round_even_err (x : ℚ) : |(round_even x : ℚ) - x| ≤ 1 / 2 := by
  have h1 := Int.floor_le x
  have h2 := Int.lt_floor_add_one x
  unfold round_even
  rw [abs_le]
  split_ifs with ha hb hc
  · constructor <;> linarith
  · push_cast
    constructor <;> linarith
  · constructor <;> linarith
  · push_cast
    constructor <;> linarith

/-- The bounds of the binade of a non-zero rational. -/
theorem binade_bounds (x : ℚ) (hx : x ≠ 0) :
    (2 : ℚ) ^ Int.log 2 |x| ≤ |x| ∧ |x| < (2 : ℚ) ^ (Int.log 2 |x| + 1) := by
  have hpos : 0 < |x| := abs_pos.mpr hx
  have h1 : (((2 : Nat) : ℚ)) ^ Int.log 2 |x| ≤ |x| := Int.zpow_log_le_self (by norm_num) hpos
  have h2 : |x| < (((2 : Nat) : ℚ)) ^ (Int.log 2 |x| + 1) :=
    Int.lt_zpow_succ_log_self (by norm_num) |x|
  exact ⟨by exact_mod_cast h1, by exact_mod_cast h2⟩

/-- The relative error of a conversion to `double` is at most `2 ^ -53`. -/
theorem to_double_err (x : ℚ) : |to_double x - x| ≤ |x| * (2 : ℚ) ^ (-53 : Int) := by
  by_cases hx : x = 0
  · subst hx
    simp [to_double]
  · obtain ⟨hlo, _⟩ := binade_bounds x hx
    unfold to_double
    rw [if_neg hx]
    generalize Int.log 2 |x| = e at hlo ⊢
    have hp : (0 : ℚ) < 2 ^ (e - 52) := zpow_pos (by norm_num) _
    have hmul : (2 : ℚ) ^ (52 - e) * 2 ^ (e - 52) = 1 := by
      rw [← zpow_add₀ (by norm_num : (2 : ℚ) ≠ 0)]
      simp
    have herr := round_even_err (x * 2 ^ (52 - e))
    have heq : (round_even (x * 2 ^ (52 - e)) : ℚ) * 2 ^ (e - 52) - x
        = ((round_even (x * 2 ^ (52 - e)) : ℚ) - x * 2 ^ (52 - e)) * 2 ^ (e - 52) := by
      rw [sub_mul, mul_assoc, hmul, mul_one]
    rw [heq, abs_mul, abs_of_pos hp]
    have h53 : (2 : ℚ) ^ (e - 52) * (1 / 2) = 2 ^ e * 2 ^ (-53 : Int) := by
      rw [← zpow_add₀ (by norm_num : (2 : ℚ) ≠ 0)]
      have : e + -53 = (e - 52) + (-1) := by ring
      rw [this, zpow_add₀ (by norm_num : (2 : ℚ) ≠ 0)]
      norm_num
    calc |(round_even (x * 2 ^ (52 - e)) : ℚ) - x * 2 ^ (52 - e)| * 2 ^ (e - 52)
        ≤ 1 / 2 * 2 ^ (e - 52) := mul_le_mul_of_nonneg_right herr hp.le
      _ = 2 ^ e * 2 ^ (-53 : Int) := by rw [mul_comm, h53]
      _ ≤ |x| * 2 ^ (-53 : Int) :=
        mul_le_mul_of_nonneg_right hlo (zpow_pos (by norm_num) _).le

/-- A rational `m / 2 ^ j` of magnitude below `2 ^ (53 - j)` is a `double`. -/
theorem to_double_exact (m : Int) (j : Nat) (hj : j ≤ 53)
    (hlt : |(m : ℚ) / 2 ^ j| < 2 ^ (53 - j)) : to_double ((m : ℚ) / 2 ^ j) = (m : ℚ) / 2 ^ j := by
  by_cases hx : (m : ℚ) / 2 ^ j = 0
  · rw [hx]
    simp [to_double]
  · obtain ⟨hlo, _⟩ := binade_bounds _ hx
    unfold to_double
    rw [if_neg hx]
    generalize hx' : (m : ℚ) / 2 ^ j = x at *
    generalize Int.log 2 |x| = e at hlo ⊢
    have he : e < 53 - (j : Int) := by
      have h1 : (2 : ℚ) ^ e < 2 ^ (53 - j) := lt_of_le_of_lt hlo hlt
      have h2 : (2 : ℚ) ^ (53 - j) = 2 ^ ((53 : Int) - (j : Int)) := by
        rw [← zpow_natCast]
        congr 1
        omega
      rw [h2] at h1
      exact (zpow_lt_zpow_iff_right₀ (by norm_num : (1 : ℚ) < 2)).mp h1
    obtain ⟨d, hd⟩ : ∃ d : Nat, (52 : Int) - e = (j : Int) + d := ⟨(52 - e - j).toNat, by omega⟩
    have hint : x * 2 ^ (52 - e) = ((m * 2 ^ d : Int) : ℚ) := by
      rw [hd, zpow_add₀ (by norm_num : (2 : ℚ) ≠ 0), ← hx']
      push_cast
      rw [zpow_natCast, zpow_natCast]
      field_simp
      ring
    rw [hint, round_even_int, ← hint, mul_assoc, ← zpow_add₀ (by norm_num : (2 : ℚ) ≠ 0)]
    simp

theorem to_double_int (k : Int) (hk : |(k : ℚ)| < 2 ^ 53) : to_double (k : ℚ) = k := by
  have h := to_double_exact k 0 (by omega) (by simpa using hk)
  simpa using h

/-- The mean that `print_results` computes in `double` arithmetic rounds as the exact
quotient when the sum is below `2 ^ 52` in magnitude and the count below `2 ^ 53`. -/
theorem double_mean_round (s : Int) (c : Nat) (hc : 0 < c) (hc2 : (c : ℚ) < 2 ^ 53)
    (hs : |(s : ℚ)| < 2 ^ 52) :
    round_java (to_double (to_double (s : ℚ) / to_double (c : ℚ)))
      = round_java ((s : ℚ) / (c : ℚ)) := by
  have hcq : (0 : ℚ) < c := by exact_mod_cast hc
  have hc1 : (1 : ℚ) ≤ c := by exact_mod_cast hc
  have hsd : to_double (s : ℚ) = s := to_double_int s (by linarith [hs])
  have hcd : to_double (c : ℚ) = c := by
    have h := to_double_int (c : Int) (by
      rw [abs_of_nonneg (by positivity)]
      exact_mod_cast hc2)
    exact_mod_cast h
  rw [hsd, hcd]
  obtain ⟨h1, h2⟩ := round_java_eq ((s : ℚ) / (c : ℚ))
  obtain ⟨h3, h4⟩ := round_java_eq (to_double ((s : ℚ) / (c : ℚ)))
  rw [h1, h2, h3, h4]
  congr 2
  set x : ℚ := (s : ℚ) / (c : ℚ) with hx
  set y : ℚ := to_double x with hy
  set n : Int := ⌊x + 1 / 2⌋ with hn
  have hn1 : (n : ℚ) ≤ x + 1 / 2 := Int.floor_le _
  have hn2 : x + 1 / 2 < n + 1 := Int.lt_floor_add_one _
  have hxc : x * c = s := by
    rw [hx]
    field_simp
  -- the error of the quotient is below `1 / (2 c)`
  have habs : |x| ≤ |(s : ℚ)| := by
    rw [hx, abs_div, abs_of_pos hcq]
    exact div_le_self (abs_nonneg _) hc1
  have hxabs : |x| * c = |(s : ℚ)| := by
    rw [hx, abs_div, abs_of_pos hcq]
    field_simp
  have herr : |y - x| * (2 * c) < 1 := by
    have h := to_double_err x
    have h53 : (2 : ℚ) ^ (-53 : Int) = 1 / 2 ^ 53 := by
      rw [zpow_neg]
      norm_num
    rw [h53] at h
    have h5 : |y - x| * (2 * c) ≤ |x| * (1 / 2 ^ 53) * (2 * c) :=
      mul_le_mul_of_nonneg_right h (by positivity)
    have h6 : |x| * (1 / 2 ^ 53) * (2 * c) = |(s : ℚ)| * (2 / 2 ^ 53) := by
      rw [← hxabs]
      ring
    rw [h6] at h5
    have h7 : |(s : ℚ)| * (2 / 2 ^ 53) < 1 := by
      have : |(s : ℚ)| * (2 / 2 ^ 53) < 2 ^ 52 * (2 / 2 ^ 53) :=
        mul_lt_mul_of_pos_right hs (by norm_num)
      have h8 : (2 : ℚ) ^ 52 * (2 / 2 ^ 53) = 1 := by norm_num
      linarith
    linarith
  have hyx := abs_le.mp (le_refl |y - x|)
  rw [Int.floor_eq_iff]
  constructor
  · -- lower bound
    have hK : (0 : Int) ≤ 2 * s - (2 * n - 1) * c := by
      have : (0 : ℚ) ≤ 2 * (s : ℚ) - (2 * n - 1) * c := by
        rw [← hxc]
        nlinarith
      exact_mod_cast this
    rcases eq_or_lt_of_le hK with h0 | hpos
    · -- `x` is the half-integer `n - 1/2`, a `double`
      have hxe : x = ((2 * n - 1 : Int) : ℚ) / 2 ^ 1 := by
        have : (2 * (s : ℚ) - (2 * n - 1) * c) = 0 := by exact_mod_cast h0.symm
        rw [hx]
        field_simp
        linarith
      have hexact : y = x := by
        rw [hy, hxe]
        apply to_double_exact _ 1 (by omega)
        rw [← hxe]
        have : (2 : ℚ) ^ (53 - 1) = 2 ^ 52 := by norm_num
        rw [this]
        exact lt_of_le_of_lt habs hs
      rw [hexact, hxe]
      push_cast
      linarith
    · have hK1 : (1 : ℚ) ≤ 2 * (s : ℚ) - (2 * n - 1) * c := by exact_mod_cast hpos
      rw [← hxc] at hK1
      have h9 : -(|y - x| * (2 * c)) ≤ (y - x) * (2 * c) := by
        have := neg_abs_le (y - x)
        nlinarith
      have h10 : (n : ℚ) * c ≤ (y + 1 / 2) * c := by linarith
      exact le_of_mul_le_mul_right h10 hcq
  · -- upper bound
    have hK : (1 : Int) ≤ (2 * n + 1) * c - 2 * s := by
      have : (0 : ℚ) < (2 * n + 1) * c - 2 * (s : ℚ) := by
        rw [← hxc]
        nlinarith
      have h' : (0 : Int) < (2 * n + 1) * c - 2 * s := by exact_mod_cast this
      omega
    have hK1 : (1 : ℚ) ≤ (2 * n + 1) * c - 2 * (s : ℚ) := by exact_mod_cast hK
    rw [← hxc] at hK1
    have h9 : (y - x) * (2 * c) ≤ |y - x| * (2 * c) := by
      have := le_abs_self (y - x)
      nlinarith
    have h10 : (y + 1 / 2) * c < ((n : ℚ) + 1) * c := by linarith
    exact lt_of_mul_lt_mul_right h10 hcq.le

theorem value_abs_le {r : Reading} (hwf : r.wf) : |r.value| ≤ 999 := by
  obtain ⟨_, _, _, h4, h5, h6⟩ := hwf
  unfold Reading.value sign_factor
  rw [abs_le]
  split <;> constructor <;> omega

theorem sum_abs_le : ∀ vs : List Int, (∀ v ∈ vs, |v| ≤ 999) → |vs.sum| ≤ 999 * vs.length
  | [], _ => by simp
  | v :: vs, h => by
    have h1 := h v (List.mem_cons_self _ _)
    have h2 := sum_abs_le vs (fun w hw => h w (List.mem_cons_of_mem _ hw))
    rw [List.sum_cons, List.length_cons]
    have h3 := abs_add v vs.sum
    push_cast
    linarith

theorem values_abs_le {rs : List Reading} (hwf : ∀ r ∈ rs, r.wf) (n : List Nat) :
    ∀ v ∈ values rs n, |v| ≤ 999 := by
  intro v hv
  obtain ⟨r, hr, rfl⟩ := List.mem_map.mp hv
  exact value_abs_le (hwf r (List.mem_filter.mp hr).1)

theorem rep_huniq {h : List Nat → Nat} {t : Table} {m : List (List Nat × Stats)}
    (hrep : Rep h t m) :
    ∀ i j, i ≤ MASK → j ≤ MASK → slot_empty (t.result.idx_map i) = false →
      slot_empty (t.result.idx_map j) = false →
      cstr (t.result.idx_map i).name = cstr (t.result.idx_map j).name → i = j := by
  intro i j hi hj oi oj heq
  rw [cstr_clean (hrep.clean i hi oi), cstr_clean (hrep.clean j hj oj)] at heq
  exact rep_names_unique hrep i j hi hj oi oj heq

theorem agg_mem_keys_iff {m : List (List Nat × Stats)} {rs : List Reading}
    (hagg : AggOf m (values rs)) (n : List Nat) :
    (∃ s, (n, s) ∈ m) ↔ n ∈ rs.map Reading.name := by
  rw [← values_ne_nil_iff]
  constructor
  · rintro ⟨s, hs⟩
    exact isStats_ne_nil ((hagg.2 n s).mp hs)
  · intro hn
    obtain ⟨s, hs⟩ := exists_stats _ hn
    exact ⟨s, (hagg.2 n s).mpr hs⟩

/-- The report for a merged table that holds the statistics of the records `rs`. -/
theorem report_spec (T : Table) (M : List (List Nat × Stats)) (rs : List Reading)
    (hwf : ∀ r ∈ rs, r.wf) (hrep : Rep fnv_hash T M) (hagg : AggOf M (values rs)) :
    ((print_results T.result.idx_map T.result.temp).map Entry.name).Pairwise
      (List.Lex (fun x y => x < y)) ∧
    ((print_results T.result.idx_map T.result.temp).map Entry.name).Nodup ∧
    (∀ n, n ∈ (print_results T.result.idx_map T.result.temp).map Entry.name ↔
      n ∈ rs.map Reading.name) ∧
    ∀ e ∈ print_results T.result.idx_map T.result.temp,
      ∃ s, IsStatsOf (values rs e.name) s ∧ e.min = (s.min : ℚ) / 10 ∧
        e.mean = round_java (to_double (to_double (s.sum : ℚ) / to_double (s.count : ℚ))) ∧
        e.max = (s.max : ℚ) / 10 ∧
        (s.count < 2 ^ 42 → e.mean = round_java ((s.sum : ℚ) / (s.count : ℚ))) := by
  have huniq := rep_huniq hrep
  have hnd := occupied_names_nodup T.result.idx_map huniq
  obtain ⟨hsorted, hperm⟩ := sorted_names_spec ((List.range (MASK + 1)).map T.result.idx_map)
    (qsort ((List.range (MASK + 1)).map T.result.idx_map) compare) (qsort_perm _ _)
    (qsort_compare_sorted _) hnd
  rw [← print_results_names _ T.result.temp] at hperm hsorted
  refine ⟨hsorted, hperm.nodup_iff.mpr hnd, ?_, ?_⟩
  · intro n
    rw [hperm.mem_iff, occupied_names_mem, ← agg_mem_keys_iff hagg]
    constructor
    · rintro ⟨i, hi, ho, hn⟩
      refine ⟨_, (hrep.mem_iff n _).mpr ⟨i, hi, ho, ?_, rfl⟩⟩
      rwa [cstr_clean (hrep.clean i hi ho)] at hn
    · rintro ⟨s, hs⟩
      obtain ⟨i, hi, ho, hn, _⟩ := (hrep.mem_iff n s).mp hs
      exact ⟨i, hi, ho, by rwa [cstr_clean (hrep.clean i hi ho)]⟩
  · intro e he
    obtain ⟨i, hi, ho, rfl⟩ := (print_results_mem _ _ _).mp he
    have hstats : IsStatsOf (values rs (print_entry T.result.temp (T.result.idx_map i)).name)
        (slot_stats T.result (T.result.idx_map i)) := by
      have hm := (hrep.mem_iff _ _).mpr ⟨i, hi, ho, rfl, rfl⟩
      have := (hagg.2 _ _).mp hm
      simpa [print_entry, cstr_clean (hrep.clean i hi ho)] using this
    have hval := values_abs_le hwf (print_entry T.result.temp (T.result.idx_map i)).name
    have hsmall : ∀ v : Int, |v| ≤ 999 → to_double (v : ℚ) = v := by
      intro v hv
      apply to_double_int
      have : |(v : ℚ)| ≤ 999 := by exact_mod_cast hv
      have h2 : (999 : ℚ) < 2 ^ 53 := by norm_num
      linarith
    refine ⟨slot_stats T.result (T.result.idx_map i), hstats, ?_, rfl, ?_, ?_⟩
    · have h := hsmall _ (hval _ hstats.2.2.1.1)
      simp only [print_entry]
      simp only [slot_stats] at h
      rw [h]
      exact round_java_int _
    · have h := hsmall _ (hval _ hstats.2.2.2.1)
      simp only [print_entry]
      simp only [slot_stats] at h
      rw [h]
      exact round_java_int _
    · intro hcount
      have hpos : 0 < (slot_stats T.result (T.result.idx_map i)).count := by
        rw [hstats.2.1]
        exact List.length_pos.mpr (isStats_ne_nil hstats)
      have hsum := sum_abs_le _ hval
      rw [← hstats.1, ← hstats.2.1] at hsum
      have hc2 : ((slot_stats T.result (T.result.idx_map i)).count : ℚ) < 2 ^ 53 := by
        have h1 : ((slot_stats T.result (T.result.idx_map i)).count : ℚ) < 2 ^ 42 := by
          exact_mod_cast hcount
        have h2 : (2 : ℚ) ^ 42 < 2 ^ 53 := by norm_num
        linarith
      have hs2 : |((slot_stats T.result (T.result.idx_map i)).sum : ℚ)| < 2 ^ 52 := by
        have h1 : |((slot_stats T.result (T.result.idx_map i)).sum : ℚ)|
            ≤ 999 * ((slot_stats T.result (T.result.idx_map i)).count : ℚ) := by
          exact_mod_cast hsum
        have h2 : ((slot_stats T.result (T.result.idx_map i)).count : ℚ) < 2 ^ 42 := by
          exact_mod_cast hcount
        have h3 : (999 : ℚ) * 2 ^ 42 < 2 ^ 52 := by norm_num
        linarith
      exact double_mean_round _ _ hpos hc2 hs2

/-- C1 (end-to-end report), for non-empty buffers.  For a non-empty buffer, of a
size that fits a `size_t`, made of the lines of well-formed records with at most
10000 distinct names: the 10 workers of `main` return tables, `sum_results` merges
them, `print_results` emits a report, and when no probe ran off the end of the slot
array in a worker table or in the merged table, the report has exactly one item for
each distinct name of the input, in strictly ascending order of the names, and the
three numbers of an item are `min / 10`, `round_java (sum / count)` and `max / 10`
for the minimum, the total, the number and the maximum of the readings of its name,
in tenths.  The quotient `sum / count` is the one `print_results` computes, of the
two numbers converted to `double` and rounded to a `double`; for a name with fewer
than `2 ^ 42` readings it rounds as the exact quotient does. -/
theorem end_to_end_report (rs : List Reading) (hne : rs ≠ []) (hwf : ∀ r ∈ rs, r.wf)
    (hcap : (rs.map Reading.name).dedup.length ≤ NUM_STATIONS)
    (hsize : (encode rs).length < SIZE_MOD) :
    ∃ ws T report, main_workers 10 (encode rs) = some ws ∧
      sum_results_state (ws.map (fun w => w.table.result)) = some T ∧
      main_report (encode rs) = some report ∧
      ((∀ w ∈ ws, w.table.lost = 0) → T.lost = 0 →
        (report.map Entry.name).Pairwise (List.Lex (fun x y => x < y)) ∧
        (report.map Entry.name).Nodup ∧
        (∀ n, n ∈ report.map Entry.name ↔ n ∈ rs.map Reading.name) ∧
        ∀ e ∈ report, ∃ s, IsStatsOf (values rs e.name) s ∧ e.min = (s.min : ℚ) / 10 ∧
          e.mean = round_java (to_double (to_double (s.sum : ℚ) / to_double (s.count : ℚ))) ∧
          e.max = (s.max : ℚ) / 10 ∧
          (s.count < 2 ^ 42 → e.mean = round_java ((s.sum : ℚ) / (s.count : ℚ)))) := by
  obtain ⟨ws, T, M, h1, h2, h3, h4, h5⟩ := pipeline_spec rs hne hwf hcap hsize 10 (by decide)
  refine ⟨ws, T, print_results T.result.idx_map T.result.temp, h1, h2, ?_, ?_⟩
  · unfold main_report
    rw [h3]
    rfl
  · intro hl hT
    exact report_spec T M rs hwf h4 (h5 hl hT)

/-- The counts of a table that holds the statistics of the records `rs` add up to the
number of records. -/
theorem count_of_entries (r : Result) (rs : List Reading)
    (hagg : AggOf (entries r) (values rs)) :
    ((entries r).map (fun p => p.2.count)).sum = rs.length := by
  have hcount : (entries r).map (fun p => p.2.count)
      = ((entries r).map Prod.fst).map (fun n => (values rs n).length) := by
    rw [List.map_map]
    apply List.map_congr_left
    rintro ⟨n, s⟩ hns
    exact ((hagg.2 n s).mp hns).2.1
  rw [hcount]
  apply sum_values_length _ hagg.1
  intro r hr
  obtain ⟨s, hs⟩ := (agg_mem_keys_iff hagg r.name).mpr (List.mem_map_of_mem _ hr)
  exact List.mem_map_of_mem Prod.fst hs

/-- A probe on a table with fewer entries than there are slots from its start to the
end of the slot array finds an empty or matching slot. -/
theorem probe_lands (h : List Nat → Nat) (t : Table) (m : List (List Nat × Stats))
    (n : List Nat) (hrep : Rep h t m) (start : Nat) (hroom : m.length + start ≤ MASK) :
    probe t.result.idx_map n (MASK + 1 - start) start ≠ none := by
  intro hp
  have hocc := probe_none _ _ _ _ hp
  have hcard : (Finset.Icc start MASK).card ≤ (Finset.range t.station_idx).card :=
    Finset.card_le_card_of_injOn (fun l => (t.result.idx_map l).idx)
    (by
      intro l hl
      rw [Finset.mem_Icc] at hl
      rw [Finset.mem_range]
      exact hrep.idx_lt l hl.2 (hocc l hl.1 (by omega)).1)
    (by
      intro a ha b hb hab
      rw [Finset.mem_coe, Finset.mem_Icc] at ha hb
      exact hrep.idx_inj a b ha.2 hb.2 (hocc a ha.1 (by omega)).1 (hocc b hb.1 (by omega)).1 hab)
  rw [Nat.card_Icc, Finset.card_range, ← hrep.length] at hcard
  omega

theorem table_add_lands (h : List Nat → Nat) (t t' : Table) (m : List (List Nat × Stats))
    (n : List Nat) (s : Stats) (hrep : Rep h t m) (hroom : m.length + h n ≤ MASK)
    (hadd : table_add t (h n) n s = some t') : t'.lost = t.lost := by
  have hp := probe_lands h t m n hrep (h n) hroom
  unfold table_add at hadd
  cases hpr : probe t.result.idx_map n (MASK + 1 - h n) (h n) with
  | none => exact absurd hpr hp
  | some j =>
    rw [hpr] at hadd
    simp only at hadd
    split at hadd
    · split at hadd
      · cases hadd
      · cases hadd
        rfl
    · cases hadd
      rfl

/-- A sequence of probes whose start slots leave room for all the names loses none. -/
theorem add_items_no_loss (h : List Nat → Nat) (hh : ∀ n, h n ≤ MASK)
    (allowed : List (List Nat)) (hcap : allowed.dedup.length ≤ NUM_STATIONS) :
    ∀ (items : List (List Nat × Stats)) (t t' : Table) (m : List (List Nat × Stats)),
      Rep h t m → (∀ it ∈ items, clean it.1 ∧ it.1 ∈ allowed) → m.map Prod.fst ⊆ allowed →
      (∀ it ∈ items, allowed.dedup.length + h it.1 ≤ MASK) →
      add_items h t items = some t' → t'.lost = t.lost
  | [], t, t', m, _, _, _, _, hadd => by
    cases hadd
    rfl
  | it :: items, t, t', m, hrep, hitems, hsub, hroom, hadd => by
    obtain ⟨hcl, hal⟩ := hitems it (List.mem_cons_self _ _)
    have hlen : m.length ≤ allowed.dedup.length := by
      have h1 : m.map Prod.fst ⊆ allowed.dedup := fun x hx => List.mem_dedup.mpr (hsub hx)
      have := (List.subperm_of_subset hrep.nodup h1).length_le
      simpa using this
    have hr := hroom it (List.mem_cons_self _ _)
    have hcapm : it.1 ∈ m.map Prod.fst ∨ m.length < NUM_STATIONS := by
      by_cases hmem : it.1 ∈ m.map Prod.fst
      · exact Or.inl hmem
      · right
        have := subset_capacity hcap hrep.nodup hsub hal hmem
        simpa using this
    obtain ⟨t1, h1, hcase⟩ := table_add_spec h t m it.1 it.2 hrep hcl (hh _) hcapm
    have hl1 := table_add_lands h t t1 m it.1 it.2 hrep (by omega) h1
    have hstep : add_items h t (it :: items) = add_items h t1 items := by
      unfold add_items
      rw [List.foldlM_cons, h1]
      rfl
    rw [hstep] at hadd
    rcases hcase with ⟨hl, _⟩ | ⟨_, hrep1⟩
    · omega
    · rw [add_items_no_loss h hh allowed hcap items t1 t' _ hrep1
        (fun it' hit' => hitems it' (List.mem_cons_of_mem _ hit'))
        (amap_add_keys_subset m it.1 it.2 hsub hal)
        (fun it' hit' => hroom it' (List.mem_cons_of_mem _ hit')) hadd, hl1]

/-- The entries of a table are, up to their order, the association list it stands for. -/
theorem rep_entries_perm {h : List Nat → Nat} {t : Table} {m : List (List Nat × Stats)}
    (hrep : Rep h t m) : (entries t.result).Perm m := by
  apply (List.perm_ext_iff_of_nodup (List.Nodup.of_map _ (rep_entries_nodup hrep))
    (List.Nodup.of_map _ hrep.nodup)).mpr
  rintro ⟨n, s⟩
  exact rep_entries hrep n s

/-- A probe that starts on the last slot, when that slot holds another name, runs off
the end of the slot array: the ghost counter grows and the table is unchanged. -/
theorem table_add_lost (h : List Nat → Nat) (t : Table) (m : List (List Nat × Stats))
    (n n0 : List Nat) (s s0 : Stats) (hrep : Rep h t m) (hn : clean n) (hmem : (n0, s0) ∈ m)
    (hh0 : h n0 = MASK) (hne : n0 ≠ n) :
    table_add t MASK n s = some { t with lost := t.lost + 1 } := by
  obtain ⟨i, hi, ho, hnm, _⟩ := (hrep.mem_iff n0 s0).mp hmem
  have hc := (hrep.chain i hi ho).1
  rw [hnm, hh0] at hc
  have hi' : i = MASK := by omega
  subst hi'
  have hp : probe t.result.idx_map n (MASK + 1 - MASK) MASK = none := by
    have h1 : MASK + 1 - MASK = 1 := by omega
    rw [h1]
    unfold probe
    rw [if_neg (by rw [ho]; simp), if_neg]
    · rfl
    · rw [cstr_clean (hrep.clean _ hi ho), cstr_clean hn, hnm]
      exact hne
  unfold table_add
  rw [hp]

theorem mapM_cons_some {α β : Type} (f : α → Option β) (a : α) (l : List α) (ys : List β)
    (h : (a :: l).mapM f = some ys) :
    ∃ b bs, f a = some b ∧ l.mapM f = some bs ∧ ys = b :: bs := by
  rw [List.mapM_cons] at h
  cases hfa : f a with
  | none =>
    rw [hfa] at h
    cases h
  | some b =>
    cases hl : l.mapM f with
    | none =>
      rw [hfa, hl] at h
      cases h
    | some bs =>
      rw [hfa, hl] at h
      cases h
      exact ⟨b, bs, rfl, rfl, rfl⟩

/-- A worker whose probes all start far enough from the end of the slot array loses
no record. -/
theorem worker_no_loss (allowed : List (List Nat)) (hcap : allowed.dedup.length ≤ NUM_STATIONS)
    (pre post : List Nat) (rs : List Reading) (hwf : ∀ r ∈ rs, r.wf)
    (hsub : rs.map Reading.name ⊆ allowed)
    (hroom : ∀ r ∈ rs, allowed.dedup.length + worker_hash r.name ≤ MASK) (w : Worker)
    (hw : process_chunk_state (pre ++ encode rs ++ post) pre.length (encode rs).length
      = some w) :
    w.table.lost = 0 := by
  rw [process_chunk_state_encode pre post rs hwf, add_readings_eq] at hw
  cases hadd : add_items worker_hash empty_table (rs.map (fun r => (r.name, r.stats))) with
  | none =>
    rw [hadd] at hw
    cases hw
  | some t =>
    rw [hadd] at hw
    cases hw
    exact add_items_no_loss worker_hash worker_hash_le allowed hcap _ empty_table t []
      (rep_empty _)
      (by
        intro it hit
        obtain ⟨r, hr, rfl⟩ := List.mem_map.mp hit
        exact ⟨wf_clean (hwf r hr), hsub (List.mem_map_of_mem _ hr)⟩)
      (by simp)
      (by
        intro it hit
        obtain ⟨r, hr, rfl⟩ := List.mem_map.mp hit
        exact hroom r hr)
      hadd

theorem group_workers_no_loss (allowed : List (List Nat))
    (hcap : allowed.dedup.length ≤ NUM_STATIONS) :
    ∀ (gs : List (List Reading)) (pre post : List Nat) (ws : List Worker),
      (∀ g ∈ gs, ∀ r ∈ g, r.wf) → gs.flatten.map Reading.name ⊆ allowed →
      (∀ g ∈ gs, ∀ r ∈ g, allowed.dedup.length + worker_hash r.name ≤ MASK) →
      (group_ranges pre.length gs).mapM
          (fun p => process_chunk_state (pre ++ encode gs.flatten ++ post) p.1 p.2) = some ws →
      ∀ w ∈ ws, w.table.lost = 0
  | [], _, _, ws, _, _, _, h => by
    cases h
    simp
  | g :: gs, pre, post, ws, hwf, hsub, hroom, h => by
    have hsubg : g.map Reading.name ⊆ allowed := by
      intro n hn
      apply hsub
      simp only [List.flatten_cons, List.map_append, List.mem_append]
      exact Or.inl hn
    have hsubgs : gs.flatten.map Reading.name ⊆ allowed := by
      intro n hn
      apply hsub
      simp only [List.flatten_cons, List.map_append, List.mem_append]
      exact Or.inr hn
    have hd : pre ++ encode (g :: gs).flatten ++ post
        = pre ++ encode g ++ (encode gs.flatten ++ post) := by
      simp [encode_append]
    have hd' : pre ++ encode g ++ (encode gs.flatten ++ post)
        = (pre ++ encode g) ++ encode gs.flatten ++ post := by
      simp
    rw [group_ranges, hd] at h
    obtain ⟨b, bs, h1, h2, rfl⟩ := mapM_cons_some _ _ _ _ h
    simp only at h1
    have hb := worker_no_loss allowed hcap pre (encode gs.flatten ++ post) g
      (hwf g (List.mem_cons_self _ _)) hsubg (hroom g (List.mem_cons_self _ _)) b h1
    rw [hd', ← List.length_append] at h2
    have hbs := group_workers_no_loss allowed hcap gs (pre ++ encode g) post bs
      (fun g' hg' => hwf g' (List.mem_cons_of_mem _ hg')) hsubgs
      (fun g' hg' => hroom g' (List.mem_cons_of_mem _ hg')) h2
    intro w hw
    rcases List.mem_cons.mp hw with rfl | hw
    · exact hb
    · exact hbs w hw

/-- Folding worker tables whose names all start their probes far enough from the end
of the slot array loses no entry. -/
theorem merge_all_no_loss (allowed : List (List Nat)) (hcap : allowed.dedup.length ≤ NUM_STATIONS)
    (hroom : ∀ n ∈ allowed, allowed.dedup.length + fnv_hash n ≤ MASK) :
    ∀ (ws : List (Result × (List Nat → List Int))),
      (∀ p ∈ ws, WorkerTable p.1 p.2 ∧ ∀ n, p.2 n ≠ [] → n ∈ allowed) →
      ∀ (t t' : Table) (M : List (List Nat × Stats)),
        Rep fnv_hash t M → M.map Prod.fst ⊆ allowed →
        (ws.map Prod.fst).foldlM merge_result t = some t' → t'.lost = t.lost
  | [], _, t, t', M, _, _, h => by
    cases h
    rfl
  | p :: ws, hws, t, t', M, hrep, hsub, h => by
    obtain ⟨hp, hpW⟩ := hws p (List.mem_cons_self _ _)
    obtain ⟨tw, mw, h1, h2, h3, h4⟩ := workerTable_keys hp allowed hpW
    obtain ⟨t1, landed, e1, e2, e3, e4, _, _⟩ := merge_result_spec allowed hcap t M tw mw hrep
      hsub h2 h4
    have e1' : merge_result t p.1 = some t1 := by
      rw [← h1]
      exact e1
    have hl1 : t1.lost = t.lost := by
      rw [merge_result_eq, rep_slot_items h2] at e1
      refine add_items_no_loss fnv_hash fnv_hash_le allowed hcap _ t t1 M hrep ?_ hsub ?_ e1
      · rintro ⟨n, s⟩ hit
        obtain ⟨i, hi, ho, hn, _⟩ := (entries_mem_iff _ _ _).mp hit
        have hc := h2.clean i hi ho
        rw [cstr_clean hc] at hn
        refine ⟨by rw [← hn]; exact hc, h4 ?_⟩
        exact List.mem_map_of_mem Prod.fst ((rep_entries h2 n s).mp hit)
      · rintro ⟨n, s⟩ hit
        exact hroom n (h4 (List.mem_map_of_mem Prod.fst ((rep_entries h2 n s).mp hit)))
    simp only [List.map_cons, List.foldlM_cons, e1', Option.bind_eq_bind, Option.some_bind] at h
    rw [merge_all_no_loss allowed hcap hroom ws (fun q hq => hws q (List.mem_cons_of_mem _ hq))
      t1 t' _ e3 e4 h, hl1]

/-- When every name starts its probes, in a worker and in the merge, far enough from
the end of the slot array, the workers on consecutive ranges of records and the merge
of their tables lose no record: every ghost counter is zero. -/
theorem groups_no_loss (gs : List (List Reading)) (hwf : ∀ g ∈ gs, ∀ r ∈ g, r.wf)
    (hcap : (gs.flatten.map Reading.name).dedup.length ≤ NUM_STATIONS)
    (hroom : ∀ r ∈ gs.flatten,
      (gs.flatten.map Reading.name).dedup.length + worker_hash r.name ≤ MASK ∧
      (gs.flatten.map Reading.name).dedup.length + fnv_hash r.name ≤ MASK)
    (ws : List Worker) (T : Table)
    (hws : (group_ranges 0 gs).mapM
      (fun p => process_chunk_state (encode gs.flatten) p.1 p.2) = some ws)
    (hT : sum_results_state (ws.map (fun w => w.table.result)) = some T) :
    (∀ w ∈ ws, w.table.lost = 0) ∧ T.lost = 0 := by
  have hws' : (group_ranges ([] : List Nat).length gs).mapM
      (fun p => process_chunk_state ([] ++ encode gs.flatten ++ []) p.1 p.2) = some ws := by
    simpa using hws
  refine ⟨group_workers_no_loss _ hcap gs [] [] ws hwf (List.Subset.refl _)
    (fun g hg r hr => (hroom r (List.mem_flatten.mpr ⟨g, hg, hr⟩)).1) hws', ?_⟩
  obtain ⟨wl, e1, e2⟩ := group_workers _ hcap gs [] [] hwf (List.Subset.refl _)
  rw [hws'] at e1
  have hwl : ws = wl.map Prod.fst := Option.some.inj e1
  have hpairs : ∀ p ∈ wl.map (fun x => (x.1.table.result, values x.2)),
      WorkerTable p.1 p.2 ∧ ∀ n, p.2 n ≠ [] → n ∈ gs.flatten.map Reading.name := by
    intro p hp
    obtain ⟨x, hx, rfl⟩ := List.mem_map.mp hp
    obtain ⟨g, hg, hs, hw, _⟩ := forall2_mem_right e2 x hx
    refine ⟨hw, ?_⟩
    intro n hn
    obtain ⟨r, hr, rfl⟩ := List.mem_map.mp (values_sublist_mem hs n hn)
    exact List.mem_map_of_mem _ (List.mem_flatten.mpr ⟨g, hg, hr⟩)
  have hT' : ((wl.map (fun x => (x.1.table.result, values x.2))).map Prod.fst).foldlM
      merge_result empty_table = some T := by
    rw [hwl] at hT
    simpa [sum_results_state, List.map_map] using hT
  have := merge_all_no_loss _ hcap (by
      intro n hn
      obtain ⟨r, hr, rfl⟩ := List.mem_map.mp hn
      exact (hroom r hr).2) _ hpairs empty_table T [] (rep_empty _) (by simp) hT'
  rw [this]
  rfl

/-- The same for the pipeline of `main` on a non-empty buffer of well-formed lines. -/
theorem pipeline_no_loss (rs : List Reading) (hne : rs ≠ []) (hwf : ∀ r ∈ rs, r.wf)
    (hcap : (rs.map Reading.name).dedup.length ≤ NUM_STATIONS)
    (hsize : (encode rs).length < SIZE_MOD) (N : Nat) (hN : 1 ≤ N)
    (hroom : ∀ r ∈ rs, (rs.map Reading.name).dedup.length + worker_hash r.name ≤ MASK ∧
      (rs.map Reading.name).dedup.length + fnv_hash r.name ≤ MASK)
    (ws : List Worker) (T : Table) (hws : main_workers N (encode rs) = some ws)
    (hT : sum_results_state (ws.map (fun w => w.table.result)) = some T) :
    (∀ w ∈ ws, w.table.lost = 0) ∧ T.lost = 0 := by
  obtain ⟨gs, h1, _, h2⟩ := main_workers_groups rs hne hwf hsize N hN
  subst h1
  rw [h2] at hws
  exact groups_no_loss gs (fun g hg r hr => hwf r (List.mem_flatten.mpr ⟨g, hg, hr⟩)) hcap
    hroom ws T hws hT

/-- The first probe on a fresh table lands. -/
theorem table_add_first (h : List Nat → Nat) (hh : ∀ n, h n ≤ MASK) (n : List Nat) (s : Stats)
    (hn : clean n) :
    ∃ t1, table_add empty_table (h n) n s = some t1 ∧ Rep h t1 [(n, s)] ∧ t1.lost = 0 := by
  obtain ⟨t1, h1, hcase⟩ := table_add_spec h empty_table [] n s (rep_empty h) hn (hh n)
    (Or.inr (by decide))
  have hl := table_add_lands h empty_table t1 [] n s (rep_empty h) (by simpa using hh n) h1
  rcases hcase with ⟨hl', _⟩ | ⟨_, hrep⟩
  · rw [hl] at hl'
    exact absurd hl' (by simp)
  · exact ⟨t1, h1, hrep, hl⟩

/-- The worker on a range that holds one well-formed record. -/
theorem single_worker (pre post : List Nat) (r : Reading) (hwf : r.wf) :
    ∃ w, process_chunk_state (pre ++ encode [r] ++ post) pre.length (encode [r]).length
        = some w ∧
      Rep worker_hash w.table [(r.name, r.stats)] ∧ w.table.lost = 0 := by
  obtain ⟨t1, h1, h2, h3⟩ := table_add_first worker_hash worker_hash_le r.name r.stats
    (wf_clean hwf)
  have hstate := process_chunk_state_encode pre post [r] (by simpa using hwf)
  have hadd : add_readings empty_table [r] = some t1 := by
    rw [add_readings_cons, h1]
    rfl
  rw [hadd, Option.map_some'] at hstate
  exact ⟨_, hstate, h2, h3⟩

theorem entries_single {h : List Nat → Nat} {t : Table} {n : List Nat} {s : Stats}
    (hrep : Rep h t [(n, s)]) : entries t.result = [(n, s)] :=
  List.perm_singleton.mp (rep_entries_perm hrep)

theorem entries_none {h : List Nat → Nat} {t : Table} (hrep : Rep h t []) :
    entries t.result = [] :=
  List.perm_nil.mp (rep_entries_perm hrep)

/-- Merging a worker table that holds one entry is one probe. -/
theorem merge_result_single (t tw : Table) (n : List Nat) (s : Stats)
    (hw : Rep worker_hash tw [(n, s)]) :
    merge_result t tw.result = table_add t (fnv_hash n) n s := by
  rw [merge_result_eq, rep_slot_items hw, entries_single hw]
  unfold add_items
  rw [List.foldlM_cons]
  cases table_add t (fnv_hash n) n s <;> rfl

/-- Merging the table of a worker that had an empty range changes nothing. -/
theorem merge_result_empty (t : Table) : merge_result t empty_table.result = some t := by
  rw [merge_result_eq, rep_slot_items (rep_empty worker_hash), entries_none (rep_empty worker_hash)]
  rfl

theorem process_chunk_state_zero (data : List Nat) (start : Nat) :
    process_chunk_state data start 0 = some ⟨empty_table, start⟩ := rfl

/-- Two worker tables with one entry each, whose names `fnv_hash` sends to the last
slot: the merge keeps the first and loses the second. -/
theorem merge_two_colliding (tw1 tw2 : Table) (n1 n2 : List Nat) (s1 s2 : Stats)
    (hw1 : Rep worker_hash tw1 [(n1, s1)]) (hw2 : Rep worker_hash tw2 [(n2, s2)])
    (h1 : fnv_hash n1 = MASK) (h2 : fnv_hash n2 = MASK) (hne : n1 ≠ n2) :
    ∃ T, sum_results_state [tw1.result, tw2.result] = some T ∧ T.lost = 1 ∧
      entries T.result = [(n1, s1)] := by
  have hclean : ∀ {tw : Table} {n : List Nat} {s : Stats}, Rep worker_hash tw [(n, s)] →
      clean n := by
    intro tw n s hw
    obtain ⟨i, hi, ho, hn, _⟩ := (hw.mem_iff n s).mp (List.mem_singleton.mpr rfl)
    rw [← hn]
    exact hw.clean i hi ho
  obtain ⟨t1, e1, e2, e3⟩ := table_add_first fnv_hash fnv_hash_le n1 s1 (hclean hw1)
  have e4 := table_add_lost fnv_hash t1 [(n1, s1)] n2 n1 s2 s1 e2 (hclean hw2)
    (List.mem_singleton.mpr rfl) h1 hne
  refine ⟨{ t1 with lost := t1.lost + 1 }, ?_, by simp [e3], ?_⟩
  · unfold sum_results_state
    rw [List.foldlM_cons, merge_result_single _ tw1 n1 s1 hw1, e1]
    simp only [Option.bind_eq_bind, Option.some_bind]
    rw [List.foldlM_cons, merge_result_single _ tw2 n2 s2 hw2, h2, e4]
    rfl
  · exact entries_single (rep_lost fnv_hash t1 _ _ e2)

/-- C3 (partition property), evaluated on the 11-byte file `a;1.0\nb;2.0`, whose last
line has no newline, with the 10 workers of `main`: the lookahead from offset 6 finds
no newline, the loop stops, and the ranges returned are not a partition of the
buffer: range 6 is the whole buffer again (its `start_idx` was never set) and
ranges 7 to 9 are `{0, 0}`, so they overlap ranges 0 and 5. -/
theorem partition_unterminated_file :
    generate_chunk_indices 10 (bytes "a;1.0\nb;2.0").length (bytes "a;1.0\nb;2.0")
        ((bytes "a;1.0\nb;2.0").length / 10)
      = [⟨0, 5⟩, ⟨6, 5⟩, ⟨6, 5⟩, ⟨6, 5⟩, ⟨6, 5⟩, ⟨6, 10⟩, ⟨0, 10⟩, ⟨0, 0⟩, ⟨0, 0⟩, ⟨0, 0⟩] := by
  decide

theorem xus_wf : xus_record.wf := by decide

theorem gasg_wf : gasg_record.wf := by decide

theorem xus_hash : fnv_hash xus_record.name = MASK := by decide

theorem gasg_hash : fnv_hash gasg_record.name = MASK := by decide

/-- C6 as stated fails: the workers on `Xus;1.0\n` and on `Gasg;2.0\n` return one
table each, and `sum_results` on the two tables keeps only `Xus` while on the same
tables in the other order it keeps only `Gasg`, because `fnv_hash` sends both names
to the last slot and the probe of the second one runs off the end of the array. -/
theorem merge_order_counterexample :
    ∃ r1 r2 R R', process_chunk (bytes "Xus;1.0\n") 0 8 = some r1 ∧
      process_chunk (bytes "Gasg;2.0\n") 0 9 = some r2 ∧
      sum_results [r1, r2] = some R ∧ sum_results [r2, r1] = some R' ∧
      entries R = [(bytes "Xus", ⟨10, 1, 10, 10⟩)] ∧
      entries R' = [(bytes "Gasg", ⟨20, 1, 20, 20⟩)] := by
  obtain ⟨w1, a1, a2, _⟩ := single_worker [] [] xus_record xus_wf
  obtain ⟨w2, b1, b2, _⟩ := single_worker [] [] gasg_record gasg_wf
  have hd1 : ([] : List Nat) ++ encode [xus_record] ++ [] = bytes "Xus;1.0\n" := by decide
  have hd2 : ([] : List Nat) ++ encode [gasg_record] ++ [] = bytes "Gasg;2.0\n" := by decide
  have hl1 : (encode [xus_record]).length = 8 := by decide
  have hl2 : (encode [gasg_record]).length = 9 := by decide
  rw [hd1, hl1, List.length_nil] at a1
  rw [hd2, hl2, List.length_nil] at b1
  have hne : xus_record.name ≠ gasg_record.name := by decide
  obtain ⟨T, c1, _, c3⟩ := merge_two_colliding w1.table w2.table _ _ _ _ a2 b2 xus_hash gasg_hash
    hne
  obtain ⟨T', d1, _, d3⟩ := merge_two_colliding w2.table w1.table _ _ _ _ b2 a2 gasg_hash
    xus_hash (Ne.symm hne)
  refine ⟨w1.table.result, w2.table.result, T.result, T'.result, ?_, ?_, ?_, ?_, ?_, ?_⟩
  · rw [process_chunk, a1]
    rfl
  · rw [process_chunk, b1]
    rfl
  · rw [sum_results, c1]
    rfl
  · rw [sum_results, d1]
    rfl
  · rw [c3]
    decide
  · rw [d3]
    decide

/-- C1 as stated fails on the empty file, which holds no malformed record: `mmap` is
called with a length of 0 and fails, `main` takes the exit of its `MAP_FAILED` guard,
and no report comes out, not even the empty one. -/
theorem end_to_end_empty_buffer : main_report [] = none := by decide

/-- C2 as stated fails on the file `Xus;1.0\nGasg;2.0\n`, two well-formed lines: both
names hash to the last slot of the merged table, the probe for `Gasg` runs off the end
of the slot array, and the counts of the merged table add up to 1, not 2. -/
theorem count_conservation_counterexample :
    bytes "Xus;1.0\nGasg;2.0\n" = encode [xus_record, gasg_record] ∧
    ∃ T, main_table 10 (bytes "Xus;1.0\nGasg;2.0\n") = some T ∧
      entries T.result = [(bytes "Xus", ⟨10, 1, 10, 10⟩)] ∧
      ((entries T.result).map (fun p => p.2.count)).sum = 1 := by
  have hdata : bytes "Xus;1.0\nGasg;2.0\n" = encode [xus_record, gasg_record] := by decide
  refine ⟨hdata, ?_⟩
  obtain ⟨w1, a1, a2, _⟩ := single_worker [] (encode [gasg_record]) xus_record xus_wf
  obtain ⟨w2, b1, b2, _⟩ := single_worker (encode [xus_record]) [] gasg_record gasg_wf
  have hd1 : ([] : List Nat) ++ encode [xus_record] ++ encode [gasg_record]
      = bytes "Xus;1.0\nGasg;2.0\n" := by decide
  have hd2 : encode [xus_record] ++ encode [gasg_record] ++ []
      = bytes "Xus;1.0\nGasg;2.0\n" := by decide
  have hl1 : (encode [xus_record]).length = 8 := by decide
  have hl2 : (encode [gasg_record]).length = 9 := by decide
  rw [hd1, hl1, List.length_nil] at a1
  rw [hd2, hl1, hl2] at b1
  have hchunks : generate_chunk_indices 10 (bytes "Xus;1.0\nGasg;2.0\n").length
      (bytes "Xus;1.0\nGasg;2.0\n") ((bytes "Xus;1.0\nGasg;2.0\n").length / 10)
      = [⟨0, 7⟩, ⟨8, 7⟩, ⟨8, 7⟩, ⟨8, 7⟩, ⟨8, 7⟩, ⟨8, 7⟩, ⟨8, 7⟩, ⟨8, 16⟩, ⟨17, 16⟩, ⟨17, 16⟩] := by
    decide
  have hc0 : chunk_len ⟨0, 7⟩ = 8 := by decide
  have hc1 : chunk_len ⟨8, 7⟩ = 0 := by decide
  have hc7 : chunk_len ⟨8, 16⟩ = 9 := by decide
  have hc8 : chunk_len ⟨17, 16⟩ = 0 := by decide
  have hworkers : main_workers 10 (bytes "Xus;1.0\nGasg;2.0\n")
      = some [w1, ⟨empty_table, 8⟩, ⟨empty_table, 8⟩, ⟨empty_table, 8⟩, ⟨empty_table, 8⟩,
          ⟨empty_table, 8⟩, ⟨empty_table, 8⟩, w2, ⟨empty_table, 17⟩, ⟨empty_table, 17⟩] := by
    unfold main_workers
    rw [if_neg (by decide)]
    simp only [hchunks, List.mapM_cons, List.mapM_nil, hc0, hc1, hc7, hc8, a1, b1,
      process_chunk_state_zero, Option.bind_eq_bind, Option.some_bind, Option.pure_def]
  have hne : xus_record.name ≠ gasg_record.name := by decide
  have hclean : clean gasg_record.name := wf_clean gasg_wf
  obtain ⟨t1, e1, e2, e3⟩ := table_add_first fnv_hash fnv_hash_le xus_record.name
    xus_record.stats (wf_clean xus_wf)
  have e4 := table_add_lost fnv_hash t1 [(xus_record.name, xus_record.stats)] gasg_record.name
    xus_record.name gasg_record.stats xus_record.stats e2 hclean (List.mem_singleton.mpr rfl)
    xus_hash hne
  rw [xus_hash] at e1
  refine ⟨{ t1 with lost := t1.lost + 1 }, ?_, ?_, ?_⟩
  · unfold main_table
    rw [hworkers]
    simp only [Option.some_bind, List.map_cons, List.map_nil, sum_results_state,
      List.foldlM_cons, List.foldlM_nil, merge_result_single _ w1.table _ _ a2,
      merge_result_single _ w2.table _ _ b2, merge_result_empty, xus_hash, gasg_hash, e1, e4,
      Option.bind_eq_bind, Option.pure_def, Option.some_bind]
  · rw [entries_single (rep_lost fnv_hash t1 _ _ e2)]
    decide
  · rw [entries_single (rep_lost fnv_hash t1 _ _ e2)]
    decide

/-- C9 (rounding rule).  For an integer sum `s` and a count `c > 0`, with `x = s / c`
an exact rational, `round_java x` is `r / 10` where `r` is the rounding of `x` in the
words of the specification (`spec_round`: truncate toward zero, then move one unit
away from zero when the discarded fraction is above 1/2 in magnitude or is exactly
1/2 with `x` positive), and `r` equals `floor (x + 1/2)`. -/
theorem rounding_rule (s : Int) (c : Nat) (_hc : 0 < c) :
    round_java ((s : ℚ) / (c : ℚ)) = ((spec_round ((s : ℚ) / (c : ℚ)) : Int) : ℚ) / 10 ∧
    spec_round ((s : ℚ) / (c : ℚ)) = ⌊(s : ℚ) / (c : ℚ) + 1 / 2⌋ :=
  round_java_eq _

/-- C9 on the sum -75 and the count 2 (`x = -37.5`): `r = -37`, printed `-3.7`. -/
theorem rounding_rule_witness :
    round_java (((-75 : Int) : ℚ) / ((2 : Nat) : ℚ)) = ((-37 : Int) : ℚ) / 10 ∧
    spec_round (((-75 : Int) : ℚ) / ((2 : Nat) : ℚ)) = -37 := by
  obtain ⟨h1, h2⟩ := rounding_rule (-75) 2 (by decide)
  have h3 : ⌊((-75 : Int) : ℚ) / ((2 : Nat) : ℚ) + 1 / 2⌋ = -37 := by
    rw [Int.floor_eq_iff]
    norm_num
  rw [h3] at h2
  rw [h1, h2]
  exact ⟨rfl, rfl⟩

/-- The positive half rounds away from zero: `x = 37.5` gives `r = 38`. -/
theorem rounding_positive_half :
    round_java (((75 : Int) : ℚ) / ((2 : Nat) : ℚ)) = ((38 : Int) : ℚ) / 10 := by
  obtain ⟨h1, h2⟩ := round_java_eq (((75 : Int) : ℚ) / ((2 : Nat) : ℚ))
  have h3 : ⌊((75 : Int) : ℚ) / ((2 : Nat) : ℚ) + 1 / 2⌋ = 38 := by
    rw [Int.floor_eq_iff]
    norm_num
  rw [h1, h2, h3]

/-- C8 on the texts `-1.2` and `-12.3`. -/
theorem temperature_parsing_witness :
    parse_temperature (bytes ";-1.2\n") 0 = (-12, 6) ∧
    parse_temperature (bytes ";-12.3\n") 0 = (-123, 7) := by
  have h := temperature_parsing [] [] true 1 2 3 (by decide) (by decide) (by decide)
  have e1 : ([] : List Nat) ++ 59 :: (sign_text true ++ [48 + 1, 46, 48 + 2, 10] ++ [])
      = bytes ";-1.2\n" := by decide
  have e2 : ([] : List Nat) ++ 59 :: (sign_text true ++ [48 + 1, 48 + 2, 46, 48 + 3, 10] ++ [])
      = bytes ";-12.3\n" := by decide
  rw [e1, e2] at h
  exact h

/-- C4 on the buffer `Hamburg;12.0\nBulawayo;8.9\nHamburg;10.0\n` with 10 workers:
ten ranges whose bytes, concatenated, are the buffer. -/
theorem no_split_record_witness :
    (generate_chunk_indices 10 (encode hamburg_records).length (encode hamburg_records)
      ((encode hamburg_records).length / 10)).length = 10 ∧
    ((generate_chunk_indices 10 (encode hamburg_records).length (encode hamburg_records)
      ((encode hamburg_records).length / 10)).map
        (chunk_bytes (encode hamburg_records))).flatten = encode hamburg_records := by
  have h := no_split_record (encode hamburg_records) 10 (by decide) (by decide) (by decide)
    (by decide) (by decide)
  exact ⟨h.1, h.2.2.2.2.2.2⟩

/-- C10 on a merged table with two occupied slots, `b` in slot 3 and `a` in slot 7:
the names are emitted in ascending order. -/
theorem sorted_report_witness :
    ((print_results
        (Function.update (Function.update empty_result.idx_map 3 ⟨bytes "b", 0⟩) 7 ⟨bytes "a", 1⟩)
        empty_result.temp).map Entry.name).Pairwise (List.Lex (fun x y => x < y)) := by
  refine (sorted_report _ _ ?_).1
  intro i j _ _ hi hj hij
  by_cases hi7 : i = 7
  · by_cases hj7 : j = 7
    · rw [hi7, hj7]
    · by_cases hj3 : j = 3
      · subst hi7 hj3
        revert hij
        decide
      · rw [Function.update_noteq hj7, Function.update_noteq hj3] at hj
        simp [empty_result, slot_empty] at hj
  · by_cases hi3 : i = 3
    · by_cases hj7 : j = 7
      · subst hi3 hj7
        revert hij
        decide
      · by_cases hj3 : j = 3
        · rw [hi3, hj3]
        · rw [Function.update_noteq hj7, Function.update_noteq hj3] at hj
          simp [empty_result, slot_empty] at hj
    · rw [Function.update_noteq hi7, Function.update_noteq hi3] at hi
      simp [empty_result, slot_empty] at hi

theorem lex_sorted_unique (l1 l2 : List (List Nat))
    (h1 : l1.Pairwise (List.Lex (fun x y => x < y)))
    (h2 : l2.Pairwise (List.Lex (fun x y => x < y))) (hmem : ∀ n, n ∈ l1 ↔ n ∈ l2) :
    l1 = l2 := by
  have hirr : ∀ a : List Nat, ¬ List.Lex (fun x y => x < y) a a :=
    fun a => irrefl_of (List.Lex (fun x y : Nat => x < y)) a
  have hnd : ∀ l : List (List Nat), l.Pairwise (List.Lex (fun x y => x < y)) → l.Nodup := by
    intro l hl
    show List.Pairwise (fun a b => a ≠ b) l
    exact hl.imp (by
      intro a b hab heq
      subst heq
      exact hirr a hab)
  have hperm : l1.Perm l2 := (List.perm_ext_iff_of_nodup (hnd l1 h1) (hnd l2 h2)).mpr hmem
  haveI : IsAntisymm (List Nat) (List.Lex (fun x y => x < y)) :=
    ⟨fun a b hab hba => absurd (trans_of (List.Lex (fun x y : Nat => x < y)) hab hba) (hirr a)⟩
  exact List.eq_of_perm_of_sorted hperm h1 h2

theorem report_two (report : List Entry) (n1 n2 : List Nat)
    (h : report.map Entry.name = [n1, n2]) :
    ∃ e1 e2, report = [e1, e2] ∧ e1.name = n1 ∧ e2.name = n2 := by
  match report, h with
  | [e1, e2], h =>
    simp only [List.map_cons, List.map_nil, List.cons.injEq, and_true] at h
    exact ⟨e1, e2, rfl, h.1, h.2⟩

theorem entry_of_stats (e : Entry) (n : List Nat) (vs : List Int) (s : Stats) (hn : e.name = n)
    (h : ∃ s', IsStatsOf vs s' ∧ e.min = (s'.min : ℚ) / 10 ∧
      e.mean = round_java (to_double (to_double (s'.sum : ℚ) / to_double (s'.count : ℚ))) ∧
      e.max = (s'.max : ℚ) / 10 ∧
      (s'.count < 2 ^ 42 → e.mean = round_java ((s'.sum : ℚ) / (s'.count : ℚ))))
    (hs : IsStatsOf vs s) (hc : s.count < 2 ^ 42) :
    e = ⟨n, (s.min : ℚ) / 10, round_java ((s.sum : ℚ) / (s.count : ℚ)), (s.max : ℚ) / 10⟩ := by
  obtain ⟨s', h1, h2, _, h4, h5⟩ := h
  have := isStats_unique h1 hs
  subst this
  have h3 := h5 hc
  obtain ⟨en, emin, emean, emax⟩ := e
  simp only at hn h2 h3 h4
  rw [hn, h2, h3, h4]

theorem hamburg_wf : ∀ r ∈ hamburg_records, r.wf := by decide

theorem hamburg_cap : (hamburg_records.map Reading.name).dedup.length ≤ NUM_STATIONS := by
  decide

theorem hamburg_size : (encode hamburg_records).length < SIZE_MOD := by decide

set_option maxRecDepth 4000 in
theorem hamburg_room : ∀ r ∈ hamburg_records,
    (hamburg_records.map Reading.name).dedup.length + worker_hash r.name ≤ MASK ∧
    (hamburg_records.map Reading.name).dedup.length + fnv_hash r.name ≤ MASK := by
  decide

/-- The end-to-end scenario of the specification: the report for the buffer
`Hamburg;12.0\nBulawayo;8.9\nHamburg;10.0\n` is `Bulawayo=8.9/8.9/8.9`,
`Hamburg=10.0/11.0/12.0`. -/
theorem end_to_end_report_witness :
    main_report (bytes "Hamburg;12.0\nBulawayo;8.9\nHamburg;10.0\n")
      = some [⟨bytes "Bulawayo", 89 / 10, 89 / 10, 89 / 10⟩, ⟨bytes "Hamburg", 10, 11, 12⟩] := by
  have hdata : bytes "Hamburg;12.0\nBulawayo;8.9\nHamburg;10.0\n" = encode hamburg_records := by
    decide
  obtain ⟨ws, T, report, h1, h2, h3, h4⟩ := end_to_end_report hamburg_records (by decide)
    hamburg_wf hamburg_cap hamburg_size
  obtain ⟨hw, hT⟩ := pipeline_no_loss hamburg_records (by decide) hamburg_wf hamburg_cap
    hamburg_size 10 (by decide) hamburg_room ws T h1 h2
  obtain ⟨hsorted, _, hmem, hvals⟩ := h4 hw hT
  have hnames : report.map Entry.name = [bytes "Bulawayo", bytes "Hamburg"] := by
    apply lex_sorted_unique _ _ hsorted (by decide)
    intro n
    rw [hmem]
    have : hamburg_records.map Reading.name
        = [bytes "Hamburg", bytes "Bulawayo", bytes "Hamburg"] := by decide
    rw [this]
    simp only [List.mem_cons, List.mem_singleton, List.not_mem_nil, or_false]
    constructor
    · rintro (h | h | h)
      · exact Or.inr h
      · exact Or.inl h
      · exact Or.inr h
    · rintro (h | h)
      · exact Or.inr (Or.inl h)
      · exact Or.inl h
  obtain ⟨e1, e2, hrep, hn1, hn2⟩ := report_two report _ _ hnames
  have hv1 := hvals e1 (by rw [hrep]; exact List.mem_cons_self _ _)
  have hv2 := hvals e2 (by rw [hrep]; simp)
  rw [hn1] at hv1
  rw [hn2] at hv2
  have hs1 : IsStatsOf (values hamburg_records (bytes "Bulawayo")) ⟨89, 1, 89, 89⟩ := by
    have : values hamburg_records (bytes "Bulawayo") = [89] := by decide
    rw [this]
    exact isStats_single 89
  have hs2 : IsStatsOf (values hamburg_records (bytes "Hamburg")) ⟨220, 2, 100, 120⟩ := by
    have : values hamburg_records (bytes "Hamburg") = [120, 100] := by decide
    rw [this]
    simp [IsStatsOf]
  have he1 := entry_of_stats e1 _ _ _ hn1 hv1 hs1 (by decide)
  have he2 := entry_of_stats e2 _ _ _ hn2 hv2 hs2 (by decide)
  have hm1 : round_java (((89 : Int) : ℚ) / ((1 : Nat) : ℚ)) = 89 / 10 := by
    have := round_java_int 89
    simpa using this
  have hm2 : round_java (((220 : Int) : ℚ) / ((2 : Nat) : ℚ)) = 11 := by
    have h := round_java_int 110
    have e : ((220 : Int) : ℚ) / ((2 : Nat) : ℚ) = ((110 : Int) : ℚ) := by norm_num
    rw [e, h]
    norm_num
  rw [hdata, h3, hrep, he1, he2, hm1, hm2]
  norm_num

/-- Workers on ranges of well-formed records, merged in any order, lose no record
when every name starts its probes far enough from the end of the slot array. -/
theorem merge_inputs_no_loss (inputs : List (List Nat × List Reading × List Nat))
    (hwf : ∀ i ∈ inputs, ∀ r ∈ i.2.1, r.wf)
    (hcap : ((inputs.flatMap (fun i => i.2.1)).map Reading.name).dedup.length ≤ NUM_STATIONS)
    (hroom : ∀ r ∈ inputs.flatMap (fun i => i.2.1),
      ((inputs.flatMap (fun i => i.2.1)).map Reading.name).dedup.length + worker_hash r.name
        ≤ MASK ∧
      ((inputs.flatMap (fun i => i.2.1)).map Reading.name).dedup.length + fnv_hash r.name
        ≤ MASK)
    (ws : List Worker) (T : Table) (hws : inputs.mapM run_worker = some ws)
    (hT : sum_results_state (ws.map (fun w => w.table.result)) = some T) :
    (∀ w ∈ ws, w.table.lost = 0) ∧ T.lost = 0 := by
  classical
  have hsubi : ∀ i ∈ inputs, i.2.1.map Reading.name
      ⊆ (inputs.flatMap (fun i => i.2.1)).map Reading.name := by
    intro i hi n hn
    obtain ⟨r, hr, rfl⟩ := List.mem_map.mp hn
    exact List.mem_map_of_mem _ (List.mem_flatMap.mpr ⟨i, hi, hr⟩)
  have hall : ∀ i : List Nat × List Reading × List Nat, ∃ (w : Worker) (landed : List Reading),
      i ∈ inputs → run_worker i = some w ∧ landed.Sublist i.2.1 ∧
        WorkerTable w.table.result (values landed) := by
    intro i
    by_cases hi : i ∈ inputs
    · obtain ⟨w, landed, h1, h2, h3, _⟩ := worker_table_of_range _ hcap i.1 i.2.2 i.2.1
        (hwf i hi) (hsubi i hi)
      exact ⟨w, landed, fun _ => ⟨h1, h2, h3⟩⟩
    · exact ⟨⟨empty_table, 0⟩, [], fun h => absurd h hi⟩
  choose wk ld hwk using hall
  have hmap := mapM_eq_some_map run_worker wk inputs (fun i hi => (hwk i hi).1)
  rw [hws] at hmap
  have hwseq : ws = inputs.map wk := Option.some.inj hmap
  subst hwseq
  constructor
  · intro w hw
    obtain ⟨i, hi, rfl⟩ := List.mem_map.mp hw
    exact worker_no_loss _ hcap i.1 i.2.2 i.2.1 (hwf i hi) (hsubi i hi)
      (fun r hr => (hroom r (List.mem_flatMap.mpr ⟨i, hi, hr⟩)).1) (wk i) (hwk i hi).1
  · have hpairs : ∀ p ∈ inputs.map (fun i => ((wk i).table.result, values (ld i))),
        WorkerTable p.1 p.2 ∧ ∀ n, p.2 n ≠ [] →
          n ∈ (inputs.flatMap (fun i => i.2.1)).map Reading.name := by
      intro p hp
      obtain ⟨i, hi, rfl⟩ := List.mem_map.mp hp
      obtain ⟨_, h2, h3⟩ := hwk i hi
      exact ⟨h3, fun n hn => hsubi i hi (values_sublist_mem h2 n hn)⟩
    have hT' : ((inputs.map (fun i => ((wk i).table.result, values (ld i)))).map
        Prod.fst).foldlM merge_result empty_table = some T := by
      simpa [sum_results_state, List.map_map] using hT
    have := merge_all_no_loss _ hcap (by
        intro n hn
        obtain ⟨r, hr, rfl⟩ := List.mem_map.mp hn
        exact (hroom r hr).2) _ hpairs empty_table T [] (rep_empty _) (by simp) hT'
    rw [this]
    rfl

theorem hamburg_groups_flatten : hamburg_groups.flatten = hamburg_records := by decide

theorem hamburg_groups_wf : ∀ g ∈ hamburg_groups, ∀ r ∈ g, r.wf := by decide

/-- C5 on the buffer `Hamburg;12.0\nBulawayo;8.9\nHamburg;10.0\n` cut after its first
line: no probe is lost, and the merged table and the table of a single worker have the
same entries. -/
theorem merge_associativity_witness :
    ∃ ws T w0,
      (group_ranges 0 hamburg_groups).mapM
          (fun p => process_chunk_state (encode hamburg_groups.flatten) p.1 p.2) = some ws ∧
      sum_results_state (ws.map (fun w => w.table.result)) = some T ∧
      process_chunk_state (encode hamburg_groups.flatten) 0
          (encode hamburg_groups.flatten).length = some w0 ∧
      (∀ w ∈ ws, w.table.lost = 0) ∧ T.lost = 0 ∧ w0.table.lost = 0 ∧
      ∀ n s, (n, s) ∈ entries T.result ↔ (n, s) ∈ entries w0.table.result := by
  have hcap : (hamburg_groups.flatten.map Reading.name).dedup.length ≤ NUM_STATIONS := by
    rw [hamburg_groups_flatten]
    exact hamburg_cap
  obtain ⟨ws, T, w0, h1, h2, h3, h4⟩ := merge_associativity hamburg_groups hamburg_groups_wf hcap
  have hroom : ∀ r ∈ hamburg_groups.flatten,
      (hamburg_groups.flatten.map Reading.name).dedup.length + worker_hash r.name ≤ MASK ∧
      (hamburg_groups.flatten.map Reading.name).dedup.length + fnv_hash r.name ≤ MASK := by
    rw [hamburg_groups_flatten]
    exact hamburg_room
  obtain ⟨hw, hT⟩ := groups_no_loss hamburg_groups hamburg_groups_wf hcap hroom ws T h1 h2
  have hw0 : w0.table.lost = 0 := by
    refine worker_no_loss _ hcap [] [] hamburg_groups.flatten ?_ (List.Subset.refl _)
      (fun r hr => (hroom r hr).1) w0 (by simpa using h3)
    rw [hamburg_groups_flatten]
    exact hamburg_wf
  exact ⟨ws, T, w0, h1, h2, h3, hw, hT, hw0, h4 hw hT hw0⟩

theorem hamburg_inputs_records :
    hamburg_inputs.flatMap (fun i => i.2.1) = hamburg_records := by decide

theorem hamburg_inputs_wf : ∀ i ∈ hamburg_inputs, ∀ r ∈ i.2.1, r.wf := by decide

/-- C6 on the two ranges of `Hamburg;12.0\nBulawayo;8.9\nHamburg;10.0\n` and
on the same ranges swapped: no probe is lost in either order and the two merged
tables have the same entries. -/
theorem merge_order_independence_witness :
    ∃ ws ws' T T', hamburg_inputs.mapM run_worker = some ws ∧
      hamburg_inputs.reverse.mapM run_worker = some ws' ∧ ws.Perm ws' ∧
      sum_results_state (ws.map (fun w => w.table.result)) = some T ∧
      sum_results_state (ws'.map (fun w => w.table.result)) = some T' ∧
      T.lost = 0 ∧ T'.lost = 0 ∧
      ∀ n s, (n, s) ∈ entries T.result ↔ (n, s) ∈ entries T'.result := by
  have hcap : ((hamburg_inputs.flatMap (fun i => i.2.1)).map Reading.name).dedup.length
      ≤ NUM_STATIONS := by
    rw [hamburg_inputs_records]
    exact hamburg_cap
  have hroom : ∀ r ∈ hamburg_inputs.flatMap (fun i => i.2.1),
      ((hamburg_inputs.flatMap (fun i => i.2.1)).map Reading.name).dedup.length
        + worker_hash r.name ≤ MASK ∧
      ((hamburg_inputs.flatMap (fun i => i.2.1)).map Reading.name).dedup.length
        + fnv_hash r.name ≤ MASK := by
    rw [hamburg_inputs_records]
    exact hamburg_room
  have hperm : hamburg_inputs.Perm hamburg_inputs.reverse := (List.reverse_perm _).symm
  obtain ⟨ws, ws', T, T', h1, h2, h3, h4, h5, h6⟩ := merge_order_independence hamburg_inputs
    hamburg_inputs.reverse hperm hamburg_inputs_wf hcap
  obtain ⟨_, hT⟩ := merge_inputs_no_loss hamburg_inputs hamburg_inputs_wf hcap hroom ws T h1 h4
  have hrev : hamburg_inputs.reverse.flatMap (fun i => i.2.1)
      = [⟨bytes "Bulawayo", false, none, 8, 9⟩, ⟨bytes "Hamburg", false, some 1, 0, 0⟩,
          ⟨bytes "Hamburg", false, some 1, 2, 0⟩] := by decide
  obtain ⟨_, hT'⟩ := merge_inputs_no_loss hamburg_inputs.reverse
    (fun i hi => hamburg_inputs_wf i (List.mem_reverse.mp hi))
    (by rw [hrev]; decide)
    (by
      rw [hrev]
      set_option maxRecDepth 4000 in decide)
    ws' T' h2 h5
  exact ⟨ws, ws', T, T', h1, h2, h3, h4, h5, hT, hT', h6 hT hT'⟩

theorem collide_wf : ∀ r ∈ collide_records, r.wf := by decide

/-- C7 on the range `Ax;1.0\nBx;2.0\nAx;-3.5\n`, whose two names start their probes on
the same slot: no probe is lost, and the table holds `Ax` with sum -25, count 2,
minimum -35, maximum 10, and `Bx` with the single value 20. -/
theorem worker_aggregation_witness :
    worker_hash (bytes "Ax") = worker_hash (bytes "Bx") ∧
    ∃ w, process_chunk_state (bytes "Ax;1.0\nBx;2.0\nAx;-3.5\n") 0 22 = some w ∧
      w.table.lost = 0 ∧
      (bytes "Ax", ⟨-25, 2, -35, 10⟩) ∈ entries w.table.result ∧
      (bytes "Bx", ⟨20, 1, 20, 20⟩) ∈ entries w.table.result ∧
      (entries w.table.result).length = 2 := by
  refine ⟨by decide, ?_⟩
  have hcap : (collide_records.map Reading.name).dedup.length ≤ NUM_STATIONS := by decide
  obtain ⟨w, h1, _, h3⟩ := worker_aggregation [] [] collide_records collide_wf hcap
  have hlost : w.table.lost = 0 :=
    worker_no_loss _ hcap [] [] collide_records collide_wf (List.Subset.refl _)
      (by set_option maxRecDepth 4000 in decide) w h1
  obtain ⟨hnd, hkeys, hstats⟩ := h3 hlost
  have hd : ([] : List Nat) ++ encode collide_records ++ []
      = bytes "Ax;1.0\nBx;2.0\nAx;-3.5\n" := by decide
  have hl : (encode collide_records).length = 22 := by decide
  rw [hd, hl, List.length_nil] at h1
  have hnames : collide_records.map Reading.name = [bytes "Ax", bytes "Bx", bytes "Ax"] := by
    decide
  have hA : IsStatsOf (values collide_records (bytes "Ax")) ⟨-25, 2, -35, 10⟩ := by
    have : values collide_records (bytes "Ax") = [10, -35] := by decide
    rw [this]
    simp [IsStatsOf]
  have hB : IsStatsOf (values collide_records (bytes "Bx")) ⟨20, 1, 20, 20⟩ := by
    have : values collide_records (bytes "Bx") = [20] := by decide
    rw [this]
    exact isStats_single 20
  have hmem : ∀ n s, n ∈ collide_records.map Reading.name →
      IsStatsOf (values collide_records n) s → (n, s) ∈ entries w.table.result := by
    intro n s hn hs
    obtain ⟨⟨n', s'⟩, hs', hfst⟩ := List.mem_map.mp ((hkeys n).mpr hn)
    simp only at hfst
    subst hfst
    rw [isStats_unique hs (hstats n' s' hs')]
    exact hs'
  refine ⟨w, h1, hlost, hmem _ _ (by rw [hnames]; simp) hA,
    hmem _ _ (by rw [hnames]; simp) hB, ?_⟩
  have hp : ((entries w.table.result).map Prod.fst).Perm [bytes "Ax", bytes "Bx"] := by
    apply (List.perm_ext_iff_of_nodup hnd (by decide)).mpr
    intro n
    rw [hkeys, hnames]
    simp only [List.mem_cons, List.mem_singleton, List.not_mem_nil, or_false]
    constructor
    · rintro (h | h | h)
      · exact Or.inl h
      · exact Or.inr h
      · exact Or.inl h
    · rintro (h | h)
      · exact Or.inl h
      · exact Or.inr (Or.inl h)
  have hlen := hp.length_eq
  simpa using hlen

theorem after_append : ∀ (rs rs' : List Reading) (p : Nat),
    after p (rs ++ rs') = after (after p rs) rs'
  | [], _, _ => rfl
  | r :: rs, rs', p => by
    simp only [List.cons_append, after]
    exact after_append rs rs' _

theorem starts_append : ∀ (rs rs' : List Reading) (p : Nat),
    starts p (rs ++ rs') = starts p rs ++ starts (after p rs) rs'
  | [], _, _ => rfl
  | r :: rs, rs', p => by
    show p :: starts _ (rs ++ rs') = p :: (starts _ rs ++ starts (after _ rs) rs')
    rw [starts_append rs rs' _]

theorem laid_append (data : List Nat) : ∀ (rs rs' : List Reading) (p : Nat),
    Laid data p rs → Laid data (after p rs) rs' → Laid data p (rs ++ rs')
  | [], _, _, _, h => h
  | _ :: rs, rs', _, h, h' => ⟨h.1, laid_append data rs rs' _ h.2 h'⟩

theorem text_length_pos (r : Reading) : 1 ≤ r.text.length := by
  simp [Reading.text]
  omega

/-- A run of probes for well-formed readings with names from `allowed`, a list with at
most 10000 distinct names, on a fresh worker table returns a table; when no probe is
lost, its entries are the names of the readings with the statistics of their
values. -/
theorem add_readings_table (rs : List Reading) (allowed : List (List Nat))
    (hwf : ∀ r ∈ rs, r.wf) (hsub : rs.map Reading.name ⊆ allowed)
    (hcap : allowed.dedup.length ≤ NUM_STATIONS) :
    ∃ t, add_readings empty_table rs = some t ∧
      (t.lost = 0 →
        ((entries t.result).map Prod.fst).Nodup ∧
        (∀ n, n ∈ (entries t.result).map Prod.fst ↔ n ∈ rs.map Reading.name) ∧
        (∀ n s, (n, s) ∈ entries t.result → IsStatsOf (values rs n) s)) := by
  obtain ⟨t, landed, h1, _, h3, h4⟩ := add_readings_spec rs allowed hwf hsub hcap
  refine ⟨t, h1, ?_⟩
  intro hlost
  have hl := h4 hlost
  subst hl
  have hagg : AggOf (entries t.result) (values landed) :=
    rep_agg_entries h3 (agg_congr (agg_readings landed [] _ agg_nil) (fun n => by simp))
  refine ⟨hagg.1, ?_, fun n s hns => (hagg.2 n s).mp hns⟩
  intro n
  rw [← values_ne_nil_iff]
  constructor
  · intro hn
    obtain ⟨⟨n', s⟩, hs, rfl⟩ := List.mem_map.mp hn
    exact isStats_ne_nil ((hagg.2 n' s).mp hs)
  · intro hn
    obtain ⟨s, hs⟩ := exists_stats _ hn
    exact List.mem_map_of_mem Prod.fst ((hagg.2 n s).mpr hs)

/-- The worker on a range that ends inside the last byte of its last record or just
after its text: the records `rs` followed by the text of `r` without a newline. -/
theorem process_chunk_state_unterminated (pre post : List Nat) (rs : List Reading) (r : Reading)
    (hwf : ∀ x ∈ rs ++ [r], x.wf) :
    process_chunk_state (pre ++ (encode rs ++ r.text) ++ post) pre.length
        (encode rs ++ r.text).length
      = (add_readings empty_table (rs ++ [r])).map
          (fun t => ⟨t, pre.length + (encode (rs ++ [r])).length⟩) := by
  have hl1 : Laid (pre ++ (encode rs ++ r.text) ++ post) pre.length rs := by
    have h := laid_encode rs pre (r.text ++ post)
    have hd : pre ++ (encode rs ++ r.text) ++ post = pre ++ encode rs ++ (r.text ++ post) := by
      simp
    rw [hd]
    exact h
  have hl2 : Laid (pre ++ (encode rs ++ r.text) ++ post) (after pre.length rs) [r] := by
    refine ⟨⟨pre ++ encode rs, post, by simp, ?_⟩, trivial⟩
    rw [after_encode]
    simp
  have hlaid := laid_append _ rs [r] pre.length hl1 hl2
  have htext := text_length_pos r
  have h := process_loop_spec (pre ++ (encode rs ++ r.text) ++ post)
    (pre.length + (encode rs ++ r.text).length) (rs ++ [r]) (encode rs ++ r.text).length
    ⟨empty_table, pre.length⟩ hwf hlaid
    (by
      intro s hs
      rw [starts_append] at hs
      rcases List.mem_append.mp hs with hs | hs
      · have := starts_lt rs pre.length s hs
        rw [after_encode] at this
        simp only [List.length_append]
        omega
      · simp only [starts, List.mem_singleton] at hs
        rw [hs, after_encode]
        simp only [List.length_append]
        omega)
    (by
      rw [after_append]
      simp only [after]
      rw [after_encode]
      simp only [List.length_append]
      omega)
    (by
      have := length_le_encode rs
      simp only [List.length_append, List.length_singleton]
      omega)
  rw [process_chunk_state, h]
  congr 1
  funext t
  rw [after_encode]

theorem encode_snoc (rs : List Reading) (r : Reading) :
    encode (rs ++ [r]) = encode rs ++ r.text ++ [10] := by
  rw [encode_append, encode_cons]
  simp [encode]

/-- C11 (unterminated final line).  On a range made of the lines of well-formed
records `rs` followed by the text of a well-formed record `r` without its newline
(at most 10000 distinct names in all), whatever bytes surround the range,
`process_chunk` leaves its loop with `content` past the end of the range and returns
a table, and it returns the same table on the same range with a newline appended.
That table is the one built by one insert-or-update step for each record of `rs`
and then for `r`; when no probe ran off the end of the slot array its entries are
the names of `rs` and `r`, each with the statistics of its values, those of `r`
included. -/
theorem unterminated_final_line (pre post post' : List Nat) (rs : List Reading) (r : Reading)
    (hwf : ∀ x ∈ rs ++ [r], x.wf)
    (hcap : ((rs ++ [r]).map Reading.name).dedup.length ≤ NUM_STATIONS) :
    ∃ w, process_chunk_state (pre ++ (encode rs ++ r.text) ++ post) pre.length
          (encode rs ++ r.text).length = some w ∧
      pre.length + (encode rs ++ r.text).length ≤ w.content ∧
      process_chunk_state (pre ++ (encode rs ++ r.text ++ [10]) ++ post') pre.length
          (encode rs ++ r.text ++ [10]).length = some w ∧
      process_chunk (pre ++ (encode rs ++ r.text) ++ post) pre.length
          (encode rs ++ r.text).length
        = process_chunk (pre ++ (encode rs ++ r.text ++ [10]) ++ post') pre.length
          (encode rs ++ r.text ++ [10]).length ∧
      add_readings empty_table (rs ++ [r]) = some w.table ∧
      (w.table.lost = 0 →
        (∀ n, n ∈ (entries w.table.result).map Prod.fst ↔ n ∈ (rs ++ [r]).map Reading.name) ∧
        (∀ n s, (n, s) ∈ entries w.table.result → IsStatsOf (values (rs ++ [r]) n) s)) := by
  obtain ⟨t, h1, h2⟩ := add_readings_table (rs ++ [r]) _ hwf (List.Subset.refl _) hcap
  have hu := process_chunk_state_unterminated pre post rs r hwf
  have ht := process_chunk_state_encode pre post' (rs ++ [r]) hwf
  rw [h1, Option.map_some'] at hu ht
  rw [encode_snoc] at hu ht
  refine ⟨_, hu, ?_, ht, ?_, h1, fun hl => ⟨(h2 hl).2.1, (h2 hl).2.2⟩⟩
  · show pre.length + (encode rs ++ r.text).length
      ≤ pre.length + (encode rs ++ r.text ++ [10]).length
    simp only [List.length_append]
    omega
  · rw [process_chunk, process_chunk, hu, ht]

/-- C11 on the range `Hamburg;12.0\nBulawayo;8.9`, at the end of a buffer: the worker
returns the table that it returns for `Hamburg;12.0\nBulawayo;8.9\n`, with the
statistics of `Bulawayo` in it. -/
theorem unterminated_final_line_witness :
    ∃ w, process_chunk_state (bytes "Hamburg;12.0\nBulawayo;8.9") 0 25 = some w ∧
      process_chunk_state (bytes "Hamburg;12.0\nBulawayo;8.9\n") 0 26 = some w ∧
      add_readings empty_table
        [⟨bytes "Hamburg", false, some 1, 2, 0⟩, ⟨bytes "Bulawayo", false, none, 8, 9⟩]
          = some w.table := by
  obtain ⟨w, h1, _, h3, _, h5, _⟩ := unterminated_final_line [] [] []
    [⟨bytes "Hamburg", false, some 1, 2, 0⟩] ⟨bytes "Bulawayo", false, none, 8, 9⟩
    (by decide) (by decide)
  exact ⟨w, h1, h3, h5⟩

/-- A probe finds a slot when some slot of its run is empty or holds the name. -/
theorem probe_finds (im : Nat → MapStruct) (n : List Nat) (k i j : Nat) (h1 : i ≤ j)
    (h2 : j < i + k) (hj : slot_empty (im j) = true ∨ cstr (im j).name = cstr n) :
    ∃ f, probe im n k i = some f := by
  cases hp : probe im n k i with
  | some f => exact ⟨f, rfl⟩
  | none =>
    have h := probe_none im n k i hp j h1 h2
    rcases hj with hj | hj
    · rw [hj] at h
      exact absurd h.1 (by simp)
    · exact absurd hj h.2

/-- A probe runs off its run of slots when every slot of the run holds another name. -/
theorem probe_eq_none (im : Nat → MapStruct) (n : List Nat) :
    ∀ k i, (∀ l, i ≤ l → l < i + k → slot_empty (im l) = false ∧ cstr (im l).name ≠ cstr n) →
      probe im n k i = none
  | 0, _, _ => rfl
  | k + 1, i, h => by
    unfold probe
    obtain ⟨h1, h2⟩ := h i (le_refl _) (by omega)
    rw [if_neg (by rw [h1]; simp), if_neg h2]
    exact probe_eq_none im n k (i + 1) (fun l hl1 hl2 => h l (by omega) (by omega))

/-- An insert-or-update step when some slot from the hash to the last slot is empty or
holds the name: the step acts on the first such slot, updating the entry of a slot
that holds the name and creating an entry in an empty slot when the statistics
arrays have room. -/
theorem table_add_found (t : Table) (name_hash : Nat) (n : List Nat) (s : Stats) (j : Nat)
    (h1 : name_hash ≤ j) (h2 : j ≤ MASK)
    (hj : slot_empty (t.result.idx_map j) = true ∨ cstr (t.result.idx_map j).name = cstr n) :
    ∃ i, name_hash ≤ i ∧ i ≤ j ∧
      (∀ l, name_hash ≤ l → l < i →
        slot_empty (t.result.idx_map l) = false ∧ cstr (t.result.idx_map l).name ≠ cstr n) ∧
      (slot_empty (t.result.idx_map i) = true ∨ cstr (t.result.idx_map i).name = cstr n) ∧
      (slot_empty (t.result.idx_map i) = false →
        table_add t name_hash n s = some (table_update t i s)) ∧
      (slot_empty (t.result.idx_map i) = true → t.station_idx < NUM_STATIONS →
        table_add t name_hash n s = some (table_create t i n s)) := by
  obtain ⟨i, hi⟩ := probe_finds t.result.idx_map n (MASK + 1 - name_hash) name_hash j h1
    (by omega) hj
  obtain ⟨p1, _, p3, p4⟩ := probe_some _ _ _ _ _ hi
  have hij : i ≤ j := by
    by_contra hlt
    obtain ⟨q1, q2⟩ := p4 j h1 (by omega)
    rcases hj with hj | hj
    · rw [hj] at q1
      exact absurd q1 (by simp)
    · exact q2 hj
  refine ⟨i, p1, hij, p4, p3, ?_, ?_⟩
  · intro he
    unfold table_add
    rw [hi]
    simp only [he]
    rfl
  · intro he hroom
    unfold table_add
    rw [hi]
    simp only [he, if_true]
    rw [if_neg (by omega)]

/-- An insert-or-update step when every slot from the hash to the last slot holds
another name: nothing is created or updated. -/
theorem table_add_not_found (t : Table) (name_hash : Nat) (n : List Nat) (s : Stats)
    (h : ∀ l, name_hash ≤ l → l ≤ MASK →
      slot_empty (t.result.idx_map l) = false ∧ cstr (t.result.idx_map l).name ≠ cstr n) :
    table_add t name_hash n s = some { t with lost := t.lost + 1 } := by
  unfold table_add
  rw [probe_eq_none _ _ _ _ (fun l hl1 hl2 => h l hl1 (by omega))]

/-- C12 (probing lands), for a probe that has a free or matching slot between the
hash and the last slot.  When some slot `j` from the hash of the key to slot 65535 is
empty or holds the key, the insert-or-update step of `process_chunk` and that of
`sum_results` stop on the first such slot `i`: every slot from the hash to `i` holds
another key, and slot `i` is empty or holds the key.  If slot `i` holds the key the
step updates its entry; if slot `i` is empty and fewer than 10000 entries were
created the step creates the entry there.  The probe does not wrap around: when
every slot from the hash to slot 65535 holds another key, the step returns the table
as it was and only the ghost counter of lost probes grows. -/
theorem probing_lands (t : Table) :
    (∀ (name_hash : Nat) (station_name : List Nat) (temperature : Int) (j : Nat),
      name_hash ≤ j → j ≤ MASK →
      (slot_empty (t.result.idx_map j) = true ∨
        cstr (t.result.idx_map j).name = cstr station_name) →
      ∃ i, name_hash ≤ i ∧ i ≤ j ∧
        (∀ l, name_hash ≤ l → l < i → slot_empty (t.result.idx_map l) = false ∧
          cstr (t.result.idx_map l).name ≠ cstr station_name) ∧
        (slot_empty (t.result.idx_map i) = true ∨
          cstr (t.result.idx_map i).name = cstr station_name) ∧
        (slot_empty (t.result.idx_map i) = false →
          insert_reading t name_hash station_name temperature
            = some (table_update t i ⟨temperature, 1, temperature, temperature⟩)) ∧
        (slot_empty (t.result.idx_map i) = true → t.station_idx < NUM_STATIONS →
          insert_reading t name_hash station_name temperature
            = some (table_create t i station_name
                ⟨temperature, 1, temperature, temperature⟩))) ∧
    (∀ (result : Result) (res_idx j : Nat), slot_empty (result.idx_map res_idx) = false →
      fnv_hash (result.idx_map res_idx).name ≤ j → j ≤ MASK →
      (slot_empty (t.result.idx_map j) = true ∨
        cstr (t.result.idx_map j).name = cstr (result.idx_map res_idx).name) →
      ∃ i, fnv_hash (result.idx_map res_idx).name ≤ i ∧ i ≤ j ∧
        (∀ l, fnv_hash (result.idx_map res_idx).name ≤ l → l < i →
          slot_empty (t.result.idx_map l) = false ∧
          cstr (t.result.idx_map l).name ≠ cstr (result.idx_map res_idx).name) ∧
        (slot_empty (t.result.idx_map i) = true ∨
          cstr (t.result.idx_map i).name = cstr (result.idx_map res_idx).name) ∧
        (slot_empty (t.result.idx_map i) = false →
          merge_slot result t res_idx
            = some (table_update t i (slot_stats result (result.idx_map res_idx)))) ∧
        (slot_empty (t.result.idx_map i) = true → t.station_idx < NUM_STATIONS →
          merge_slot result t res_idx
            = some (table_create t i (result.idx_map res_idx).name
                (slot_stats result (result.idx_map res_idx))))) ∧
    (∀ (name_hash : Nat) (station_name : List Nat) (temperature : Int),
      (∀ l, name_hash ≤ l → l ≤ MASK → slot_empty (t.result.idx_map l) = false ∧
        cstr (t.result.idx_map l).name ≠ cstr station_name) →
      insert_reading t name_hash station_name temperature
        = some { t with lost := t.lost + 1 }) ∧
    (∀ (result : Result) (res_idx : Nat), slot_empty (result.idx_map res_idx) = false →
      (∀ l, fnv_hash (result.idx_map res_idx).name ≤ l → l ≤ MASK →
        slot_empty (t.result.idx_map l) = false ∧
        cstr (t.result.idx_map l).name ≠ cstr (result.idx_map res_idx).name) →
      merge_slot result t res_idx = some { t with lost := t.lost + 1 }) := by
  refine ⟨?_, ?_, ?_, ?_⟩
  · intro name_hash station_name temperature j h1 h2 hj
    obtain ⟨i, p1, p2, p3, p4, p5, p6⟩ := table_add_found t name_hash station_name
      ⟨temperature, 1, temperature, temperature⟩ j h1 h2 hj
    exact ⟨i, p1, p2, p3, p4, fun he => by rw [insert_reading_eq, p5 he],
      fun he hroom => by rw [insert_reading_eq, p6 he hroom]⟩
  · intro result res_idx j ho h1 h2 hj
    obtain ⟨i, p1, p2, p3, p4, p5, p6⟩ := table_add_found t _ (result.idx_map res_idx).name
      (slot_stats result (result.idx_map res_idx)) j h1 h2 hj
    refine ⟨i, p1, p2, p3, p4, ?_, ?_⟩
    · intro he
      rw [merge_slot_eq, if_neg (by rw [ho]; simp), p5 he]
    · intro he hroom
      rw [merge_slot_eq, if_neg (by rw [ho]; simp), p6 he hroom]
  · intro name_hash station_name temperature h
    rw [insert_reading_eq]
    exact table_add_not_found t name_hash station_name _ h
  · intro result res_idx ho h
    rw [merge_slot_eq, if_neg (by rw [ho]; simp)]
    exact table_add_not_found t _ _ _ h

/-- C12 on the fresh table and the record `Hamburg;12.0`: the slot at the hash of the
name is empty and the step creates the entry there. -/
theorem probing_lands_witness :
    insert_reading empty_table (worker_hash (bytes "Hamburg")) (bytes "Hamburg") 120
      = some (table_create empty_table (worker_hash (bytes "Hamburg")) (bytes "Hamburg")
          ⟨120, 1, 120, 120⟩) := by
  obtain ⟨i, h1, h2, _, _, _, h6⟩ := (probing_lands empty_table).1
    (worker_hash (bytes "Hamburg")) (bytes "Hamburg") 120 (worker_hash (bytes "Hamburg"))
    (le_refl _) (worker_hash_le _) (Or.inl rfl)
  have hi : i = worker_hash (bytes "Hamburg") := by omega
  rw [hi] at h6
  exact h6 rfl (by decide)

set_option maxRecDepth 4000 in
theorem axus_hash : worker_hash (bytes "aXus") = MASK := by decide

set_option maxRecDepth 4000 in
theorem bxus_hash : worker_hash (bytes "bXus") = MASK := by decide

/-- C12 as stated fails on the table that a worker builds from `aXus;1.0\n`: slot 0 is
empty, the incremental hash of `aXus` and of `bXus` is 65535, slot 65535 holds
`aXus`, and the step for a record `bXus;2.0` probes that one slot, creates nothing,
updates nothing and leaves the table as it was.  The worker on
`aXus;1.0\nbXus;2.0\n` returns a table without `bXus`. -/
theorem probing_lands_counterexample :
    ∃ w w', process_chunk_state (bytes "aXus;1.0\n") 0 9 = some w ∧
      slot_empty (w.table.result.idx_map 0) = true ∧
      entries w.table.result = [(bytes "aXus", ⟨10, 1, 10, 10⟩)] ∧
      insert_reading w.table (worker_hash (bytes "bXus")) (bytes "bXus") 20
        = some { w.table with lost := w.table.lost + 1 } ∧
      process_chunk_state (bytes "aXus;1.0\nbXus;2.0\n") 0 18 = some w' ∧
      entries w'.table.result = [(bytes "aXus", ⟨10, 1, 10, 10⟩)] := by
  have hwa : (⟨bytes "aXus", false, none, 1, 0⟩ : Reading).wf := by decide
  have hwb : (⟨bytes "bXus", false, none, 2, 0⟩ : Reading).wf := by decide
  obtain ⟨w, h1, h2, _⟩ := single_worker [] [] ⟨bytes "aXus", false, none, 1, 0⟩ hwa
  have hlost : table_add w.table MASK (bytes "bXus") ⟨20, 1, 20, 20⟩
      = some { w.table with lost := w.table.lost + 1 } :=
    table_add_lost worker_hash w.table _ (bytes "bXus") (bytes "aXus") _ ⟨10, 1, 10, 10⟩ h2
      (wf_clean hwb) (List.mem_singleton.mpr rfl) axus_hash (by decide)
  have h0 : slot_empty (w.table.result.idx_map 0) = true := by
    cases ho : slot_empty (w.table.result.idx_map 0) with
    | true => rfl
    | false =>
      have hmem := (h2.mem_iff (w.table.result.idx_map 0).name
        (slot_stats w.table.result (w.table.result.idx_map 0))).mpr
          ⟨0, Nat.zero_le _, ho, rfl, rfl⟩
      have hn : (w.table.result.idx_map 0).name = bytes "aXus" :=
        (Prod.mk.inj (List.mem_singleton.mp hmem)).1
      have hc := (h2.chain 0 (Nat.zero_le _) ho).1
      rw [hn, axus_hash] at hc
      exact absurd hc (by decide)
  have hstate := process_chunk_state_encode [] []
    [⟨bytes "aXus", false, none, 1, 0⟩, ⟨bytes "bXus", false, none, 2, 0⟩]
    (by decide)
  have h1' := process_chunk_state_encode [] [] [⟨bytes "aXus", false, none, 1, 0⟩] (by decide)
  rw [h1] at h1'
  cases ha : add_readings empty_table [⟨bytes "aXus", false, none, 1, 0⟩] with
  | none => rw [ha] at h1'; cases h1'
  | some ta =>
    rw [ha, Option.map_some'] at h1'
    have hta : ta = w.table := by
      have := Option.some.inj h1'
      rw [this]
    rw [add_readings_cons] at ha
    rw [add_readings_cons] at hstate
    cases hadd : table_add empty_table (worker_hash (bytes "aXus")) (bytes "aXus")
        (⟨bytes "aXus", false, none, 1, 0⟩ : Reading).stats with
    | none =>
      have ha' := ha
      simp only [] at ha'
      rw [hadd] at ha'
      cases ha'
    | some t1 =>
      have ha' := ha
      simp only [] at ha'
      rw [hadd] at ha'
      have ht1 : t1 = w.table := by
        have : some t1 = some ta := ha'
        rw [← hta]
        exact Option.some.inj this
      simp only [] at hstate
      rw [hadd, Option.some_bind, add_readings_cons] at hstate
      simp only [] at hstate
      rw [ht1, bxus_hash] at hstate
      have hl' : table_add w.table MASK (bytes "bXus")
          (⟨bytes "bXus", false, none, 2, 0⟩ : Reading).stats
            = some { w.table with lost := w.table.lost + 1 } := hlost
      rw [hl'] at hstate
      refine ⟨w, _, h1, h0, entries_single h2, ?_, hstate, ?_⟩
      · rw [insert_reading_eq, bxus_hash]
        exact hlost
      · show entries w.table.result = _
        exact entries_single h2

/-- C13 evaluated on the record `Hamburg;12.0\n`.  The scan of `process_chunk` stores
the name `Hamburg` and leaves the loop with a hash that masks to 54005, the FNV-1a
hash of `amburg`: the first byte of the name is stored but never hashed.  `fnv_hash`
on `Hamburg` is 39115.  The worker puts the entry in slot 54005 of its table and
leaves slot 39115 empty. -/
theorem worker_hash_skips_first_byte :
    (name_loop (bytes "Hamburg;12.0\n") 0 99 1 [72] FNV_OFFSET_BASIS).map
        (fun p => (p.1, p.2.1, p.2.2 &&& MASK)) = some (7, bytes "Hamburg", 54005) ∧
    fnv_hash (bytes "amburg") = 54005 ∧
    fnv_hash (bytes "Hamburg") = 39115 ∧
    (process_chunk (bytes "Hamburg;12.0\n") 0 13).map
        (fun r => ((r.idx_map 54005).name, slot_empty (r.idx_map 39115)))
      = some (bytes "Hamburg", true) := by
  refine ⟨by decide, by decide, by decide, by decide⟩

/-- The worker on a range of well-formed records with names from `allowed` returns a
table that stands for an association list with names from `allowed`. -/
theorem worker_rep (allowed : List (List Nat)) (hcap : allowed.dedup.length ≤ NUM_STATIONS)
    (pre post : List Nat) (rs : List Reading) (hwf : ∀ r ∈ rs, r.wf)
    (hsub : rs.map Reading.name ⊆ allowed) :
    ∃ w m, process_chunk_state (pre ++ encode rs ++ post) pre.length (encode rs).length = some w ∧
      Rep worker_hash w.table m ∧ m.map Prod.fst ⊆ allowed := by
  obtain ⟨t, landed, h1, h2, h3, _⟩ := add_readings_spec rs allowed hwf hsub hcap
  have hstate := process_chunk_state_encode pre post rs hwf
  rw [h1, Option.map_some'] at hstate
  refine ⟨_, _, hstate, h3, ?_⟩
  apply amap_add_all_keys_subset _ [] (by simp)
  intro n hn
  rw [List.map_map] at hn
  obtain ⟨r, hr, rfl⟩ := List.mem_map.mp hn
  exact hsub (List.mem_map_of_mem _ (h2.subset hr))

/-- The loop over `res_idx` on any list of slots is a run of probes for the occupied
ones. -/
theorem merge_slots_eq (t : Table) (r : Result) (l : List Nat) :
    l.foldlM (merge_slot r) t
      = add_items fnv_hash t
          (((l.map r.idx_map).filter (fun m => !slot_empty m)).map
            (fun m => (m.name, slot_stats r m))) := by
  unfold add_items
  have h1 : merge_slot r = fun t i =>
      if slot_empty (r.idx_map i) then some t
      else table_add t (fnv_hash (r.idx_map i).name) (r.idx_map i).name
        (slot_stats r (r.idx_map i)) := by
    funext t i
    exact merge_slot_eq r t i
  rw [h1, List.foldlM_map, List.filter_map, List.foldlM_map]
  exact foldlM_skip (fun i => slot_empty (r.idx_map i)) _ _ t

/-- Folding the first `k` slots of a worker's table into the merged table. -/
theorem merge_slots_rep (allowed : List (List Nat)) (hcap : allowed.dedup.length ≤ NUM_STATIONS)
    (t : Table) (M : List (List Nat × Stats)) (tw : Table) (mw : List (List Nat × Stats))
    (hrep : Rep fnv_hash t M) (hsub : M.map Prod.fst ⊆ allowed) (hw : Rep worker_hash tw mw)
    (hwsub : mw.map Prod.fst ⊆ allowed) (k : Nat) (hk : k ≤ MASK + 1) :
    ∃ t' M', merge_slots t tw.result k = some t' ∧ Rep fnv_hash t' M' ∧
      M'.map Prod.fst ⊆ allowed := by
  rw [merge_slots, merge_slots_eq]
  have hitems : ∀ it ∈ (((List.range k).map tw.result.idx_map).filter
      (fun m => !slot_empty m)).map (fun m => (m.name, slot_stats tw.result m)),
      clean it.1 ∧ it.1 ∈ allowed := by
    intro it hit
    obtain ⟨mm, hmm, rfl⟩ := List.mem_map.mp hit
    obtain ⟨hmm1, hmm2⟩ := List.mem_filter.mp hmm
    obtain ⟨i, hi, rfl⟩ := List.mem_map.mp hmm1
    rw [List.mem_range] at hi
    have ho : slot_empty (tw.result.idx_map i) = false := by simpa using hmm2
    refine ⟨hw.clean i (by omega) ho, hwsub ?_⟩
    exact List.mem_map_of_mem Prod.fst
      ((hw.mem_iff _ (slot_stats tw.result (tw.result.idx_map i))).mpr
        ⟨i, by omega, ho, rfl, rfl⟩)
  obtain ⟨t', landed, h1, h2, h3, _⟩ := add_items_spec fnv_hash fnv_hash_le allowed hcap
    _ t M hrep hitems hsub
  refine ⟨t', _, h1, h3, ?_⟩
  apply amap_add_all_keys_subset landed M hsub
  intro x hx
  obtain ⟨it, hit, rfl⟩ := List.mem_map.mp hx
  exact (hitems it (h2.subset hit)).2

/-- Folding worker tables into the merged table keeps it a table that stands for an
association list with names from `allowed`. -/
theorem merge_all_rep (allowed : List (List Nat)) (hcap : allowed.dedup.length ≤ NUM_STATIONS) :
    ∀ (tws : List Table),
      (∀ tw ∈ tws, ∃ mw, Rep worker_hash tw mw ∧ mw.map Prod.fst ⊆ allowed) →
      ∀ (t : Table) (M : List (List Nat × Stats)), Rep fnv_hash t M → M.map Prod.fst ⊆ allowed →
        ∃ t' M', (tws.map (fun tw => tw.result)).foldlM merge_result t = some t' ∧
          Rep fnv_hash t' M' ∧ M'.map Prod.fst ⊆ allowed
  | [], _, t, M, hrep, hsub => ⟨t, M, rfl, hrep, hsub⟩
  | tw :: tws, htws, t, M, hrep, hsub => by
    obtain ⟨mw, hw, hwsub⟩ := htws tw (List.mem_cons_self _ _)
    obtain ⟨t1, landed, e1, _, e3, e4, _⟩ := merge_result_spec allowed hcap t M tw mw hrep hsub
      hw hwsub
    obtain ⟨t', M', f1, f2, f3⟩ := merge_all_rep allowed hcap tws
      (fun x hx => htws x (List.mem_cons_of_mem _ hx)) t1 _ e3 e4
    refine ⟨t', M', ?_, f2, f3⟩
    rw [List.map_cons, List.foldlM_cons, e1]
    exact f1

/-- Workers on ranges of well-formed records with names from `allowed` return tables
that stand for association lists with names from `allowed`. -/
theorem workers_rep (allowed : List (List Nat)) (hcap : allowed.dedup.length ≤ NUM_STATIONS) :
    ∀ (inputs : List (List Nat × List Reading × List Nat)),
      (∀ i ∈ inputs, (∀ r ∈ i.2.1, r.wf) ∧ i.2.1.map Reading.name ⊆ allowed) →
      ∃ ws, inputs.mapM run_worker = some ws ∧
        ∀ w ∈ ws, ∃ m, Rep worker_hash w.table m ∧ m.map Prod.fst ⊆ allowed
  | [], _ => ⟨[], rfl, fun w hw => absurd hw (List.not_mem_nil w)⟩
  | i :: inputs, h => by
    obtain ⟨hwf, hsub⟩ := h i (List.mem_cons_self _ _)
    obtain ⟨w, m, h1, h2, h3⟩ := worker_rep allowed hcap i.1 i.2.2 i.2.1 hwf hsub
    obtain ⟨ws, h4, h5⟩ := workers_rep allowed hcap inputs
      (fun x hx => h x (List.mem_cons_of_mem _ hx))
    refine ⟨w :: ws, ?_, ?_⟩
    · have hr : run_worker i = some w := h1
      rw [List.mapM_cons, hr, h4]
      rfl
    · intro x hx
      rcases List.mem_cons.mp hx with rfl | hx
      · exact ⟨m, h2, h3⟩
      · exact h5 x hx

/-- A table that stands for an association list with names from a list of at most
10000 distinct names has created at most 10000 entries. -/
theorem rep_station_idx_le {h : List Nat → Nat} {t : Table} {m : List (List Nat × Stats)}
    {allowed : List (List Nat)} (hrep : Rep h t m) (hsub : m.map Prod.fst ⊆ allowed)
    (hcap : allowed.dedup.length ≤ NUM_STATIONS) : t.station_idx ≤ NUM_STATIONS := by
  have h2 : m.map Prod.fst ⊆ allowed.dedup := fun x hx => List.mem_dedup.mpr (hsub hx)
  have h3 := (List.subperm_of_subset hrep.nodup h2).length_le
  rw [List.length_map, hrep.length] at h3
  omega

/-- The states that the pipeline goes through: the workers' tables, the merged table
after whole worker tables, and the merged table after the first `k` slots of one
more worker table.  Each stands for an association list and has created at most
10000 entries. -/
theorem reachable_rep (inputs : List (List Nat × List Reading × List Nat))
    (next : List Nat × List Reading × List Nat) (k : Nat)
    (hwf : ∀ i ∈ inputs ++ [next], ∀ r ∈ i.2.1, r.wf)
    (hcap : (((inputs ++ [next]).flatMap (fun i => i.2.1)).map Reading.name).dedup.length
      ≤ NUM_STATIONS)
    (hk : k ≤ MASK + 1) :
    ∃ ws wn T T', inputs.mapM run_worker = some ws ∧ run_worker next = some wn ∧
      sum_results_state (ws.map (fun w => w.table.result)) = some T ∧
      merge_slots T wn.table.result k = some T' ∧
      (∀ w ∈ wn :: ws, (∃ m, Rep worker_hash w.table m) ∧
        w.table.station_idx ≤ NUM_STATIONS) ∧
      (∀ t ∈ [T, T'], (∃ M, Rep fnv_hash t M) ∧ t.station_idx ≤ NUM_STATIONS) := by
  have hall : ∀ i ∈ inputs ++ [next], (∀ r ∈ i.2.1, r.wf) ∧ i.2.1.map Reading.name
      ⊆ ((inputs ++ [next]).flatMap (fun i => i.2.1)).map Reading.name := by
    intro i hi
    refine ⟨hwf i hi, ?_⟩
    intro n hn
    obtain ⟨r, hr, rfl⟩ := List.mem_map.mp hn
    exact List.mem_map_of_mem _ (List.mem_flatMap.mpr ⟨i, hi, hr⟩)
  obtain ⟨ws, h1, h2⟩ := workers_rep _ hcap inputs
    (fun i hi => hall i (List.mem_append_left _ hi))
  obtain ⟨wl, h3, h4⟩ := workers_rep _ hcap [next]
    (fun i hi => hall i (List.mem_append_right _ hi))
  obtain ⟨wn, bs, h5, h6, rfl⟩ := mapM_cons_some run_worker next [] wl h3
  obtain ⟨mn, hn1, hn2⟩ := h4 wn (List.mem_cons_self _ _)
  obtain ⟨T, M, e1, e2, e3⟩ := merge_all_rep _ hcap (ws.map (fun w => w.table))
    (by
      intro tw htw
      obtain ⟨w, hw, rfl⟩ := List.mem_map.mp htw
      exact h2 w hw)
    empty_table [] (rep_empty _) (by simp)
  rw [List.map_map] at e1
  obtain ⟨T', M', f1, f2, f3⟩ := merge_slots_rep _ hcap T M wn.table mn e2 e3 hn1 hn2 k hk
  refine ⟨ws, wn, T, T', h1, h5, e1, f1, ?_, ?_⟩
  · intro w hw
    rcases List.mem_cons.mp hw with rfl | hw
    · exact ⟨⟨mn, hn1⟩, rep_station_idx_le hn1 hn2 hcap⟩
    · obtain ⟨m, hm1, hm2⟩ := h2 w hw
      exact ⟨⟨m, hm1⟩, rep_station_idx_le hm1 hm2 hcap⟩
  · intro t ht
    simp only [List.mem_cons, List.mem_singleton, List.not_mem_nil, or_false] at ht
    rcases ht with rfl | rfl
    · exact ⟨⟨M, e2⟩, rep_station_idx_le e2 e3 hcap⟩
    · exact ⟨⟨M', f2⟩, rep_station_idx_le f2 f3 hcap⟩

theorem mem_occupied (im : Nat → MapStruct) (i : Nat) :
    i ∈ occupied im ↔ i ≤ MASK ∧ slot_empty (im i) = false := by
  unfold occupied
  rw [List.mem_filter, List.mem_range]
  simp
  omega

theorem occupied_nodup (im : Nat → MapStruct) : (occupied im).Nodup :=
  (List.nodup_range _).filter _

theorem occupied_length (r : Result) : (occupied r.idx_map).length = (entries r).length := by
  unfold occupied entries
  rw [List.length_map, List.filter_map, List.length_map]
  rfl

/-- A nodup list of `k` numbers below `k` holds every number below `k`. -/
theorem mem_of_nodup_lt (l : List Nat) (k : Nat) (hnd : l.Nodup) (hlt : ∀ x ∈ l, x < k)
    (hlen : l.length = k) (a : Nat) (ha : a < k) : a ∈ l := by
  have hsub : l.toFinset ⊆ Finset.range k := by
    intro x hx
    rw [Finset.mem_range]
    exact hlt x (List.mem_toFinset.mp hx)
  have hcard : (Finset.range k).card ≤ l.toFinset.card := by
    rw [List.toFinset_card_of_nodup hnd, Finset.card_range, hlen]
  have heq := Finset.eq_of_subset_of_card_le hsub hcard
  have : a ∈ l.toFinset := by
    rw [heq, Finset.mem_range]
    exact ha
  exact List.mem_toFinset.mp this

/-- A table that stands for an association list has dense indices. -/
theorem rep_dense {h : List Nat → Nat} {t : Table} {m : List (List Nat × Stats)}
    (hrep : Rep h t m) : dense_indices t := by
  have hlen : (occupied t.result.idx_map).length = t.station_idx := by
    rw [occupied_length, (rep_entries_perm hrep).length_eq, hrep.length]
  have hexact : ∀ a, a < t.station_idx ↔
      ∃ i, i ≤ MASK ∧ slot_empty (t.result.idx_map i) = false ∧
        (t.result.idx_map i).idx = a := by
    intro a
    constructor
    · intro ha
      have hnd : ((occupied t.result.idx_map).map (fun i => (t.result.idx_map i).idx)).Nodup := by
        apply List.Nodup.map_on _ (occupied_nodup _)
        intro x hx y hy hxy
        rw [mem_occupied] at hx hy
        exact hrep.idx_inj x y hx.1 hy.1 hx.2 hy.2 hxy
      have hmem := mem_of_nodup_lt _ t.station_idx hnd
        (by
          intro x hx
          obtain ⟨i, hi, rfl⟩ := List.mem_map.mp hx
          rw [mem_occupied] at hi
          exact hrep.idx_lt i hi.1 hi.2)
        (by rw [List.length_map, hlen]) a ha
      obtain ⟨i, hi, hia⟩ := List.mem_map.mp hmem
      rw [mem_occupied] at hi
      exact ⟨i, hi.1, hi.2, hia⟩
    · rintro ⟨i, hi, ho, rfl⟩
      exact hrep.idx_lt i hi ho
  refine ⟨hlen, hrep.idx_inj, hexact, ?_⟩
  constructor
  · intro hall
    by_contra hgt
    obtain ⟨i, hi, ho, hidx⟩ := (hexact NUM_STATIONS).mp (by omega)
    have := hall i hi ho
    omega
  · intro hle i hi ho
    have := hrep.idx_lt i hi ho
    omega

/-- C14 (unique keys invariant).  Workers run on ranges of well-formed records, with
at most 10000 distinct names in all; the reducer folds the tables of the workers
`inputs` and then the first `k` slots of the table of one more worker, `next`.  All
these runs return tables, and in each of them (every worker's table, the merged
table after whole worker tables, and the merged table in the middle of a worker
table) no two occupied slots hold equal names.  A state after fewer steps is the
state of a shorter range, a shorter list of workers or a smaller `k`. -/
theorem unique_keys_invariant (inputs : List (List Nat × List Reading × List Nat))
    (next : List Nat × List Reading × List Nat) (k : Nat)
    (hwf : ∀ i ∈ inputs ++ [next], ∀ r ∈ i.2.1, r.wf)
    (hcap : (((inputs ++ [next]).flatMap (fun i => i.2.1)).map Reading.name).dedup.length
      ≤ NUM_STATIONS)
    (hk : k ≤ MASK + 1) :
    ∃ ws wn T T', inputs.mapM run_worker = some ws ∧ run_worker next = some wn ∧
      sum_results_state (ws.map (fun w => w.table.result)) = some T ∧
      merge_slots T wn.table.result k = some T' ∧
      (∀ w ∈ wn :: ws, unique_keys w.table.result.idx_map) ∧
      unique_keys T.result.idx_map ∧ unique_keys T'.result.idx_map := by
  obtain ⟨ws, wn, T, T', h1, h2, h3, h4, h5, h6⟩ := reachable_rep inputs next k hwf hcap hk
  refine ⟨ws, wn, T, T', h1, h2, h3, h4, ?_, ?_, ?_⟩
  · intro w hw
    obtain ⟨⟨m, hm⟩, _⟩ := h5 w hw
    exact rep_huniq hm
  · obtain ⟨⟨M, hM⟩, _⟩ := h6 T (List.mem_cons_self _ _)
    exact rep_huniq hM
  · obtain ⟨⟨M, hM⟩, _⟩ := h6 T' (List.mem_cons_of_mem _ (List.mem_cons_self _ _))
    exact rep_huniq hM

/-- C14 on the two ranges of `Hamburg;12.0\nBulawayo;8.9\nHamburg;10.0\n`, merged and
followed by the first 30000 slots of the table of a worker on `Bulawayo;8.9\n`. -/
theorem unique_keys_invariant_witness :
    ∃ ws wn T T', hamburg_inputs.mapM run_worker = some ws ∧
      run_worker ([], [⟨bytes "Bulawayo", false, none, 8, 9⟩], []) = some wn ∧
      sum_results_state (ws.map (fun w => w.table.result)) = some T ∧
      merge_slots T wn.table.result 30000 = some T' ∧
      (∀ w ∈ wn :: ws, unique_keys w.table.result.idx_map) ∧
      unique_keys T.result.idx_map ∧ unique_keys T'.result.idx_map :=
  unique_keys_invariant hamburg_inputs ([], [⟨bytes "Bulawayo", false, none, 8, 9⟩], []) 30000
    (by decide) (by decide) (by decide)

/-- C18 (backing-array index invariant).  Workers run on ranges of well-formed
records, with at most 10000 distinct names in all; the reducer folds the tables of
the workers `inputs` and then the first `k` slots of the table of one more worker,
`next`.  All these runs return tables, and in each of them the `idx` fields of the
occupied slots are pairwise distinct and are exactly the numbers below
`station_idx`, which is the number of occupied slots; all of them are below 10000
exactly when `station_idx` is at most 10000, which it is. -/
theorem index_invariant (inputs : List (List Nat × List Reading × List Nat))
    (next : List Nat × List Reading × List Nat) (k : Nat)
    (hwf : ∀ i ∈ inputs ++ [next], ∀ r ∈ i.2.1, r.wf)
    (hcap : (((inputs ++ [next]).flatMap (fun i => i.2.1)).map Reading.name).dedup.length
      ≤ NUM_STATIONS)
    (hk : k ≤ MASK + 1) :
    ∃ ws wn T T', inputs.mapM run_worker = some ws ∧ run_worker next = some wn ∧
      sum_results_state (ws.map (fun w => w.table.result)) = some T ∧
      merge_slots T wn.table.result k = some T' ∧
      (∀ w ∈ wn :: ws, dense_indices w.table ∧ w.table.station_idx ≤ NUM_STATIONS) ∧
      (dense_indices T ∧ T.station_idx ≤ NUM_STATIONS) ∧
      (dense_indices T' ∧ T'.station_idx ≤ NUM_STATIONS) := by
  obtain ⟨ws, wn, T, T', h1, h2, h3, h4, h5, h6⟩ := reachable_rep inputs next k hwf hcap hk
  refine ⟨ws, wn, T, T', h1, h2, h3, h4, ?_, ?_, ?_⟩
  · intro w hw
    obtain ⟨⟨m, hm⟩, hle⟩ := h5 w hw
    exact ⟨rep_dense hm, hle⟩
  · obtain ⟨⟨M, hM⟩, hle⟩ := h6 T (List.mem_cons_self _ _)
    exact ⟨rep_dense hM, hle⟩
  · obtain ⟨⟨M, hM⟩, hle⟩ := h6 T' (List.mem_cons_of_mem _ (List.mem_cons_self _ _))
    exact ⟨rep_dense hM, hle⟩

/-- C18 on the two ranges of `Hamburg;12.0\nBulawayo;8.9\nHamburg;10.0\n`, merged and
followed by the first 30000 slots of the table of a worker on `Bulawayo;8.9\n`. -/
theorem index_invariant_witness :
    ∃ ws wn T T', hamburg_inputs.mapM run_worker = some ws ∧
      run_worker ([], [⟨bytes "Bulawayo", false, none, 8, 9⟩], []) = some wn ∧
      sum_results_state (ws.map (fun w => w.table.result)) = some T ∧
      merge_slots T wn.table.result 30000 = some T' ∧
      (∀ w ∈ wn :: ws, dense_indices w.table ∧ w.table.station_idx ≤ NUM_STATIONS) ∧
      (dense_indices T ∧ T.station_idx ≤ NUM_STATIONS) ∧
      (dense_indices T' ∧ T'.station_idx ≤ NUM_STATIONS) :=
  index_invariant hamburg_inputs ([], [⟨bytes "Bulawayo", false, none, 8, 9⟩], []) 30000
    (by decide) (by decide) (by decide)

/-- C15 as stated fails on the record `Hamburg;12.0\n` in a fresh table: the parsed
value is `v = 120`, the probe from slot 54005 stops there on an empty slot, and the
entry that `process_chunk` creates has sum 120, minimum 120, maximum 120 and count 1,
not count 120. -/
theorem new_entry_counterexample :
    parse_temperature (bytes "Hamburg;12.0\n") 7 = (120, 13) ∧
    probe empty_table.result.idx_map (bytes "Hamburg") (MASK + 1 - 54005) 54005 = some 54005 ∧
    slot_empty (empty_table.result.idx_map 54005) = true ∧
    (process_chunk (bytes "Hamburg;12.0\n") 0 13).map
        (fun r => ((r.idx_map 54005).name, slot_stats r (r.idx_map 54005)))
      = some (bytes "Hamburg", ⟨120, 1, 120, 120⟩) ∧
    ((⟨120, 1, 120, 120⟩ : Stats).count : Int) ≠ 120 := by
  refine ⟨by decide, by decide, by decide, by decide, by decide⟩

/-- C15 (new entry values), with the count that the code stores.  When the probe of
`process_chunk` for a record with name `station_name` and parsed value `v` stops on
an empty slot `i`, and the statistics arrays have room, the step returns a table in
which slot `i` holds the name and the index `station_idx`, the entry of that index
has sum `v`, count 1, minimum `v` and maximum `v`, and `station_idx` has grown by
one. -/
theorem new_entry_values (t : Table) (name_hash i : Nat) (station_name : List Nat) (v : Int)
    (hprobe : probe t.result.idx_map station_name (MASK + 1 - name_hash) name_hash = some i)
    (hempty : slot_empty (t.result.idx_map i) = true)
    (hroom : t.station_idx < NUM_STATIONS) :
    ∃ t', insert_reading t name_hash station_name v = some t' ∧
      (t'.result.idx_map i).name = station_name ∧
      (t'.result.idx_map i).idx = t.station_idx ∧
      slot_stats t'.result (t'.result.idx_map i) = ⟨v, 1, v, v⟩ ∧
      t'.station_idx = t.station_idx + 1 ∧ t'.lost = t.lost := by
  have hadd : insert_reading t name_hash station_name v
      = some (table_create t i station_name ⟨v, 1, v, v⟩) := by
    rw [insert_reading_eq]
    unfold table_add
    rw [hprobe]
    simp only [hempty, if_true]
    rw [if_neg (by omega)]
  have hslot : (table_create t i station_name ⟨v, 1, v, v⟩).result.idx_map i
      = ⟨station_name, t.station_idx⟩ := by
    simp [table_create]
  refine ⟨_, hadd, by rw [hslot], by rw [hslot], ?_, rfl, rfl⟩
  rw [slot_stats_create, hslot, if_pos rfl]

/-- C15 on the record `Hamburg;12.0` and a fresh table. -/
theorem new_entry_values_witness :
    ∃ t', insert_reading empty_table 54005 (bytes "Hamburg") 120 = some t' ∧
      (t'.result.idx_map 54005).name = bytes "Hamburg" ∧
      slot_stats t'.result (t'.result.idx_map 54005) = ⟨120, 1, 120, 120⟩ := by
  obtain ⟨t', h1, h2, _, h4, _⟩ := new_entry_values empty_table 54005 54005 (bytes "Hamburg") 120
    (by decide) (by decide) (by decide)
  exact ⟨t', h1, h2, h4⟩

/-- C16 (single worker).  For a buffer of `S >= 1` bytes (a `size_t`) and any
`chunk_size`, `generate_chunk_indices` with `num_threads = 1` returns one range,
from byte 0 to byte `S - 1`; the bytes of that range are the whole buffer. -/
theorem single_thread_range (data : List Nat) (chunk_size : Nat) (hS : 1 ≤ data.length)
    (hsize : data.length < SIZE_MOD) :
    generate_chunk_indices 1 data.length data chunk_size = [⟨0, data.length - 1⟩] ∧
    chunk_bytes data ⟨0, data.length - 1⟩ = data := by
  constructor
  · unfold generate_chunk_indices
    rw [last_idx_eq hS hsize]
    rfl
  · unfold chunk_bytes
    rw [chunk_len_eq (by omega) (by omega)]
    simp only [List.drop_zero]
    apply List.take_of_length_le
    omega

/-- C16 on the buffer `Hamburg;12.0\nBulawayo;8.9\nHamburg;10.0\n` with the chunk
size 39 that `main` would compute for one worker. -/
theorem single_thread_range_witness :
    generate_chunk_indices 1 39 (bytes "Hamburg;12.0\nBulawayo;8.9\nHamburg;10.0\n") 39
      = [⟨0, 38⟩] :=
  (single_thread_range (bytes "Hamburg;12.0\nBulawayo;8.9\nHamburg;10.0\n") 39 (by decide)
    (by decide)).1

theorem records_before_nil (e : Nat) : ∀ (rs : List Reading) (p : Nat), e ≤ p →
    records_before e p rs = []
  | [], _, _ => rfl
  | r :: rs, p, h => by
    rw [records_before, if_neg (by omega)]
    exact records_before_nil e rs _ (by omega)

theorem records_before_split (e : Nat) : ∀ (tail : List Reading) (p : Nat), e ≤ after p tail →
    ∃ rest, tail = records_before e p tail ++ rest ∧
      (∀ s ∈ starts p (records_before e p tail), s < e) ∧
      e ≤ after p (records_before e p tail)
  | [], p, h => ⟨[], rfl, fun s hs => by simp [records_before, starts] at hs, h⟩
  | r :: rs, p, h => by
    by_cases hp : p < e
    · obtain ⟨rest, h1, h2, h3⟩ := records_before_split e rs (p + r.text.length + 1) h
      refine ⟨rest, ?_, ?_, ?_⟩
      · rw [records_before, if_pos hp, List.cons_append, ← h1]
      · rw [records_before, if_pos hp]
        intro s hs
        simp only [starts, List.mem_cons] at hs
        rcases hs with rfl | hs
        · exact hp
        · exact h2 s hs
      · rw [records_before, if_pos hp]
        exact h3
    · have hnil : records_before e p (r :: rs) = [] := records_before_nil e _ p (by omega)
      rw [hnil]
      exact ⟨r :: rs, rfl, fun s hs => by simp [starts] at hs, by simp only [after]; omega⟩

theorem starts_bound : ∀ (rs : List Reading) (p e : Nat), (∀ s ∈ starts p rs, s < e) → p ≤ e →
    p + rs.length ≤ e
  | [], _, _, _, h => by simpa using h
  | r :: rs, p, e, h, _ => by
    have hp : p < e := h p (by simp [starts])
    by_cases hrs : rs = []
    · subst hrs
      simp
      omega
    · obtain ⟨r', rs', rfl⟩ := List.exists_cons_of_ne_nil hrs
      have hp' : p + r.text.length + 1 < e := h _ (by simp [starts])
      have ih := starts_bound (r' :: rs') (p + r.text.length + 1) e
        (fun s hs => h s (by simp only [starts, List.mem_cons] at hs ⊢; exact Or.inr hs))
        (by omega)
      simp only [List.length_cons] at ih ⊢
      omega

/-- The worker on a range that starts at a record start and ends anywhere in the
buffer makes one probe for each record that starts in the range, in order, and stops
after the last of them. -/
theorem process_chunk_state_range (before tail : List Reading) (len : Nat)
    (hwf : ∀ r ∈ tail, r.wf)
    (hlen : (encode before).length + len ≤ (encode (before ++ tail)).length) :
    process_chunk_state (encode (before ++ tail)) (encode before).length len
      = (add_readings empty_table
          (records_before ((encode before).length + len) (encode before).length tail)).map
          (fun t => ⟨t, after (encode before).length
            (records_before ((encode before).length + len) (encode before).length tail)⟩) := by
  have hafter : (encode before).length + len ≤ after (encode before).length tail := by
    rw [after_encode, ← List.length_append, ← encode_append]
    exact hlen
  obtain ⟨rest, h1, h2, h3⟩ := records_before_split _ tail _ hafter
  generalize records_before ((encode before).length + len) (encode before).length tail = sel
    at h1 h2 h3 ⊢
  subst h1
  have hd : encode (before ++ (sel ++ rest)) = encode before ++ encode sel ++ encode rest := by
    rw [encode_append, encode_append, List.append_assoc]
  rw [hd, process_chunk_state]
  exact process_loop_spec _ _ sel len ⟨empty_table, (encode before).length⟩
    (fun r hr => hwf r (List.mem_append_left _ hr))
    (laid_encode sel (encode before) (encode rest)) h2 h3
    (by
      have := starts_bound sel (encode before).length _ h2 (by omega)
      omega)

/-- C17 (range end is checked only between records).  In a buffer made of the lines
of the records `before` and then of the well-formed records `tail` (at most 10000
distinct names), `process_chunk` on the range of `len` bytes that starts at the
first byte `p` of `tail` and lies within the buffer returns a table and leaves its
loop with `content` at or after the end of the range, just after the last record
that starts in the range.  The table is the one built by one insert-or-update step
for each record whose first byte lies in `[p, p + len)`, in order, with its whole
value; when no probe ran off the end of the slot array its entries are the names of
these records with the statistics of their values.  For `len = 0` no record is
aggregated and the table is the fresh one; for `len = 1` the records aggregated are
the first record of `tail` alone. -/
theorem range_end_between_records (before tail : List Reading) (len : Nat)
    (hwf : ∀ r ∈ tail, r.wf)
    (hcap : (tail.map Reading.name).dedup.length ≤ NUM_STATIONS)
    (hlen : (encode before).length + len ≤ (encode (before ++ tail)).length) :
    ∃ w, process_chunk_state (encode (before ++ tail)) (encode before).length len = some w ∧
      process_chunk (encode (before ++ tail)) (encode before).length len
        = some w.table.result ∧
      add_readings empty_table
        (records_before ((encode before).length + len) (encode before).length tail)
          = some w.table ∧
      w.content = after (encode before).length
        (records_before ((encode before).length + len) (encode before).length tail) ∧
      (encode before).length + len ≤ w.content ∧
      (w.table.lost = 0 →
        (∀ n, n ∈ (entries w.table.result).map Prod.fst ↔
          n ∈ (records_before ((encode before).length + len) (encode before).length tail).map
            Reading.name) ∧
        (∀ n s, (n, s) ∈ entries w.table.result →
          IsStatsOf (values (records_before ((encode before).length + len)
            (encode before).length tail) n) s)) ∧
      (len = 0 →
        records_before ((encode before).length + len) (encode before).length tail = [] ∧
        w.table = empty_table) ∧
      (len = 1 → ∃ r rest, tail = r :: rest ∧
        records_before ((encode before).length + len) (encode before).length tail = [r]) := by
  have hstate := process_chunk_state_range before tail len hwf hlen
  have hafter : (encode before).length + len ≤ after (encode before).length tail := by
    rw [after_encode, ← List.length_append, ← encode_append]
    exact hlen
  obtain ⟨rest, h1, _, h3⟩ := records_before_split _ tail _ hafter
  have hsub : ∀ r ∈ records_before ((encode before).length + len) (encode before).length tail,
      r ∈ tail := by
    intro r hr
    rw [h1]
    exact List.mem_append_left _ hr
  obtain ⟨t, e1, e2⟩ := add_readings_table
    (records_before ((encode before).length + len) (encode before).length tail)
    (tail.map Reading.name) (fun r hr => hwf r (hsub r hr))
    (by
      intro n hn
      obtain ⟨r, hr, rfl⟩ := List.mem_map.mp hn
      exact List.mem_map_of_mem _ (hsub r hr))
    hcap
  rw [e1, Option.map_some'] at hstate
  refine ⟨_, hstate, by rw [process_chunk, hstate]; rfl, e1, rfl, h3,
    fun hl => ⟨(e2 hl).2.1, (e2 hl).2.2⟩, ?_, ?_⟩
  · intro h0
    have hnil : records_before ((encode before).length + len) (encode before).length tail
        = [] := records_before_nil _ _ _ (by omega)
    refine ⟨hnil, ?_⟩
    rw [hnil] at e1
    exact (Option.some.inj e1).symm
  · intro h1'
    cases tail with
    | nil =>
      rw [List.append_nil] at hlen
      omega
    | cons r rs =>
      refine ⟨r, rs, rfl, ?_⟩
      rw [records_before, if_pos (by omega), records_before_nil _ _ _ (by omega)]

/-- C17 on the buffer `Hamburg;12.0\nBulawayo;8.9\nHamburg;10.0\n`: the range of
length 1 at offset 13, the first byte of the second line, aggregates the record
`Bulawayo;8.9` in full and ends at offset 26; the range of length 0 at the same
offset aggregates nothing. -/
theorem range_end_between_records_witness :
    (∃ w, process_chunk_state (bytes "Hamburg;12.0\nBulawayo;8.9\nHamburg;10.0\n") 13 1
        = some w ∧
      add_readings empty_table [⟨bytes "Bulawayo", false, none, 8, 9⟩] = some w.table ∧
      w.content = 26) ∧
    (∃ w, process_chunk_state (bytes "Hamburg;12.0\nBulawayo;8.9\nHamburg;10.0\n") 13 0
        = some w ∧ w.table = empty_table) := by
  constructor
  · obtain ⟨w, h1, _, h3, h4, _⟩ := range_end_between_records
      [⟨bytes "Hamburg", false, some 1, 2, 0⟩]
      [⟨bytes "Bulawayo", false, none, 8, 9⟩, ⟨bytes "Hamburg", false, some 1, 0, 0⟩] 1
      (by decide) (by decide) (by decide)
    exact ⟨w, h1, h3, h4⟩
  · obtain ⟨w, h1, _, _, _, _, _, h7, _⟩ := range_end_between_records
      [⟨bytes "Hamburg", false, some 1, 2, 0⟩]
      [⟨bytes "Bulawayo", false, none, 8, 9⟩, ⟨bytes "Hamburg", false, some 1, 0, 0⟩] 0
      (by decide) (by decide) (by decide)
    exact ⟨w, h1, (h7 rfl).2⟩

/-- What the planner returns when the lookahead finds a newline at every stride. -/
theorem planner_strides (data : List Nat) (N : Nat) (hN : 1 ≤ N)
    (hfound : ∀ k, 1 ≤ k → k < N → memchr data 10 150 (k * (data.length / N)) ≠ none) :
    ∃ bs : List Nat, bs.length = N - 1 ∧
      generate_chunk_indices N data.length data (data.length / N)
        = mk_chunks (last_idx data.length) 0 bs ∧
      (∀ b ∈ bs, read data b = 10 ∧ b < data.length) ∧
      bs.Pairwise (fun a b => a ≤ b) := by
  have hrep : List.replicate N (⟨0, 0⟩ : Chunk) = ⟨0, 0⟩ :: List.replicate (N - 1) ⟨0, 0⟩ := by
    obtain ⟨n, rfl⟩ : ∃ n, N = n + 1 := ⟨N - 1, by omega⟩
    simp [List.replicate_succ]
  have hoff : ∀ j, j < N - 1 →
      data.length / N + j * (data.length / N) = (j + 1) * (data.length / N) := by
    intro j _
    ring
  obtain ⟨bs, hlen, hbs, heq⟩ := chunk_loop_found data data.length (data.length / N) (N - 1) 1
    (data.length / N) [] 0 rfl (by
      intro j hj
      rw [hoff j hj]
      exact Option.ne_none_iff_exists'.mp (hfound (j + 1) (by omega) (by omega)))
  have hmem : ∀ j (hj : j < bs.length),
      memchr data 10 150 ((j + 1) * (data.length / N)) = some bs[j] := by
    intro j hj
    rw [← hoff j (by omega), hbs j (by omega), List.getElem?_eq_getElem hj]
  refine ⟨bs, hlen, ?_, ?_, ?_⟩
  · unfold generate_chunk_indices
    simp only [hrep, List.set_cons_zero]
    simpa using heq
  · intro b hb
    obtain ⟨j, hj, rfl⟩ := List.mem_iff_getElem.mp hb
    have h := (memchr_some _ _ _ (hmem j hj)).2.2
    exact ⟨h, read_lt_of_ne_zero (by rw [h]; decide)⟩
  · rw [List.pairwise_iff_getElem]
    intro i j hi hj hij
    by_contra hlt
    have hi' := memchr_first _ _ _ (hmem i hi) bs[j] ?_ (by omega)
    · exact hi' (memchr_some _ _ _ (hmem j hj)).2.2
    · have h1 := (memchr_some _ _ _ (hmem j hj)).1
      have h2 : (i + 1) * (data.length / N) ≤ (j + 1) * (data.length / N) :=
        Nat.mul_le_mul_right _ (by omega)
      omega

/-- A newline of a buffer of well-formed lines followed by a text without newline
ends a record. -/
theorem newline_split_tail (rs : List Reading) (hwf : ∀ r ∈ rs, r.wf) (tail : List Nat)
    (htail : (10 : Nat) ∉ tail) (q : Nat) (hnl : read (encode rs ++ tail) q = 10) :
    ∃ g rest, rs = g ++ rest ∧ (encode g).length = q + 1 := by
  by_cases hq : q < (encode rs).length
  · rw [read_append_left hq] at hnl
    exact newline_split rs hwf q hq hnl
  · exfalso
    have hq' : q = (encode rs).length + (q - (encode rs).length) := by omega
    rw [hq', read_append_right] at hnl
    by_cases hlt : q - (encode rs).length < tail.length
    · have := read_mem hlt
      rw [hnl] at this
      exact htail this
    · have : read tail (q - (encode rs).length) = 0 := by
        unfold read
        rw [List.getD_eq_getElem?_getD, List.getElem?_eq_none (by omega)]
        rfl
      rw [this] at hnl
      exact absurd hnl (by decide)

theorem group_ranges_append : ∀ (gs gs' : List (List Reading)) (p : Nat),
    group_ranges p (gs ++ gs')
      = group_ranges p gs ++ group_ranges (p + (encode gs.flatten).length) gs'
  | [], gs', p => by simp [group_ranges, encode]
  | g :: gs, gs', p => by
    show (p, (encode g).length) :: group_ranges (p + (encode g).length) (gs ++ gs') = _
    rw [group_ranges_append gs gs' _]
    simp only [group_ranges, List.flatten_cons, encode_append, List.length_append,
      List.cons_append, Nat.add_assoc]

/-- The ranges cut at newlines of a buffer of well-formed lines followed by a text
without newline: the ranges of consecutive groups of its records, the last of them
taking the text in. -/
theorem chunks_groups_tail (data : List Nat) (last : Nat) (hlast : last + 1 = data.length)
    (hsize : data.length < SIZE_MOD) (tail : List Nat) (htail : (10 : Nat) ∉ tail) :
    ∀ (bs : List Nat) (s : Nat) (pre : List Nat) (rest : List Reading), (∀ r ∈ rest, r.wf) →
      data = pre ++ (encode rest ++ tail) → pre.length = s →
      (∀ b ∈ bs, read data b = 10 ∧ s ≤ b + 1 ∧ b < data.length) →
      bs.Pairwise (fun a b => a ≤ b) →
      ∃ (gs : List (List Reading)) (g_last : List Reading), gs.flatten ++ g_last = rest ∧
        gs.length = bs.length ∧
        (mk_chunks last s bs).map (fun c => (c.start_idx, chunk_len c))
          = group_ranges s gs
            ++ [(s + (encode gs.flatten).length, (encode g_last).length + tail.length)]
  | [], s, pre, rest, _, hdata, hpre, _, _ => by
    refine ⟨[], rest, by simp, rfl, ?_⟩
    have hlen := congrArg List.length hdata
    rw [List.length_append, List.length_append] at hlen
    simp only [mk_chunks, List.map_cons, List.map_nil, group_ranges, List.nil_append,
      List.flatten_nil, encode, List.map_nil, List.length_nil, Nat.add_zero]
    rw [chunk_len_eq (by omega) (by omega)]
    congr 2
    simp only [encode] at hlen
    omega
  | b :: bs, s, pre, rest, hwf, hdata, hpre, hbs, hsorted => by
    obtain ⟨hb1, hb2, hb3⟩ := hbs b (List.mem_cons_self _ _)
    rw [List.pairwise_cons] at hsorted
    have hbs' : ∀ b' ∈ bs, read data b' = 10 ∧ b + 1 ≤ b' + 1 ∧ b' < data.length := by
      intro b' hb'
      obtain ⟨h1, _, h3⟩ := hbs b' (List.mem_cons_of_mem _ hb')
      exact ⟨h1, Nat.succ_le_succ (hsorted.1 b' hb'), h3⟩
    have hlen := congrArg List.length hdata
    rw [List.length_append, List.length_append] at hlen
    rcases Nat.eq_or_lt_of_le hb2 with heq | hlt
    · obtain ⟨gs, gl, h1, h2, h3⟩ := chunks_groups_tail data last hlast hsize tail htail bs (b + 1)
        pre rest hwf hdata (by omega) hbs' hsorted.2
      refine ⟨[] :: gs, gl, by simpa using h1, by simp [h2], ?_⟩
      simp only [mk_chunks, List.map_cons, group_ranges, h3, List.cons_append,
        List.flatten_cons, List.nil_append]
      rw [chunk_len_eq (by omega) (by omega)]
      simp only [encode, List.map_nil, List.flatten_nil, List.length_nil, Nat.add_zero, heq]
      congr 2
      omega
    · have hnl : read (encode rest ++ tail) (b - s) = 10 := by
        have : b = pre.length + (b - s) := by omega
        rw [this, hdata, read_append_right] at hb1
        exact hb1
      obtain ⟨g, rest', h1, h2⟩ := newline_split_tail rest hwf tail htail (b - s) hnl
      subst h1
      obtain ⟨gs, gl, h3, h4, h5⟩ := chunks_groups_tail data last hlast hsize tail htail bs (b + 1)
        (pre ++ encode g) rest'
        (fun r hr => hwf r (List.mem_append_right _ hr))
        (by rw [hdata, encode_append, List.append_assoc, List.append_assoc])
        (by rw [List.length_append, h2]; omega) hbs' hsorted.2
      refine ⟨g :: gs, gl, by rw [List.flatten_cons, List.append_assoc, h3], by simp [h4], ?_⟩
      simp only [mk_chunks, List.map_cons, group_ranges, List.cons_append, List.flatten_cons]
      rw [chunk_len_eq (by omega) (by omega), h2]
      have e1 : b + 1 - s = b - s + 1 := by omega
      have e2 : s + (b - s + 1) = b + 1 := by omega
      rw [e1, e2, h5, encode_append, List.length_append, h2]
      have e3 : s + (b - s + 1 + (encode gs.flatten).length)
          = b + 1 + (encode gs.flatten).length := by omega
      rw [e3]

/-- The workers on the ranges of groups of well-formed records do not depend on the
bytes that follow the groups. -/
theorem group_ranges_mapM_congr :
    ∀ (gs : List (List Reading)) (pre post1 post2 : List Nat), (∀ g ∈ gs, ∀ r ∈ g, r.wf) →
      (group_ranges pre.length gs).mapM
          (fun p => process_chunk_state (pre ++ encode gs.flatten ++ post1) p.1 p.2)
        = (group_ranges pre.length gs).mapM
          (fun p => process_chunk_state (pre ++ encode gs.flatten ++ post2) p.1 p.2)
  | [], _, _, _, _ => rfl
  | g :: gs, pre, post1, post2, hwf => by
    have hd : ∀ post : List Nat, pre ++ encode (g :: gs).flatten ++ post
        = pre ++ encode g ++ (encode gs.flatten ++ post) := by
      intro post
      simp [encode_append]
    have hd' : ∀ post : List Nat, pre ++ encode g ++ encode gs.flatten ++ post
        = pre ++ encode g ++ (encode gs.flatten ++ post) := by
      intro post
      simp
    have ih := group_ranges_mapM_congr gs (pre ++ encode g) post1 post2
      (fun g' hg' => hwf g' (List.mem_cons_of_mem _ hg'))
    rw [hd' post1, hd' post2, List.length_append] at ih
    have hwfg := hwf g (List.mem_cons_self _ _)
    rw [hd post1, hd post2]
    simp only [group_ranges, List.mapM_cons]
    rw [process_chunk_state_encode pre (encode gs.flatten ++ post1) g hwfg,
      process_chunk_state_encode pre (encode gs.flatten ++ post2) g hwfg, ih]

theorem group_ranges_length : ∀ (gs : List (List Reading)) (p : Nat),
    (group_ranges p gs).length = gs.length
  | [], _ => rfl
  | g :: gs, p => by simp [group_ranges, group_ranges_length gs]

theorem mapM_append_option {α β : Type} (f : α → Option β) (l1 l2 : List α) :
    (l1 ++ l2).mapM f = (l1.mapM f).bind (fun a => (l2.mapM f).bind (fun b => some (a ++ b))) := by
  induction l1 with
  | nil =>
    simp only [List.nil_append, List.mapM_nil]
    cases l2.mapM f <;> rfl
  | cons x l1 ih =>
    simp only [List.cons_append, List.mapM_cons, ih]
    cases f x with
    | none => rfl
    | some y =>
      cases l1.mapM f with
      | none => rfl
      | some a =>
        cases l2.mapM f <;> rfl

/-- The workers of `main` on a file in the input format, when the planner finds a
newline at every stride: they are the workers on the ranges of consecutive groups of
the records of the file with a newline after every record. -/
theorem main_workers_file (rs : List Reading) (fin : Option Reading)
    (hne : file_records rs fin ≠ []) (hwf : ∀ r ∈ file_records rs fin, r.wf)
    (hsize : (encode_file rs fin).length < SIZE_MOD) (N : Nat) (hN : 1 ≤ N)
    (hfound : fin.isSome = true → ∀ k, 1 ≤ k → k < N →
      memchr (encode_file rs fin) 10 150 (k * ((encode_file rs fin).length / N)) ≠ none) :
    ∃ gs : List (List Reading), gs.flatten = file_records rs fin ∧ gs.length = N ∧
      main_workers N (encode_file rs fin)
        = (group_ranges 0 gs).mapM
          (fun p => process_chunk_state (encode (file_records rs fin)) p.1 p.2) := by
  cases fin with
  | none =>
    have h1 : encode_file rs none = encode rs := by simp [encode_file, last_text]
    have h2 : file_records rs none = rs := by simp [file_records]
    rw [h1] at hsize ⊢
    rw [h2] at hne hwf ⊢
    exact main_workers_groups rs hne hwf hsize N hN
  | some r =>
    have h1 : encode_file rs (some r) = encode rs ++ r.text := rfl
    have h2 : file_records rs (some r) = rs ++ [r] := rfl
    rw [h1] at hsize hfound ⊢
    rw [h2] at hwf ⊢
    have htext := text_length_pos r
    have hS : 1 ≤ (encode rs ++ r.text).length := by
      rw [List.length_append]
      omega
    obtain ⟨bs, hlen, heq, hnl, hsorted⟩ := planner_strides (encode rs ++ r.text) N hN
      (hfound rfl)
    rw [last_idx_eq hS hsize] at heq
    obtain ⟨gs, gl, g1, g2, g3⟩ := chunks_groups_tail (encode rs ++ r.text)
      ((encode rs ++ r.text).length - 1) (by omega) hsize r.text
      (text_no_newline (hwf r (by simp))) bs 0 [] rs
      (fun x hx => hwf x (List.mem_append_left _ hx)) (by simp) rfl
      (fun b hb => ⟨(hnl b hb).1, Nat.zero_le _, (hnl b hb).2⟩) hsorted
    have hwfgs : ∀ g ∈ gs, ∀ x ∈ g, x.wf := by
      intro g hg x hx
      apply hwf x
      rw [← g1]
      exact List.mem_append_left _ (List.mem_append_left _ (List.mem_flatten.mpr ⟨g, hg, hx⟩))
    have hwfgl : ∀ x ∈ gl ++ [r], x.wf := by
      intro x hx
      apply hwf x
      rw [← g1]
      rcases List.mem_append.mp hx with hx | hx
      · exact List.mem_append_left _ (List.mem_append_right _ hx)
      · exact List.mem_append_right _ hx
    refine ⟨gs ++ [gl ++ [r]], ?_, ?_, ?_⟩
    · rw [List.flatten_append, ← g1]
      simp
    · rw [List.length_append, g2, hlen]
      simp
      omega
    · unfold main_workers
      simp only
      rw [if_neg (by omega), heq, mapM_map_comp (fun c : Chunk => (c.start_idx, chunk_len c))
        (fun p => process_chunk_state (encode rs ++ r.text) p.1 p.2), g3, group_ranges_append,
        mapM_append_option, mapM_append_option]
      have hdu : encode rs ++ r.text = [] ++ encode gs.flatten ++ (encode gl ++ r.text) := by
        rw [← g1, encode_append]
        simp
      have hdt : encode (rs ++ [r]) = [] ++ encode gs.flatten ++ encode (gl ++ [r]) := by
        rw [← g1, encode_append, encode_append, encode_append]
        simp
      have hinit := group_ranges_mapM_congr gs [] (encode gl ++ r.text) (encode (gl ++ [r])) hwfgs
      rw [← hdu, ← hdt] at hinit
      rw [List.length_nil] at hinit
      rw [hinit]
      have hdu' : encode rs ++ r.text = encode gs.flatten ++ (encode gl ++ r.text) ++ [] := by
        rw [← g1, encode_append]
        simp
      have hdt' : encode (rs ++ [r]) = encode gs.flatten ++ encode (gl ++ [r]) ++ [] := by
        rw [← g1, encode_append, encode_append, encode_append]
        simp
      have hu := process_chunk_state_unterminated (encode gs.flatten) [] gl r hwfgl
      have ht := process_chunk_state_encode (encode gs.flatten) [] (gl ++ [r]) hwfgl
      rw [← hdu'] at hu
      rw [← hdt'] at ht
      have hlast : process_chunk_state (encode rs ++ r.text) (0 + (encode gs.flatten).length)
          ((encode gl).length + r.text.length)
          = process_chunk_state (encode (rs ++ [r])) (0 + (encode gs.flatten).length)
            (encode (gl ++ [r])).length := by
        rw [Nat.zero_add, ← List.length_append, hu, ht]
      simp only [group_ranges, List.mapM_cons, List.mapM_nil, hlast]

/-- The pipeline of `main` up to the merged table, on a non-empty file in the input
format with at most 10000 distinct names, when the planner finds a newline at every
stride. -/
theorem pipeline_file_spec (rs : List Reading) (fin : Option Reading)
    (hne : file_records rs fin ≠ []) (hwf : ∀ r ∈ file_records rs fin, r.wf)
    (hcap : ((file_records rs fin).map Reading.name).dedup.length ≤ NUM_STATIONS)
    (hsize : (encode_file rs fin).length < SIZE_MOD) (N : Nat) (hN : 1 ≤ N)
    (hfound : fin.isSome = true → ∀ k, 1 ≤ k → k < N →
      memchr (encode_file rs fin) 10 150 (k * ((encode_file rs fin).length / N)) ≠ none) :
    ∃ ws T M, main_workers N (encode_file rs fin) = some ws ∧
      sum_results_state (ws.map (fun w => w.table.result)) = some T ∧
      main_table N (encode_file rs fin) = some T ∧ Rep fnv_hash T M ∧
      ((∀ w ∈ ws, w.table.lost = 0) → T.lost = 0 → AggOf M (values (file_records rs fin))) := by
  obtain ⟨gs, h1, _, h2⟩ := main_workers_file rs fin hne hwf hsize N hN hfound
  rw [← h1] at hwf hcap h2 ⊢
  obtain ⟨ws, T, e1, e2, M, e3, e4⟩ := merged_groups_spec gs [] []
    (fun g hg r hr => hwf r (List.mem_flatten.mpr ⟨g, hg, hr⟩)) hcap
  simp only [List.nil_append, List.append_nil, List.length_nil] at e1
  rw [← h2] at e1
  refine ⟨ws, T, M, e1, e2, ?_, e3, e4⟩
  unfold main_table
  rw [e1]
  exact e2

/-- The pipeline of `main` on such a file loses no record when every name starts its
probes, in a worker and in the merge, far enough from the end of the slot array. -/
theorem pipeline_file_no_loss (rs : List Reading) (fin : Option Reading)
    (hne : file_records rs fin ≠ []) (hwf : ∀ r ∈ file_records rs fin, r.wf)
    (hcap : ((file_records rs fin).map Reading.name).dedup.length ≤ NUM_STATIONS)
    (hsize : (encode_file rs fin).length < SIZE_MOD) (N : Nat) (hN : 1 ≤ N)
    (hfound : fin.isSome = true → ∀ k, 1 ≤ k → k < N →
      memchr (encode_file rs fin) 10 150 (k * ((encode_file rs fin).length / N)) ≠ none)
    (hroom : ∀ r ∈ file_records rs fin,
      ((file_records rs fin).map Reading.name).dedup.length + worker_hash r.name ≤ MASK ∧
      ((file_records rs fin).map Reading.name).dedup.length + fnv_hash r.name ≤ MASK)
    (ws : List Worker) (T : Table) (hws : main_workers N (encode_file rs fin) = some ws)
    (hT : sum_results_state (ws.map (fun w => w.table.result)) = some T) :
    (∀ w ∈ ws, w.table.lost = 0) ∧ T.lost = 0 := by
  obtain ⟨gs, h1, _, h2⟩ := main_workers_file rs fin hne hwf hsize N hN hfound
  rw [h2] at hws
  rw [← h1] at hwf hcap hroom hws
  exact groups_no_loss gs (fun g hg r hr => hwf r (List.mem_flatten.mpr ⟨g, hg, hr⟩)) hcap
    hroom ws T hws hT

/-- C2 (count conservation), for a run of the pipeline that loses no probe and whose
planner finds a newline at every stride.  The file is in the input format: the lines
of the well-formed records `rs` and then, when `fin` is a record, its text without a
newline; it is not empty, its size fits a `size_t` and it has at most 10000 distinct
names.  When the last line has no newline, the lookahead of `generate_chunk_indices`
is to find a newline at each of the 9 strides, as it always does when the last line
has one.  Then the 10 workers of `main` return tables, `sum_results` returns the
merged table, and when no probe ran off the end of the slot array in a worker table
or in the merged table, the counts of the merged table add up to the number of
records of the file, the last one included. -/
theorem count_conservation (rs : List Reading) (fin : Option Reading)
    (hne : file_records rs fin ≠ []) (hwf : ∀ r ∈ file_records rs fin, r.wf)
    (hcap : ((file_records rs fin).map Reading.name).dedup.length ≤ NUM_STATIONS)
    (hsize : (encode_file rs fin).length < SIZE_MOD)
    (hfound : fin.isSome = true → ∀ k, 1 ≤ k → k < 10 →
      memchr (encode_file rs fin) 10 150 (k * ((encode_file rs fin).length / 10)) ≠ none) :
    ∃ ws T, main_workers 10 (encode_file rs fin) = some ws ∧
      sum_results_state (ws.map (fun w => w.table.result)) = some T ∧
      main_table 10 (encode_file rs fin) = some T ∧
      ((∀ w ∈ ws, w.table.lost = 0) → T.lost = 0 →
        ((entries T.result).map (fun p => p.2.count)).sum = (file_records rs fin).length) := by
  obtain ⟨ws, T, M, h1, h2, h3, h4, h5⟩ := pipeline_file_spec rs fin hne hwf hcap hsize 10
    (by decide) hfound
  refine ⟨ws, T, h1, h2, h3, ?_⟩
  intro hl hT
  exact count_of_entries T.result _ (rep_agg_entries h4 (h5 hl hT))

set_option maxRecDepth 4000 in
theorem unterminated_room :
    ∀ r ∈ file_records [⟨bytes "a", false, none, 1, 0⟩, ⟨bytes "b", false, none, 2, 0⟩]
        (some ⟨bytes "a", false, none, 3, 0⟩),
      ((file_records [⟨bytes "a", false, none, 1, 0⟩, ⟨bytes "b", false, none, 2, 0⟩]
        (some ⟨bytes "a", false, none, 3, 0⟩)).map Reading.name).dedup.length
          + worker_hash r.name ≤ MASK ∧
      ((file_records [⟨bytes "a", false, none, 1, 0⟩, ⟨bytes "b", false, none, 2, 0⟩]
        (some ⟨bytes "a", false, none, 3, 0⟩)).map Reading.name).dedup.length
          + fnv_hash r.name ≤ MASK := by
  decide

theorem unterminated_found : ∀ k, 1 ≤ k → k < 10 →
    memchr (encode_file [⟨bytes "a", false, none, 1, 0⟩, ⟨bytes "b", false, none, 2, 0⟩]
        (some ⟨bytes "a", false, none, 3, 0⟩)) 10 150
      (k * ((encode_file [⟨bytes "a", false, none, 1, 0⟩, ⟨bytes "b", false, none, 2, 0⟩]
        (some ⟨bytes "a", false, none, 3, 0⟩)).length / 10)) ≠ none := by
  intro k h1 h2
  interval_cases k <;> decide

/-- C2 on the 17-byte file `a;1.0\nb;2.0\na;3.0`, whose last line has no newline: the
planner finds a newline at every stride, no probe is lost and the counts of the
merged table add up to 3. -/
theorem count_conservation_witness :
    ∃ T, main_table 10 (bytes "a;1.0\nb;2.0\na;3.0") = some T ∧
      T.lost = 0 ∧ ((entries T.result).map (fun p => p.2.count)).sum = 3 := by
  have hdata : bytes "a;1.0\nb;2.0\na;3.0"
      = encode_file [⟨bytes "a", false, none, 1, 0⟩, ⟨bytes "b", false, none, 2, 0⟩]
        (some ⟨bytes "a", false, none, 3, 0⟩) := by decide
  obtain ⟨ws, T, h1, h2, h3, h4⟩ := count_conservation
    [⟨bytes "a", false, none, 1, 0⟩, ⟨bytes "b", false, none, 2, 0⟩]
    (some ⟨bytes "a", false, none, 3, 0⟩) (by decide) (by decide) (by decide) (by decide)
    (fun _ => unterminated_found)
  obtain ⟨hw, hT⟩ := pipeline_file_no_loss
    [⟨bytes "a", false, none, 1, 0⟩, ⟨bytes "b", false, none, 2, 0⟩]
    (some ⟨bytes "a", false, none, 3, 0⟩) (by decide) (by decide) (by decide) (by decide) 10
    (by decide) (fun _ => unterminated_found) unterminated_room ws T h1 h2
  exact ⟨T, by rw [hdata]; exact h3, hT, h4 hw hT⟩

end RowChallenge
